import Mathlib

/-!
# a-bitset-library: dense bitset (`abitset.c`) and growable bitset (`abitset_expandable.c`)

Shallow embedding of the two C translation units.

* Machine integers are natural numbers; every place where the C arithmetic is
  done in `uint32_t` and can wrap is reduced modulo `2^32` explicitly.
* A C array is a `List`; a read or write outside the array is undefined
  behaviour in C and is a `Fault` here.
* The growable bitset is modelled for one thread: an atomic load, store,
  fetch-or, fetch-and, fetch-add and compare-exchange is the plain operation.
* Where two handles may point into the same words (`abitset_and`,
  `abitset_or`, `abitset_and_not`), the words lie in one memory, a `List`, and
  a handle holds the index of its first word (`abitset_ref`).
-/

namespace ABitset

/-- Ways in which a call can leave defined behaviour. -/
inductive Fault where
  | out_of_bounds
  | null_page
  | assertion
  | nontermination
  deriving DecidableEq, Repr

/-- Modulus of `uint32_t`. -/
def U32 : Nat := 4294967296

/-- Largest `uint64_t`, the constant `0xFFFFFFFFFFFFFFFFULL`. -/
def UINT64_MAX : Nat := 18446744073709551615

/-- The C operator `~` on a `uint64_t`. -/
def not64 (x : Nat) : Nat := UINT64_MAX - x

/-! ## Growable bitset: `abitset_expandable.c` -/

/-- `#define PAGE_SIZE (1 << 12)`: bytes in a page. -/
def PAGE_SIZE : Nat := 1 <<< 12

/-- `#define PAGE_ENTRIES (PAGE_SIZE >> 3)`: 64-bit words in a page. -/
def PAGE_ENTRIES : Nat := PAGE_SIZE >>> 3

/-- `#define INITIAL_PAGES (1 << 11)`: slots of the first directory. -/
def INITIAL_PAGES : Nat := 1 <<< 11

/-- A page: an array of `PAGE_ENTRIES` words. -/
abbrev Page := List Nat

/-- A directory: an array of page pointers, `none` being the null pointer. -/
abbrev Directory := List (Option Page)

/-- `struct abitset_expandable_s`. `pages` is the array `h->pages` points to,
with the length it was allocated with; `page_count` is the separate field.
`bit_count` (an `atomic_uint_fast32_t`, at least 32 bits wide) is kept modulo
`2^32`: it is read only by `abitset_expandable_count`, which returns it as
`uint32_t`. -/
structure abitset_expandable_s where
  pages : Directory
  old_pages : Option Directory
  page_count : Nat
  max_bit : Nat
  bit_count : Nat
  deriving DecidableEq, Repr

/-- `abitset_expandable_init`. -/
def abitset_expandable_init : abitset_expandable_s :=
  { pages := List.replicate INITIAL_PAGES none
    old_pages := none
    page_count := INITIAL_PAGES
    max_bit := 0
    bit_count := 0 }

/-- The loop `while (required_page >= new_page_count) new_page_count <<= 1;` of
`abitset_expandable_expand`, on `uint32_t`. After 32 doublings the value is 0
for good, so 33 rounds without leaving the loop mean it never leaves. -/
def expand_double : Nat → Nat → Nat → Option Nat
  | 0, _, _ => none
  | fuel + 1, required_page, new_page_count =>
    if required_page >= new_page_count then
      expand_double fuel required_page ((new_page_count <<< 1) % U32)
    else some new_page_count

/-- The array `new_pages` that `abitset_expandable_expand` allocates and fills
with `memcpy`: the first `page_count` slots of the current directory followed
by null slots. -/
def expand_new_pages (pages : Directory) (page_count new_page_count : Nat) : Directory :=
  pages.take page_count ++ List.replicate (new_page_count - page_count) none

/-- `abitset_expandable_expand`. In the resize branch the source allocates
`new_pages` (see `expand_new_pages`), moves `h->pages` to `h->old_pages` and
stores the new `page_count`; it has no assignment to `h->pages`, so the field
keeps the array it had. -/
def abitset_expandable_expand (h : abitset_expandable_s) (id : Nat) :
    Except Fault abitset_expandable_s :=
  let required_page := id >>> 18
  let h1 := if id > h.max_bit then { h with max_bit := id } else h
  let page_count := h1.page_count
  let resized : Except Fault abitset_expandable_s :=
    if required_page >= page_count then
      match expand_double 33 required_page page_count with
      | none => .error .nontermination
      | some new_page_count =>
        if h1.pages.length < page_count then .error .out_of_bounds
        else .ok { h1 with old_pages := some h1.pages, page_count := new_page_count }
    else .ok h1
  match resized with
  | .error e => .error e
  | .ok h2 =>
    match h2.pages[required_page]? with
    | none => .error .out_of_bounds
    | some (some _) => .ok h2
    | some none =>
      .ok { h2 with pages := h2.pages.set required_page (some (List.replicate PAGE_ENTRIES 0)) }

/-- `abitset_expandable_set`. -/
def abitset_expandable_set (h : abitset_expandable_s) (id : Nat) :
    Except Fault abitset_expandable_s :=
  match abitset_expandable_expand h id with
  | .error e => .error e
  | .ok h1 =>
    let page := id >>> 18
    let offset := (id >>> 6) &&& (PAGE_ENTRIES - 1)
    let bit := id &&& 63
    match h1.pages[page]? with
    | none => .error .out_of_bounds
    | some none => .error .null_page
    | some (some p) =>
      match p[offset]? with
      | none => .error .out_of_bounds
      | some old =>
        let h2 := { h1 with pages := h1.pages.set page (some (p.set offset (old ||| (1 <<< bit)))) }
        if old &&& (1 <<< bit) = 0 then
          .ok { h2 with bit_count := (h2.bit_count + 1) % U32 }
        else .ok h2

/-- `abitset_expandable_unset`. -/
def abitset_expandable_unset (h : abitset_expandable_s) (id : Nat) :
    Except Fault abitset_expandable_s :=
  match abitset_expandable_expand h id with
  | .error e => .error e
  | .ok h1 =>
    let page := id >>> 18
    let offset := (id >>> 6) &&& (PAGE_ENTRIES - 1)
    let bit := id &&& 63
    match h1.pages[page]? with
    | none => .error .out_of_bounds
    | some none => .error .null_page
    | some (some p) =>
      match p[offset]? with
      | none => .error .out_of_bounds
      | some old =>
        let h2 := { h1 with pages := h1.pages.set page (some (p.set offset (old &&& not64 (1 <<< bit)))) }
        if old &&& (1 <<< bit) ≠ 0 then
          .ok { h2 with bit_count := (h2.bit_count + U32 - 1) % U32 }
        else .ok h2

/-- `abitset_expandable_enabled`. -/
def abitset_expandable_enabled (h : abitset_expandable_s) (id : Nat) : Except Fault Bool :=
  let page_count := h.page_count
  let required_page := id >>> 18
  if required_page >= page_count then .ok false
  else
    match h.pages[required_page]? with
    | none => .error .out_of_bounds
    | some none => .ok false
    | some (some page) =>
      let offset := (id >>> 6) &&& (PAGE_ENTRIES - 1)
      let bit := id &&& 63
      match page[offset]? with
      | none => .error .out_of_bounds
      | some w => .ok (decide (w &&& (1 <<< bit) ≠ 0))

/-- `abitset_expandable_count`: the counter, returned as `uint32_t`. -/
def abitset_expandable_count (h : abitset_expandable_s) : Nat :=
  h.bit_count % U32

/-- `abitset_expandable_size`. -/
def abitset_expandable_size (h : abitset_expandable_s) : Nat :=
  (h.max_bit + 1) % U32

/-- `memcpy(&dst[start], src, 8 * words)`. -/
def copy_words (dst : List Nat) (start : Nat) (src : List Nat) (words : Nat) :
    Except Fault (List Nat) :=
  if words = 0 then .ok dst
  else if start + words > dst.length then .error .out_of_bounds
  else if words > src.length then .error .out_of_bounds
  else .ok (dst.take start ++ src.take words ++ dst.drop (start + words))

/-- The body of the `for` loop of `abitset_expandable_repr`, from slot `i` on,
for `n` more slots. -/
def repr_loop (h : abitset_expandable_s) (size : Nat) : Nat → Nat → List Nat →
    Except Fault (List Nat)
  | 0, _, repr => .ok repr
  | n + 1, i, repr =>
    match h.pages[i]? with
    | none => .error .out_of_bounds
    | some none => repr_loop h size n (i + 1) repr
    | some (some page) =>
      let start_idx := (i <<< 9) % U32
      let bits_remaining := (size + U32 - (start_idx <<< 6) % U32) % U32
      let bytes_to_copy :=
        if bits_remaining >= (PAGE_ENTRIES <<< 6) then PAGE_SIZE
        else ((((bits_remaining + 63) % U32) >>> 6) <<< 3) % U32
      match copy_words repr start_idx page (bytes_to_copy >>> 3) with
      | .error e => .error e
      | .ok repr1 => repr_loop h size n (i + 1) repr1

/-- `abitset_expandable_repr`. -/
def abitset_expandable_repr (h : abitset_expandable_s) : Except Fault (List Nat) :=
  let size := (h.max_bit + 1) % U32
  let num_entries := ((size + 63) % U32) >>> 6
  repr_loop h size h.page_count 0 (List.replicate num_entries 0)

/-- The body of the `for` loop of `abitset_expandable_load`, from word `i` on,
for `n` more words. -/
def load_loop (repr : List Nat) : Nat → Nat → abitset_expandable_s →
    Except Fault abitset_expandable_s
  | 0, _, h => .ok h
  | n + 1, i, h =>
    match repr[i]? with
    | none => .error .out_of_bounds
    | some value =>
      if value ≠ 0 then
        let page := i >>> 9
        let offset := i &&& (PAGE_ENTRIES - 1)
        match h.pages[page]? with
        | none => .error .out_of_bounds
        | some slot =>
          let p := match slot with
            | none => List.replicate PAGE_ENTRIES 0
            | some q => q
          if offset < p.length then
            load_loop repr n (i + 1) { h with pages := h.pages.set page (some (p.set offset value)) }
          else .error .out_of_bounds
      else load_loop repr n (i + 1) h

/-- `abitset_expandable_load`. -/
def abitset_expandable_load (repr : List Nat) (size : Nat) :
    Except Fault abitset_expandable_s := do
  let num_entries := ((size + 63) % U32) >>> 6
  let h1 ← abitset_expandable_expand abitset_expandable_init ((size + U32 - 1) % U32)
  let h2 ← load_loop repr num_entries 0 h1
  pure { h2 with max_bit := (size + U32 - 1) % U32 }

/-! ## Dense bitset: `abitset.c` -/

/-- `struct abitset_s`. `items` is the word array between the pointers
`h->items` and `h->ep`, so `h->ep - h->items` is its length. -/
structure abitset_s where
  items : List Nat
  last_mask : Nat
  size : Nat
  deriving DecidableEq, Repr

/-- `abitset_init` (the pool only supplies zeroed memory). -/
def abitset_init (size : Nat) : abitset_s :=
  let full_blocks := size >>> 6
  let remaining_bits := size &&& 63
  let mask := if remaining_bits = 0 then UINT64_MAX else (1 <<< remaining_bits) - 1
  { items := List.replicate (full_blocks + (if remaining_bits > 0 then 1 else 0)) 0
    last_mask := mask
    size := size }

/-- `abitset_load`: the handle covers the first
`full_blocks + (remaining_bits > 0 ? 1 : 0)` words of `repr`, copied or not;
the words are taken as they are. -/
def abitset_load (repr : List Nat) (size : Nat) (_make_copy : Bool) : abitset_s :=
  let full_blocks := size >>> 6
  let remaining_bits := size &&& 63
  let mask := if remaining_bits = 0 then UINT64_MAX else (1 <<< remaining_bits) - 1
  { items := repr.take (full_blocks + (if remaining_bits > 0 then 1 else 0))
    last_mask := mask
    size := size }

/-- `abitset_size`. -/
def abitset_size (h : abitset_s) : Nat := h.size

/-- `abitset_enabled`. -/
def abitset_enabled (h : abitset_s) (id : Nat) : Bool :=
  let block := id >>> 6
  let mask := id &&& 63
  match h.items[block]? with
  | none => false
  | some w => decide (w &&& (1 <<< mask) ≠ 0)

/-- `abitset_set`, with `assert` compiled in. -/
def abitset_set (h : abitset_s) (id : Nat) : Except Fault abitset_s :=
  if ¬ (id < h.size) then .error .assertion
  else
    let block := id >>> 6
    let mask := id &&& 63
    match h.items[block]? with
    | none => .ok h
    | some w => .ok { h with items := h.items.set block (w ||| (1 <<< mask)) }

/-- `abitset_unset`, with `assert` compiled in. -/
def abitset_unset (h : abitset_s) (id : Nat) : Except Fault abitset_s :=
  if ¬ (id < h.size) then .error .assertion
  else
    let block := id >>> 6
    let mask := id &&& 63
    match h.items[block]? with
    | none => .ok h
    | some w => .ok { h with items := h.items.set block (w &&& not64 (1 <<< mask)) }

/-- `abitset_boolean`. -/
def abitset_boolean (h : abitset_s) (id : Nat) (v : Bool) : Except Fault abitset_s :=
  if v then abitset_set h id else abitset_unset h id

/-- The inner loop `while (n) { n &= (n - 1); count++; }` of `abitset_count`,
with `count` an `unsigned int`. A 64-bit word leaves the loop within 64
rounds (`count_word_fuel`). -/
def count_word : Nat → Nat → Nat → Nat
  | 0, _, count => count
  | fuel + 1, n, count =>
    if n ≠ 0 then count_word fuel (n &&& (n - 1)) ((count + 1) % U32) else count

/-- `abitset_count`. -/
def abitset_count (h : abitset_s) : Nat :=
  h.items.foldl (fun count n => count_word 64 n count) 0

/-- `abitset_repr`: the word array itself. -/
def abitset_repr (h : abitset_s) : List Nat := h.items

/-- `abitset_count_and_zero`: the value returned and the bitset afterwards. -/
def abitset_count_and_zero (h : abitset_s) : Nat × abitset_s :=
  (h.items.foldl (fun count n => if n ≠ 0 then count_word 64 n count else count) 0,
   { h with items := h.items.map (fun n => if n ≠ 0 then 0 else n) })

/-- The loop `while ((x & 1) == 0) { x >>= 1; index++; }` of `portable_ctzll`,
with `index` a `uint32_t`. A 64-bit `x` that has not left the loop after 64
rounds is 0 and never leaves it. -/
def ctz_loop : Nat → Nat → Nat → Option Nat
  | 0, _, _ => none
  | fuel + 1, x, index =>
    if x &&& 1 = 0 then ctz_loop fuel (x >>> 1) ((index + 1) % U32) else some index

/-- `portable_ctzll`; `none` when the loop does not end. -/
def portable_ctzll (x : Nat) : Option Nat := ctz_loop 64 x 0

/-- Conversion of a non-negative `ptrdiff_t` value to the `int32_t` a function
returns, on a two's complement target: the value modulo `2^32`, read as
signed. -/
def to_int32 (v : Nat) : Int :=
  if v % U32 < 2147483648 then ((v % U32 : Nat) : Int) else ((v % U32 : Nat) : Int) - 4294967296

/-- The loop of `abitset_first_enabled` over the words from `p` on, `k` being
`p - bs->items`. -/
def first_enabled_loop : List Nat → Nat → Except Fault Int
  | [], _ => .ok (-1)
  | block :: rest, k =>
    if block ≠ 0 then
      match portable_ctzll block with
      | none => .error .nontermination
      | some bit_index => .ok (to_int32 (k * 64 + bit_index))
    else first_enabled_loop rest (k + 1)

/-- `abitset_first_enabled`. -/
def abitset_first_enabled (bs : abitset_s) : Except Fault Int :=
  first_enabled_loop bs.items 0

/-- The statement `if (h->items < h->ep) h->ep[-1] &= h->last_mask;` of
`abitset_true` and `abitset_not`. -/
def mask_last_word (items : List Nat) (last_mask : Nat) : List Nat :=
  match items[items.length - 1]? with
  | none => items
  | some w => items.set (items.length - 1) (w &&& last_mask)

/-- `abitset_true`. -/
def abitset_true (h : abitset_s) : abitset_s :=
  { h with items := mask_last_word (List.replicate h.items.length UINT64_MAX) h.last_mask }

/-- `abitset_false`. -/
def abitset_false (h : abitset_s) : abitset_s :=
  { h with items := List.replicate h.items.length 0 }

/-- `abitset_not`. -/
def abitset_not (h : abitset_s) : abitset_s :=
  { h with items := mask_last_word (h.items.map not64) h.last_mask }

/-- The loop `while (p < ep) { *p = *p OP *p2; p++; p2++; }` shared by
`abitset_and`, `abitset_or` and `abitset_and_not`: `p` runs over the words of
`dest` up to `dest->ep`, `p2` over the words of the other bitset with no bound
of its own. -/
def combine_loop (op : Nat → Nat → Nat) : List Nat → List Nat → Except Fault (List Nat)
  | [], _ => .ok []
  | _ :: _, [] => .error .out_of_bounds
  | w :: ws, v :: vs =>
    match combine_loop op ws vs with
    | .error e => .error e
    | .ok r => .ok (op w v :: r)

/-- `abitset_and` on two bitsets whose word arrays do not overlap: `dest` and
`to_and` after the call. The source writes through `p` only, so here `to_and`
is as it came. For handles that may share words the function is
`abitset_and_in`; `abitset_and_in_separate` shows that the two agree on arrays
that do not overlap. -/
def abitset_and (dest to_and : abitset_s) : Except Fault (abitset_s × abitset_s) :=
  match combine_loop (fun a b => a &&& b) dest.items to_and.items with
  | .error e => .error e
  | .ok r => .ok ({ dest with items := r }, to_and)

/-- `abitset_or` on two bitsets whose word arrays do not overlap: `dest` and
`to_or` after the call (`abitset_or_in` for handles that may share words). -/
def abitset_or (dest to_or : abitset_s) : Except Fault (abitset_s × abitset_s) :=
  match combine_loop (fun a b => a ||| b) dest.items to_or.items with
  | .error e => .error e
  | .ok r => .ok ({ dest with items := r }, to_or)

/-- `abitset_and_not` on two bitsets whose word arrays do not overlap: `dest`
and `to_not` after the call (`abitset_and_not_in` for handles that may share
words). -/
def abitset_and_not (dest to_not : abitset_s) : Except Fault (abitset_s × abitset_s) :=
  match combine_loop (fun a b => a &&& not64 b) dest.items to_not.items with
  | .error e => .error e
  | .ok r => .ok ({ dest with items := r }, to_not)

/-- A handle `abitset_t` whose word array lies in a word memory that other
handles may point into as well: `items` is the index of its first word in the
memory and `words` is `ep - items`. -/
structure abitset_ref where
  items : Nat
  words : Nat
  last_mask : Nat
  size : Nat
  deriving DecidableEq, Repr

/-- The bitset a handle designates: its words as the memory holds them. -/
def deref (mem : List Nat) (r : abitset_ref) : abitset_s :=
  { items := (mem.drop r.items).take r.words
    last_mask := r.last_mask
    size := r.size }

/-- The loop `while (p < ep) { *p = *p OP *p2; p++; p2++; }` on a memory that
holds the words of both handles: `p` and `p2` are word indices, the first
count is `ep - p`, the second the number of words the other handle has from
`p2` on. Each round reads `*p` and `*p2` and then writes `*p`. -/
def combine_mem (op : Nat → Nat → Nat) :
    Nat → Nat → Nat → Nat → List Nat → Except Fault (List Nat)
  | 0, _, _, _, mem => .ok mem
  | _ + 1, 0, _, _, _ => .error .out_of_bounds
  | n + 1, n2 + 1, p, p2, mem =>
    match mem[p]?, mem[p2]? with
    | some w, some v => combine_mem op n n2 (p + 1) (p2 + 1) (mem.set p (op w v))
    | _, _ => .error .out_of_bounds

/-- `abitset_and` on two handles into one memory, which may be one handle
twice or share words: the memory after the call. -/
def abitset_and_in (mem : List Nat) (dest to_and : abitset_ref) : Except Fault (List Nat) :=
  combine_mem (fun a b => a &&& b) dest.words to_and.words dest.items to_and.items mem

/-- `abitset_or` on two handles into one memory: the memory after the call. -/
def abitset_or_in (mem : List Nat) (dest to_or : abitset_ref) : Except Fault (List Nat) :=
  combine_mem (fun a b => a ||| b) dest.words to_or.words dest.items to_or.items mem

/-- `abitset_and_not` on two handles into one memory: the memory after the
call. -/
def abitset_and_not_in (mem : List Nat) (dest to_not : abitset_ref) : Except Fault (List Nat) :=
  combine_mem (fun a b => a &&& not64 b) dest.words to_not.words dest.items to_not.items mem

/-! ## Auxiliary definitions for the statements -/

deriving instance DecidableEq for Except

/-- Result of `abitset_expandable_enabled` on the outcome of an earlier call. -/
def enabled_after (e : Except Fault abitset_expandable_s) (id : Nat) : Except Fault Bool :=
  match e with
  | .ok h => abitset_expandable_enabled h id
  | .error x => .error x

/-- Bit `b` of word `i` of a flat word array, `(repr[i] >> b) & 1`; `none` when
the array has no word `i`. -/
def repr_bit (repr : List Nat) (i b : Nat) : Option Bool :=
  match repr[i]? with
  | none => none
  | some w => some (decide ((w >>> b) &&& 1 = 1))

/-- The state `abitset_expandable_load` builds from the one-word array `[1]`
with `size = 1`. -/
def loaded_one : abitset_expandable_s :=
  { pages := (List.replicate INITIAL_PAGES none).set 0 (some ((List.replicate PAGE_ENTRIES 0).set 0 1))
    old_pages := none
    page_count := INITIAL_PAGES
    max_bit := 0
    bit_count := 0 }

/-- The state of `abitset_expandable_load` with `size = 32769` after its call
of `abitset_expandable_expand`. -/
def load_512_expanded : abitset_expandable_s :=
  { pages := (List.replicate INITIAL_PAGES none).set 0 (some (List.replicate PAGE_ENTRIES 0))
    old_pages := none
    page_count := INITIAL_PAGES
    max_bit := 32768
    bit_count := 0 }

/-- The bitset `abitset_expandable_load` builds from 513 words of which only
word 512 is non-zero (value 1), with `size = 32769`. -/
def load_512_state : abitset_expandable_s :=
  { pages := ((List.replicate INITIAL_PAGES none).set 0 (some (List.replicate PAGE_ENTRIES 0))).set 1
      (some ((List.replicate PAGE_ENTRIES 0).set 0 1))
    old_pages := none
    page_count := INITIAL_PAGES
    max_bit := 32768
    bit_count := 0 }

/-- The state after `abitset_expandable_set` of id 32768 on a fresh bitset. -/
def set_32768 : abitset_expandable_s :=
  { pages := (List.replicate INITIAL_PAGES none).set 0 (some ((List.replicate PAGE_ENTRIES 0).set 0 1))
    old_pages := none
    page_count := INITIAL_PAGES
    max_bit := 32768
    bit_count := 1 }

/-- Number of words of a dense bitset of `size` bits:
`full_blocks + (remaining_bits > 0 ? 1 : 0)`. -/
def word_count (size : Nat) : Nat :=
  (size >>> 6) + (if (size &&& 63) > 0 then 1 else 0)

/-- Number of bits that are 1 among the `k` lowest bits of `w`. -/
def ones_below (k w : Nat) : Nat :=
  (List.range k).countP (fun b => w.testBit b)

/-- Number of bits that are 1 in a 64-bit word. -/
def word_ones (w : Nat) : Nat := ones_below 64 w

/-- Bit `i mod 64` of word `i div 64` of a word array (`false` outside it). -/
def bit_at (l : List Nat) (i : Nat) : Bool :=
  match l[i / 64]? with
  | none => false
  | some w => w.testBit (i % 64)

/-- The 100-bit bitset of the test program after `abitset_set` of ids 0 and 99. -/
def test_bitset : abitset_s :=
  { items := [1, 34359738368]
    last_mask := 68719476735
    size := 100 }

/-- The value `abitset_init` and `abitset_load` give `last_mask` for a bitset
of `size` bits. -/
def tail_mask (size : Nat) : Nat :=
  if size &&& 63 = 0 then UINT64_MAX else (1 <<< (size &&& 63)) - 1

/-- The bitset of 2147483649 bits in which only the last id, 2147483648, is
set (`abitset_init` with that size, then `abitset_set` of that id). -/
def last_bit_2_31 : abitset_s :=
  { items := List.replicate 33554432 0 ++ [1]
    last_mask := 1
    size := 2147483649 }

/-- A three-word bitset in which only id 131 is set. -/
def bit_131 : abitset_s :=
  { items := [0, 0, 8]
    last_mask := 18446744073709551615
    size := 192 }

/-- The second 100-bit bitset of the test program, after `abitset_set` of id 0. -/
def other_bitset : abitset_s :=
  { items := [1, 0]
    last_mask := 68719476735
    size := 100 }

/-- The handle of the test program's 100-bit bitset in a memory that holds its
two words first. -/
def test_ref : abitset_ref :=
  { items := 0
    words := 2
    last_mask := 68719476735
    size := 100 }

/-- The handle of a second 100-bit bitset whose two words follow those of
`test_ref`. -/
def other_ref : abitset_ref :=
  { items := 2
    words := 2
    last_mask := 68719476735
    size := 100 }

/-- The words of page `i` of a directory; a null or missing slot reads as a
page of zeros. -/
def page_at (pages : Directory) (i : Nat) : Page :=
  match pages[i]? with
  | some (some q) => q
  | _ => List.replicate PAGE_ENTRIES 0

/-- The word that `abitset_expandable_set`, `abitset_expandable_unset` and
`abitset_expandable_enabled` address for `id`: word
`(id >> 6) & (PAGE_ENTRIES - 1)` of page `id >> 18`. -/
def word_at (h : abitset_expandable_s) (id : Nat) : Nat :=
  (page_at h.pages (id >>> 18)).getD ((id >>> 6) &&& (PAGE_ENTRIES - 1)) 0

/-- Shape of a directory: it has `page_count` slots and every installed page
has `PAGE_ENTRIES` words. -/
def dir_ok (h : abitset_expandable_s) : Prop :=
  h.pages.length = h.page_count ∧ ∀ q, some q ∈ h.pages → q.length = PAGE_ENTRIES

/-- Number of 1 bits in a page. -/
def ones_page (q : Page) : Nat := (q.map word_ones).sum

/-- Number of 1 bits a directory slot holds: none for a null slot. -/
def ones_slot (s : Option Page) : Nat :=
  match s with
  | none => 0
  | some q => ones_page q

/-- Number of bits that are 1 across all allocated pages of a directory. -/
def ones_dir (pages : Directory) : Nat := (pages.map ones_slot).sum

/-- A call of the sequential interface that changes the bitset. -/
inductive Op where
  | set (id : Nat)
  | unset (id : Nat)
  deriving DecidableEq, Repr

/-- One call. -/
def apply_op (h : abitset_expandable_s) : Op → Except Fault abitset_expandable_s
  | .set id => abitset_expandable_set h id
  | .unset id => abitset_expandable_unset h id

/-- A sequence of calls, one after the other; a fault ends the run. -/
def run : abitset_expandable_s → List Op → Except Fault abitset_expandable_s
  | h, [] => .ok h
  | h, op :: ops =>
    match apply_op h op with
    | .error e => .error e
    | .ok h1 => run h1 ops

/-- What holds in every state reached from `abitset_expandable_init`: the
directory has its `INITIAL_PAGES` well-shaped slots and the counter is the
number of 1 bits. -/
def count_inv (h : abitset_expandable_s) : Prop :=
  dir_ok h ∧ h.page_count = INITIAL_PAGES ∧ h.bit_count = ones_dir h.pages

/-- The test program's calls before it reads the counter: set 0, 100, 4095,
8192 and unset 100. -/
def test_ops : List Op :=
  [.set 0, .set 100, .set 4095, .set 8192, .unset 100]

/-- The state the test program's calls reach. -/
def test_state : abitset_expandable_s :=
  { pages := (List.replicate INITIAL_PAGES none).set 0
      (some ((((List.replicate PAGE_ENTRIES 0).set 0 1).set 63 9223372036854775808).set 128 1))
    old_pages := none
    page_count := INITIAL_PAGES
    max_bit := 8192
    bit_count := 3 }

/-- The condition of the last word: the array has the word count and the
bitset the `last_mask` of its size, every word is a 64-bit value, and no bit
at a position `>= size` is 1. -/
def tail_clear (x : abitset_s) : Prop :=
  x.items.length = word_count x.size ∧ x.last_mask = tail_mask x.size ∧
  (∀ w ∈ x.items, w < 2 ^ 64) ∧ ∀ id, x.size ≤ id → bit_at x.items id = false

/-- The dense bitsets made by `abitset_init` and then changed by calls of
`abitset_set`, `abitset_unset`, `abitset_boolean` (that return), of
`abitset_true`, `abitset_false`, `abitset_not`, `abitset_count_and_zero`, and
of `abitset_and`, `abitset_or`, `abitset_and_not` with a bitset of the same
size made the same way. -/
inductive dense_built : abitset_s → Prop where
  | of_init (size : Nat) : dense_built (abitset_init size)
  | of_set (h h1 : abitset_s) (id : Nat) :
      dense_built h → abitset_set h id = .ok h1 → dense_built h1
  | of_unset (h h1 : abitset_s) (id : Nat) :
      dense_built h → abitset_unset h id = .ok h1 → dense_built h1
  | of_boolean (h h1 : abitset_s) (id : Nat) (v : Bool) :
      dense_built h → abitset_boolean h id v = .ok h1 → dense_built h1
  | of_true (h : abitset_s) : dense_built h → dense_built (abitset_true h)
  | of_false (h : abitset_s) : dense_built h → dense_built (abitset_false h)
  | of_not (h : abitset_s) : dense_built h → dense_built (abitset_not h)
  | of_count_and_zero (h : abitset_s) :
      dense_built h → dense_built (abitset_count_and_zero h).2
  | of_and (dest src dest1 src1 : abitset_s) :
      dense_built dest → dense_built src → dest.size = src.size →
      abitset_and dest src = .ok (dest1, src1) → dense_built dest1
  | of_or (dest src dest1 src1 : abitset_s) :
      dense_built dest → dense_built src → dest.size = src.size →
      abitset_or dest src = .ok (dest1, src1) → dense_built dest1
  | of_and_not (dest src dest1 src1 : abitset_s) :
      dense_built dest → dense_built src → dest.size = src.size →
      abitset_and_not dest src = .ok (dest1, src1) → dense_built dest1

/-- The index `start_idx` that `abitset_expandable_repr` computes for slot `i`:
the first word of the range it copies the page of the slot to. -/
def repr_start_idx (i : Nat) : Nat := (i <<< 9) % U32

/-- The number of words `abitset_expandable_repr` copies for slot `i` when the
size is `size`: `bytes_to_copy` over 8. -/
def repr_copy_words (size i : Nat) : Nat :=
  let start_idx := (i <<< 9) % U32
  let bits_remaining := (size + U32 - (start_idx <<< 6) % U32) % U32
  let bytes_to_copy :=
    if bits_remaining >= (PAGE_ENTRIES <<< 6) then PAGE_SIZE
    else ((((bits_remaining + 63) % U32) >>> 6) <<< 3) % U32
  bytes_to_copy >>> 3

/-- Every installed page of a directory starts at or below bit `m` of the
exported array: slot `i` holds a page only if `i * 32768 <= m`. -/
def pages_below (pages : Directory) (m : Nat) : Prop :=
  ∀ i page, pages[i]? = some (some page) → i * 32768 ≤ m

/-- What holds in every state reached from `abitset_expandable_init` or
`abitset_expandable_load` by set and unset calls: the directory has its
`INITIAL_PAGES` well-shaped slots, `max_bit` is below `2^29`, and every
installed page starts at or below bit `max_bit`. -/
def repr_inv (h : abitset_expandable_s) : Prop :=
  dir_ok h ∧ h.page_count = INITIAL_PAGES ∧ h.max_bit < 536870912 ∧
  pages_below h.pages h.max_bit

/-! ## Theorems -/

/-! ### Bit arithmetic -/

theorem and_one_shiftLeft_ne_zero (w m : Nat) :
    decide (w &&& (1 <<< m) ≠ 0) = w.testBit m := by
  rw [Nat.one_shiftLeft]
  cases hb : w.testBit m with
  | false =>
    have hz : w &&& 2 ^ m = 0 := by
      apply Nat.eq_of_testBit_eq
      intro i
      rw [Nat.testBit_and, Nat.testBit_two_pow, Nat.zero_testBit]
      by_cases hmi : m = i
      · subst hmi; simp [hb]
      · simp [hmi]
    simp [hz]
  | true =>
    have hne : w &&& 2 ^ m ≠ 0 := by
      intro hz
      have h1 : (w &&& 2 ^ m).testBit m = true := by
        rw [Nat.testBit_and, Nat.testBit_two_pow_self, hb]; rfl
      rw [hz, Nat.zero_testBit] at h1
      exact Bool.noConfusion h1
    simp [hne]

theorem testBit_set_bit (w m j : Nat) :
    (w ||| (1 <<< m)).testBit j = (w.testBit j || decide (m = j)) := by
  rw [Nat.one_shiftLeft, Nat.testBit_or, Nat.testBit_two_pow]

theorem testBit_clear_bit (w m j : Nat) (hm : m < 64) (hj : j < 64) :
    (w &&& not64 (1 <<< m)).testBit j = (w.testBit j && !decide (m = j)) := by
  have hlt : 2 ^ m < 2 ^ 64 := Nat.pow_lt_pow_right (by decide) hm
  have hrw : not64 (1 <<< m) = 2 ^ 64 - (2 ^ m + 1) := by
    rw [Nat.one_shiftLeft]
    simp only [not64, UINT64_MAX]
    omega
  rw [Nat.testBit_and, hrw, Nat.testBit_two_pow_sub_succ hlt, Nat.testBit_two_pow]
  simp [hj]

theorem id_split (i : Nat) : i >>> 6 = i / 64 ∧ i &&& 63 = i % 64 := by
  constructor
  · rw [Nat.shiftRight_eq_div_pow]
  · exact Nat.and_pow_two_sub_one_eq_mod i 6

/-! ### Dense bitset: point operations -/

/-- `abitset_enabled` tests bit `id mod 64` of word `id div 64`. -/
theorem abitset_enabled_eq (h : abitset_s) (id : Nat) :
    abitset_enabled h id = match h.items[id / 64]? with
      | none => false
      | some w => w.testBit (id % 64) := by
  unfold abitset_enabled
  simp only [(id_split id).1, (id_split id).2]
  cases h.items[id / 64]? with
  | none => rfl
  | some w => exact and_one_shiftLeft_ne_zero w (id % 64)

/-- An id below `size` has its word inside the array. -/
theorem block_lt_of_lt_size (h : abitset_s) (id : Nat)
    (hwf : h.items.length = word_count h.size) (hid : id < h.size) :
    id / 64 < h.items.length := by
  rw [hwf]
  unfold word_count
  rw [(id_split h.size).1, (id_split h.size).2]
  split <;> omega

/-- C9: on a dense bitset with the word count of its size, for `id < size`
and any `j`: `abitset_set` succeeds, keeps the size, makes `id` enabled and
leaves every other `j` as it was; `abitset_unset` succeeds, keeps the size,
makes `id` not enabled and leaves every other `j` as it was;
`abitset_boolean` with value `v` succeeds, keeps the size and makes
`abitset_enabled` of `id` equal to `v`. -/
theorem dense_point_operations (h : abitset_s) (id j : Nat) (v : Bool)
    (hwf : h.items.length = word_count h.size) (hid : id < h.size) :
    (∃ h1, abitset_set h id = .ok h1 ∧ abitset_size h1 = abitset_size h ∧
      abitset_enabled h1 j = (if j = id then true else abitset_enabled h j)) ∧
    (∃ h2, abitset_unset h id = .ok h2 ∧ abitset_size h2 = abitset_size h ∧
      abitset_enabled h2 j = (if j = id then false else abitset_enabled h j)) ∧
    (∃ h3, abitset_boolean h id v = .ok h3 ∧ abitset_size h3 = abitset_size h ∧
      abitset_enabled h3 id = v) := by
  have hb : id / 64 < h.items.length := block_lt_of_lt_size h id hwf hid
  have hget : h.items[id / 64]? = some (h.items[id / 64]) := List.getElem?_eq_getElem hb
  have hm : id % 64 < 64 := Nat.mod_lt _ (by decide)
  -- the state after set and its reads
  have hset : abitset_set h id
      = .ok { h with items := h.items.set (id / 64) (h.items[id / 64] ||| (1 <<< (id % 64))) } := by
    unfold abitset_set
    rw [if_neg (by simpa using hid)]
    simp only [(id_split id).1, (id_split id).2, hget]
  have hunset : abitset_unset h id
      = .ok { h with items := h.items.set (id / 64) (h.items[id / 64] &&& not64 (1 <<< (id % 64))) } := by
    unfold abitset_unset
    rw [if_neg (by simpa using hid)]
    simp only [(id_split id).1, (id_split id).2, hget]
  have hread_set : ∀ k, abitset_enabled
      { h with items := h.items.set (id / 64) (h.items[id / 64] ||| (1 <<< (id % 64))) } k
      = (if k = id then true else abitset_enabled h k) := by
    intro k
    rw [abitset_enabled_eq, abitset_enabled_eq]
    by_cases hk : k / 64 = id / 64
    · simp only [hk, List.getElem?_set_self hb, List.getElem?_eq_getElem hb]
      rw [testBit_set_bit]
      by_cases hkid : k = id
      · subst hkid; simp
      · have : id % 64 ≠ k % 64 := by omega
        simp [hkid, this]
    · have hkid : k ≠ id := by intro hh; exact hk (by rw [hh])
      rw [List.getElem?_set_ne (Ne.symm hk)]
      simp [hkid]
  have hread_unset : ∀ k, abitset_enabled
      { h with items := h.items.set (id / 64) (h.items[id / 64] &&& not64 (1 <<< (id % 64))) } k
      = (if k = id then false else abitset_enabled h k) := by
    intro k
    rw [abitset_enabled_eq, abitset_enabled_eq]
    by_cases hk : k / 64 = id / 64
    · simp only [hk, List.getElem?_set_self hb, List.getElem?_eq_getElem hb]
      rw [testBit_clear_bit _ _ _ hm (Nat.mod_lt _ (by decide))]
      by_cases hkid : k = id
      · subst hkid; simp
      · have : id % 64 ≠ k % 64 := by omega
        simp [hkid, this]
    · have hkid : k ≠ id := by intro hh; exact hk (by rw [hh])
      rw [List.getElem?_set_ne (Ne.symm hk)]
      simp [hkid]
  refine ⟨⟨_, hset, rfl, hread_set j⟩, ⟨_, hunset, rfl, hread_unset j⟩, ?_⟩
  cases v with
  | true =>
    refine ⟨{ h with items := h.items.set (id / 64) (h.items[id / 64] ||| (1 <<< (id % 64))) },
      by simpa [abitset_boolean] using hset, rfl, ?_⟩
    rw [hread_set id]; simp
  | false =>
    refine ⟨{ h with items := h.items.set (id / 64) (h.items[id / 64] &&& not64 (1 <<< (id % 64))) },
      by simpa [abitset_boolean] using hunset, rfl, ?_⟩
    rw [hread_unset id]; simp

/-- Witness for C9: the 100-bit bitset of the test program, ids 99 and 50. -/
theorem dense_point_operations_witness :
    (abitset_init 100).items.length = word_count (abitset_init 100).size ∧ 99 < (abitset_init 100).size ∧
    ((∃ h1, abitset_set (abitset_init 100) 99 = .ok h1 ∧ abitset_size h1 = abitset_size (abitset_init 100) ∧
      abitset_enabled h1 50 = (if 50 = 99 then true else abitset_enabled (abitset_init 100) 50)) ∧
    (∃ h2, abitset_unset (abitset_init 100) 99 = .ok h2 ∧ abitset_size h2 = abitset_size (abitset_init 100) ∧
      abitset_enabled h2 50 = (if 50 = 99 then false else abitset_enabled (abitset_init 100) 50)) ∧
    (∃ h3, abitset_boolean (abitset_init 100) 99 true = .ok h3 ∧
      abitset_size h3 = abitset_size (abitset_init 100) ∧ abitset_enabled h3 99 = true)) :=
  ⟨by decide, by decide, dense_point_operations (abitset_init 100) 99 50 true (by decide) (by decide)⟩

/-! ### Population count -/

theorem ones_below_succ (k w : Nat) :
    ones_below (k + 1) w = (if w.testBit 0 then 1 else 0) + ones_below k (w / 2) := by
  unfold ones_below
  rw [List.range_succ_eq_map, List.countP_cons, List.countP_map, Nat.add_comm]
  congr 1
  apply List.countP_congr
  intro x _
  simp [Nat.testBit_succ]

theorem ones_below_zero (k : Nat) : ones_below k 0 = 0 := by
  unfold ones_below
  rw [List.countP_eq_zero]
  intro a _
  simp

theorem ones_below_le (k w : Nat) : ones_below k w ≤ k := by
  unfold ones_below
  exact (List.countP_le_length _).trans (by simp)

/-- Clearing the lowest set bit, `n & (n - 1)`, removes exactly one 1 bit. -/
theorem ones_below_clear_lowest :
    ∀ (k w : Nat), 0 < w → w < 2 ^ k →
      ones_below k (w &&& (w - 1)) + 1 = ones_below k w := by
  intro k
  induction k with
  | zero => intro w h0 h1; simp at h1; omega
  | succ k ih =>
    intro w h0 h1
    rw [ones_below_succ, ones_below_succ, Nat.and_div_two, Nat.testBit_and]
    rcases Nat.mod_two_eq_zero_or_one w with hpar | hpar
    · -- even
      have hw2 : 0 < w / 2 := by omega
      have hlt : w / 2 < 2 ^ k := by rw [Nat.pow_succ] at h1; omega
      have hpred : (w - 1) / 2 = w / 2 - 1 := by omega
      have hb : w.testBit 0 = false := by simp [Nat.testBit_zero, hpar]
      rw [hpred, hb]
      simpa using ih (w / 2) hw2 hlt
    · -- odd
      have hpred : (w - 1) / 2 = w / 2 := by omega
      have hb : w.testBit 0 = true := by simp [Nat.testBit_zero, hpar]
      have hb1 : (w - 1).testBit 0 = false := by
        simp only [Nat.testBit_zero]; simp; omega
      rw [hpred, hb, hb1, Nat.and_self]
      simp
      omega

/-- The clear-lowest-set-bit loop of `abitset_count` adds the number of 1 bits
of the word to the counter, and 64 rounds are enough for a 64-bit word. -/
theorem count_word_eq :
    ∀ (fuel w c : Nat), w < 2 ^ 64 → word_ones w ≤ fuel → c < U32 →
      count_word fuel w c = (c + word_ones w) % U32 := by
  intro fuel
  induction fuel with
  | zero =>
    intro w c _ h1 hc
    have : word_ones w = 0 := by omega
    rw [this, count_word, Nat.add_zero, Nat.mod_eq_of_lt hc]
  | succ fuel ih =>
    intro w c hw h1 hc
    by_cases hz : w = 0
    · subst hz
      simp only [count_word, word_ones, ones_below_zero]
      simp [Nat.mod_eq_of_lt hc]
    · have hpos : 0 < w := Nat.pos_of_ne_zero hz
      have hstep := ones_below_clear_lowest 64 w hpos hw
      have hle : w &&& (w - 1) < 2 ^ 64 := lt_of_le_of_lt Nat.and_le_left hw
      have hc1 : (c + 1) % U32 < U32 := Nat.mod_lt _ (by decide)
      rw [count_word, if_pos hz, ih _ _ hle (by unfold word_ones at *; omega) hc1]
      unfold word_ones at *
      rw [Nat.add_mod, Nat.mod_mod, ← Nat.add_mod]
      congr 1
      omega

theorem count_word_fuel (w c : Nat) (hw : w < 2 ^ 64) (hc : c < U32) :
    count_word 64 w c = (c + word_ones w) % U32 :=
  count_word_eq 64 w c hw (ones_below_le 64 w) hc

theorem foldl_count_word (l : List Nat) (hw : ∀ w ∈ l, w < 2 ^ 64) :
    ∀ c, c < U32 →
      l.foldl (fun count n => count_word 64 n count) c = (c + (l.map word_ones).sum) % U32 := by
  induction l with
  | nil => intro c hc; simp [Nat.mod_eq_of_lt hc]
  | cons w ws ih =>
    intro c hc
    have hw0 : w < 2 ^ 64 := hw w (List.mem_cons_self _ _)
    rw [List.foldl_cons, count_word_fuel w c hw0 hc,
      ih (fun x hx => hw x (List.mem_cons_of_mem _ hx)) _ (Nat.mod_lt _ (by decide))]
    simp only [List.map_cons, List.sum_cons]
    rw [Nat.add_mod, Nat.mod_mod, ← Nat.add_mod, Nat.add_assoc]

/-- The 1 bits of a word array, counted position by position. -/
theorem countP_bit_at (l : List Nat) :
    (List.range (64 * l.length)).countP (bit_at l) = (l.map word_ones).sum := by
  induction l with
  | nil => simp
  | cons w ws ih =>
    have hlen : 64 * (w :: ws).length = 64 + 64 * ws.length := by
      simp only [List.length_cons]; omega
    rw [hlen, List.range_add, List.countP_append, List.countP_map, List.map_cons, List.sum_cons]
    congr 1
    · unfold word_ones ones_below
      apply List.countP_congr
      intro x hx
      have hx64 : x < 64 := List.mem_range.mp hx
      have h1 : x / 64 = 0 := by omega
      have h2 : x % 64 = x := by omega
      simp [bit_at, h1, h2]
    · rw [← ih]
      apply List.countP_congr
      intro x _
      have h1 : (64 + x) / 64 = x / 64 + 1 := by omega
      have h2 : (64 + x) % 64 = x % 64 := by omega
      simp [bit_at, h1, h2]

/-! ### Dense bitset: count -/

/-- `abitset_enabled` reads `bit_at` of the word array. -/
theorem abitset_enabled_eq_bit_at (h : abitset_s) (id : Nat) :
    abitset_enabled h id = bit_at h.items id :=
  abitset_enabled_eq h id

/-- A dense bitset of `size` bits has at least `size` bit positions. -/
theorem size_le_bits (size : Nat) : size ≤ 64 * word_count size := by
  unfold word_count
  rw [(id_split size).1, (id_split size).2]
  split <;> omega

/-- C10 (counterexample): the bitset loaded from the one-word array `[3]` with
`size = 1` has `abitset_count` 2, while only one id in `[0, 1)` is enabled. -/
theorem dense_count_counts_tail_bits :
    abitset_count (abitset_load [3] 1 true) = 2 ∧
    ((List.range (abitset_size (abitset_load [3] 1 true))).filter
      (abitset_enabled (abitset_load [3] 1 true))).length = 1 ∧
    abitset_count (abitset_load [3] 1 true) ≠
      ((List.range (abitset_size (abitset_load [3] 1 true))).filter
        (abitset_enabled (abitset_load [3] 1 true))).length := by
  decide

/-- `abitset_count` against the enabled ids below `size`, for a bitset whose
last word has no bit set at a position `>= size`. -/
theorem count_eq_enabled_count (x : abitset_s)
    (hwf : x.items.length = word_count x.size)
    (hw : ∀ w ∈ x.items, w < 2 ^ 64)
    (hsz : x.size < U32)
    (htail : ∀ id, id < 64 * x.items.length → x.size ≤ id → abitset_enabled x id = false) :
    abitset_count x = ((List.range (abitset_size x)).filter (abitset_enabled x)).length := by
  have hfun : abitset_enabled x = bit_at x.items := funext (abitset_enabled_eq_bit_at x)
  have hle : x.size ≤ 64 * x.items.length := by rw [hwf]; exact size_le_bits x.size
  obtain ⟨d, hd⟩ : ∃ d, 64 * x.items.length = x.size + d := ⟨_, (Nat.add_sub_cancel' hle).symm⟩
  have hsum : (x.items.map word_ones).sum = (List.range x.size).countP (bit_at x.items) := by
    rw [← countP_bit_at, hd, List.range_add, List.countP_append, List.countP_map]
    have hzero : (List.range d).countP (bit_at x.items ∘ fun a => x.size + a) = 0 := by
      rw [List.countP_eq_zero]
      intro a ha
      have ha' : a < d := List.mem_range.mp ha
      have := htail (x.size + a) (by omega) (by omega)
      rw [hfun] at this
      simp [this]
    rw [hzero, Nat.add_zero]
  have hbound : (List.range x.size).countP (bit_at x.items) < U32 :=
    lt_of_le_of_lt ((List.countP_le_length _).trans (by simp)) hsz
  unfold abitset_count abitset_size
  rw [foldl_count_word x.items hw 0 (by decide), Nat.zero_add, hsum, Nat.mod_eq_of_lt hbound,
    hfun, List.countP_eq_length_filter]

/-- C10 (amended): for a dense bitset with the word count of its size, 64-bit
words and no bit set at a position `>= size` of its last word, `abitset_count`
is the number of ids in `[0, size)` for which `abitset_enabled` is true. -/
theorem dense_count_eq (x : abitset_s)
    (hwf : x.items.length = word_count x.size)
    (hw : ∀ w ∈ x.items, w < 2 ^ 64)
    (hsz : x.size < U32)
    (htail : ∀ id, id < 64 * x.items.length → x.size ≤ id → abitset_enabled x id = false) :
    abitset_count x = ((List.range (abitset_size x)).filter (abitset_enabled x)).length :=
  count_eq_enabled_count x hwf hw hsz htail

/-- Witness for C10 (amended): the bitset of the test program with ids 0 and
99 set. -/
theorem dense_count_eq_witness :
    ((abitset_set (abitset_init 100) 0).bind fun h => abitset_set h 99) = .ok test_bitset ∧
    abitset_count test_bitset
      = ((List.range (abitset_size test_bitset)).filter (abitset_enabled test_bitset)).length ∧
    abitset_count test_bitset = 2 :=
  ⟨by decide, dense_count_eq test_bitset (by decide) (by decide) (by decide) (by decide),
    by decide⟩

/-! ### Growable bitset: faults and word layout -/

/-- C1: `abitset_expandable_set` and `abitset_expandable_unset` of id
536870912 (page index 2048, the first one past the initial directory) on a
fresh bitset read the directory out of bounds instead of reaching a state in
which the id is enabled, respectively disabled. -/
theorem set_first_id_past_directory :
    abitset_expandable_set abitset_expandable_init 536870912 = .error .out_of_bounds ∧
    abitset_expandable_unset abitset_expandable_init 536870912 = .error .out_of_bounds := by
  decide!

/-- C2: on a fresh bitset id 32768 is not enabled, and after
`abitset_expandable_set` of id 0 it is: ids 0 and 32768 share one bit. -/
theorem set_changes_other_id :
    abitset_expandable_enabled abitset_expandable_init 32768 = .ok false ∧
    enabled_after (abitset_expandable_set abitset_expandable_init 0) 32768 = .ok true := by
  decide!

/-- When the initial `abitset_expandable_expand` of `abitset_expandable_load`
faults, so does the load. -/
theorem load_of_expand_error (repr : List Nat) (size : Nat) (e : Fault)
    (hx : abitset_expandable_expand abitset_expandable_init ((size + U32 - 1) % U32) = .error e) :
    abitset_expandable_load repr size = .error e := by
  unfold abitset_expandable_load
  rw [hx]
  rfl

/-- The export loop passes over null slots without touching the buffer. -/
theorem repr_loop_null (h : abitset_expandable_s) (size : Nat) :
    ∀ (n i : Nat) (repr : List Nat),
      (∀ j, i ≤ j → j < i + n → h.pages[j]? = some none) →
      repr_loop h size n i repr = .ok repr := by
  intro n
  induction n with
  | zero => intro i repr _; rfl
  | succ n ih =>
    intro i repr hnull
    have h0 : h.pages[i]? = some none := hnull i (Nat.le_refl i) (by omega)
    rw [repr_loop, h0]
    exact ih (i + 1) repr (fun j h1 h2 => hnull j (by omega) (by omega))

/-- One round of the export loop at an installed page. -/
theorem repr_loop_page (h : abitset_expandable_s) (size n i : Nat) (repr repr1 : List Nat)
    (page : Page) (hp : h.pages[i]? = some (some page))
    (hc : copy_words repr ((i <<< 9) % U32) page
      ((if (size + U32 - (((i <<< 9) % U32) <<< 6) % U32) % U32 >= (PAGE_ENTRIES <<< 6)
        then PAGE_SIZE
        else (((((size + U32 - (((i <<< 9) % U32) <<< 6) % U32) % U32 + 63) % U32) >>> 6) <<< 3)
          % U32) >>> 3) = .ok repr1) :
    repr_loop h size (n + 1) i repr = repr_loop h size n (i + 1) repr1 := by
  rw [repr_loop, hp]
  simp only [hc]

/-- `abitset_expandable_repr` is the export loop over all `page_count` slots,
started on a zeroed buffer of `ceil(size / 64)` words. -/
theorem repr_unfold (h : abitset_expandable_s) (size n entries : Nat)
    (hs : (h.max_bit + 1) % U32 = size) (hn : h.page_count = n)
    (he : ((size + 63) % U32) >>> 6 = entries) :
    abitset_expandable_repr h = repr_loop h size n 0 (List.replicate entries 0) := by
  subst hs hn he
  rfl

/-- C4: after `abitset_expandable_set` of id 32768 on a fresh bitset the size
is 32769 and id 32768 is enabled, but bit 0 of word 512 of the exported array
is 0 (the bit is exported as bit 0 of word 0, where id 0 belongs). -/
theorem repr_word_of_id_32768 :
    ∃ h r, abitset_expandable_set abitset_expandable_init 32768 = .ok h ∧
      abitset_expandable_repr h = .ok r ∧
      abitset_expandable_size h = 32769 ∧
      abitset_expandable_enabled h 32768 = .ok true ∧
      repr_bit r (32768 / 64) (32768 % 64) = some false ∧
      repr_bit r 0 0 = some true := by
  refine ⟨set_32768, (List.replicate PAGE_ENTRIES 0).set 0 1 ++ [0], by decide!, ?_,
    by decide!, by decide!, by decide!, by decide!⟩
  have hnull : ∀ j, 1 ≤ j → j < 1 + 2047 → set_32768.pages[j]? = some none := by
    intro j h1 h2
    have hj : j < INITIAL_PAGES := by
      have : INITIAL_PAGES = 2048 := by decide
      omega
    simp only [set_32768]
    rw [List.getElem?_set_ne (by omega), List.getElem?_replicate, if_pos hj]
  have hstep := repr_loop_page set_32768 32769 2047 0 (List.replicate 513 0)
    ((List.replicate PAGE_ENTRIES 0).set 0 1 ++ [0]) ((List.replicate PAGE_ENTRIES 0).set 0 1)
    (by decide!) (by decide!)
  rw [repr_unfold set_32768 32769 (2047 + 1) 513 (by decide!) (by decide!) (by decide!), hstep]
  exact repr_loop_null set_32768 32769 2047 1 _ hnull

/-- The import loop passes over zero words without touching the bitset. -/
theorem load_loop_zeros (repr : List Nat) (m : Nat) :
    ∀ (n i : Nat) (h : abitset_expandable_s),
      (∀ j, i ≤ j → j < i + n → repr[j]? = some 0) →
      load_loop repr (n + m) i h = load_loop repr m (i + n) h := by
  intro n
  induction n with
  | zero => intro i h _; rw [Nat.zero_add, Nat.add_zero]
  | succ n ih =>
    intro i h hz
    have h0 : repr[i]? = some 0 := hz i (Nat.le_refl i) (by omega)
    have hstep : load_loop repr (n + m + 1) i h = load_loop repr (n + m) (i + 1) h := by
      rw [load_loop, h0]
      simp only [ne_eq, not_true_eq_false, if_false]
    rw [show n + 1 + m = n + m + 1 by omega, hstep,
      ih (i + 1) h (fun j h1 h2 => hz j (by omega) (by omega)),
      show i + 1 + n = i + (n + 1) by omega]

/-- `abitset_expandable_load` from the outcomes of its two steps. -/
theorem load_of_steps (repr : List Nat) (size : Nat) (h1 h2 : abitset_expandable_s)
    (hx : abitset_expandable_expand abitset_expandable_init ((size + U32 - 1) % U32) = .ok h1)
    (hl : load_loop repr (((size + 63) % U32) >>> 6) 0 h1 = .ok h2) :
    abitset_expandable_load repr size = .ok { h2 with max_bit := (size + U32 - 1) % U32 } := by
  unfold abitset_expandable_load
  rw [hx]
  simp only [bind, Except.bind, hl]
  rfl

/-- C5: loading 513 words of which only word 512 is non-zero (bit 0), with
`size = 32769`, gives a bitset in which id 32768 is not enabled, although bit
`32768 mod 64` of word `32768 div 64` of the array is 1. -/
theorem load_word_512_not_enabled :
    ∃ h, abitset_expandable_load (List.replicate 512 0 ++ [1]) 32769 = .ok h ∧
      abitset_expandable_enabled h 32768 = .ok false ∧
      repr_bit (List.replicate 512 0 ++ [1]) (32768 / 64) (32768 % 64) = some true := by
  have hz : ∀ j, 0 ≤ j → j < 0 + 512 → (List.replicate 512 0 ++ [1])[j]? = some 0 := by
    intro j _ hj
    rw [List.getElem?_append_left (by rw [List.length_replicate]; omega),
      List.getElem?_replicate, if_pos (by omega)]
  have hw : (List.replicate 512 0 ++ [1])[512]? = some 1 := by
    rw [List.getElem?_append_right (by rw [List.length_replicate]), List.length_replicate]
    rfl
  have hloop : load_loop (List.replicate 512 0 ++ [1]) (512 + 1) 0 load_512_expanded
      = .ok { load_512_state with max_bit := 32768 } := by
    rw [load_loop_zeros _ 1 512 0 _ hz, load_loop, hw]
    decide!
  have hload := load_of_steps (List.replicate 512 0 ++ [1]) 32769 load_512_expanded _
    (by decide!) hloop
  exact ⟨_, hload, by decide!, by unfold repr_bit; rw [show 32768 / 64 = 512 by decide, hw]; decide⟩

/-! ### Growable bitset: closed forms -/

/-- The state `abitset_expandable_expand` works on after its update of
`max_bit`. -/
theorem expand_max_bit_fields (h : abitset_expandable_s) (id : Nat) :
    (if id > h.max_bit then { h with max_bit := id } else h).pages = h.pages ∧
    (if id > h.max_bit then { h with max_bit := id } else h).page_count = h.page_count ∧
    (if id > h.max_bit then { h with max_bit := id } else h).bit_count = h.bit_count ∧
    (if id > h.max_bit then { h with max_bit := id } else h).max_bit = max h.max_bit id := by
  by_cases hm : id > h.max_bit
  · rw [if_pos hm]; exact ⟨rfl, rfl, rfl, by show id = max h.max_bit id; omega⟩
  · rw [if_neg hm]; exact ⟨rfl, rfl, rfl, by show h.max_bit = max h.max_bit id; omega⟩

/-- `abitset_expandable_expand` when the page index is at or past
`page_count` and the directory array has `page_count` slots: the resize branch
leaves `h->pages` as it was, and the read of the slot is out of bounds. -/
theorem expand_resize_error (h : abitset_expandable_s) (id : Nat)
    (hlen : h.pages.length = h.page_count) (hreq : h.page_count ≤ id >>> 18) :
    ∃ e, abitset_expandable_expand h id = .error e := by
  obtain ⟨hp, hc, _, _⟩ := expand_max_bit_fields h id
  unfold abitset_expandable_expand
  simp only [hp, hc, ge_iff_le, if_pos hreq]
  cases expand_double 33 (id >>> 18) h.page_count with
  | none => exact ⟨_, rfl⟩
  | some npc =>
    simp only [hlen, Nat.lt_irrefl, if_false]
    have hnone : h.pages[id >>> 18]? = none := List.getElem?_eq_none (by omega)
    simp only [hp, hnone]
    exact ⟨_, rfl⟩

theorem page_entries_eq : PAGE_ENTRIES = 512 := by decide

theorem offset_lt (id : Nat) : (id >>> 6) &&& (PAGE_ENTRIES - 1) < PAGE_ENTRIES := by
  rw [page_entries_eq]
  exact Nat.and_lt_two_pow _ (by decide : 512 - 1 < 2 ^ 9)

theorem page_at_length (h : abitset_expandable_s) (hok : dir_ok h) (i : Nat) :
    (page_at h.pages i).length = PAGE_ENTRIES := by
  unfold page_at
  split
  · rename_i q hq
    exact hok.2 q (List.getElem?_mem hq)
  · simp

theorem set_of_getElem? {α : Type} : ∀ (l : List α) (i : Nat) (a : α),
    l[i]? = some a → l.set i a = l := by
  intro l
  induction l with
  | nil => intro i a _; rfl
  | cons x xs ih =>
    intro i a hget
    cases i with
    | zero =>
      simp only [List.getElem?_cons_zero, Option.some.injEq] at hget
      rw [List.set_cons_zero, hget]
    | succ i =>
      simp only [List.getElem?_cons_succ] at hget
      rw [List.set_cons_succ, ih i a hget]

/-- `abitset_expandable_expand` when the page index is inside the directory:
the page is installed if the slot was null, and `max_bit` is raised. -/
theorem expand_no_resize (h : abitset_expandable_s) (id : Nat)
    (hlen : h.pages.length = h.page_count) (hlt : id >>> 18 < h.page_count) :
    abitset_expandable_expand h id = .ok
      { pages := h.pages.set (id >>> 18) (some (page_at h.pages (id >>> 18)))
        old_pages := h.old_pages
        page_count := h.page_count
        max_bit := if id > h.max_bit then id else h.max_bit
        bit_count := h.bit_count } := by
  have hnr : ¬ (h.page_count ≤ id >>> 18) := by omega
  have hi : id >>> 18 < h.pages.length := by omega
  obtain ⟨slot, hslot⟩ : ∃ slot, h.pages[id >>> 18]? = some slot :=
    ⟨_, List.getElem?_eq_getElem hi⟩
  unfold abitset_expandable_expand
  by_cases hm : id > h.max_bit
  · simp only [if_pos hm, ge_iff_le, if_neg hnr, hslot]
    cases slot with
    | none => simp only [page_at, hslot]
    | some q => simp only [page_at, hslot, set_of_getElem? _ _ _ hslot]
  · simp only [if_neg hm, ge_iff_le, if_neg hnr, hslot]
    cases slot with
    | none => simp only [page_at, hslot]
    | some q => simp only [page_at, hslot, set_of_getElem? _ _ _ hslot]

/-- Closed form of `abitset_expandable_set` when the page index is inside the
directory. -/
theorem set_no_resize (h : abitset_expandable_s) (id : Nat)
    (hok : dir_ok h) (hlt : id >>> 18 < h.page_count) :
    abitset_expandable_set h id = .ok
      { pages := h.pages.set (id >>> 18) (some ((page_at h.pages (id >>> 18)).set
          ((id >>> 6) &&& (PAGE_ENTRIES - 1)) (word_at h id ||| (1 <<< (id &&& 63)))))
        old_pages := h.old_pages
        page_count := h.page_count
        max_bit := if id > h.max_bit then id else h.max_bit
        bit_count := if word_at h id &&& (1 <<< (id &&& 63)) = 0
          then (h.bit_count + 1) % U32 else h.bit_count } := by
  have hi : id >>> 18 < h.pages.length := by rw [hok.1]; exact hlt
  have ho : (id >>> 6) &&& (PAGE_ENTRIES - 1) < (page_at h.pages (id >>> 18)).length := by
    rw [page_at_length h hok]; exact offset_lt id
  have hw : (page_at h.pages (id >>> 18))[(id >>> 6) &&& (PAGE_ENTRIES - 1)]?
      = some (word_at h id) := by
    rw [List.getElem?_eq_getElem ho]
    unfold word_at
    rw [List.getD_eq_getElem _ _ ho]
  unfold abitset_expandable_set
  rw [expand_no_resize h id hok.1 hlt]
  simp only [List.getElem?_set_self hi, hw, List.set_set]
  split <;> rfl

/-- Closed form of `abitset_expandable_unset` when the page index is inside
the directory. -/
theorem unset_no_resize (h : abitset_expandable_s) (id : Nat)
    (hok : dir_ok h) (hlt : id >>> 18 < h.page_count) :
    abitset_expandable_unset h id = .ok
      { pages := h.pages.set (id >>> 18) (some ((page_at h.pages (id >>> 18)).set
          ((id >>> 6) &&& (PAGE_ENTRIES - 1)) (word_at h id &&& not64 (1 <<< (id &&& 63)))))
        old_pages := h.old_pages
        page_count := h.page_count
        max_bit := if id > h.max_bit then id else h.max_bit
        bit_count := if word_at h id &&& (1 <<< (id &&& 63)) ≠ 0
          then (h.bit_count + U32 - 1) % U32 else h.bit_count } := by
  have hi : id >>> 18 < h.pages.length := by rw [hok.1]; exact hlt
  have ho : (id >>> 6) &&& (PAGE_ENTRIES - 1) < (page_at h.pages (id >>> 18)).length := by
    rw [page_at_length h hok]; exact offset_lt id
  have hw : (page_at h.pages (id >>> 18))[(id >>> 6) &&& (PAGE_ENTRIES - 1)]?
      = some (word_at h id) := by
    rw [List.getElem?_eq_getElem ho]
    unfold word_at
    rw [List.getD_eq_getElem _ _ ho]
  unfold abitset_expandable_unset
  rw [expand_no_resize h id hok.1 hlt]
  simp only [List.getElem?_set_self hi, hw, List.set_set]
  split <;> rfl

/-- `abitset_expandable_enabled` tests bit `id & 63` of the addressed word. -/
theorem enabled_eq_testBit (h : abitset_expandable_s) (id : Nat) (hok : dir_ok h) :
    abitset_expandable_enabled h id = .ok ((word_at h id).testBit (id &&& 63)) := by
  have ho : (id >>> 6) &&& (PAGE_ENTRIES - 1) < (page_at h.pages (id >>> 18)).length := by
    rw [page_at_length h hok]; exact offset_lt id
  have hw : (page_at h.pages (id >>> 18))[(id >>> 6) &&& (PAGE_ENTRIES - 1)]?
      = some (word_at h id) := by
    rw [List.getElem?_eq_getElem ho]
    unfold word_at
    rw [List.getD_eq_getElem _ _ ho]
  have hzero : ∀ o, o < PAGE_ENTRIES → (List.replicate PAGE_ENTRIES 0).getD o 0 = 0 := by
    intro o ho; simp [List.getD_eq_getElem?_getD, List.getElem?_replicate, ho]
  unfold abitset_expandable_enabled
  by_cases hge : id >>> 18 ≥ h.page_count
  · have hnone : h.pages[id >>> 18]? = none := List.getElem?_eq_none (by rw [hok.1]; exact hge)
    simp only [if_pos hge]
    unfold word_at page_at
    simp only [hnone, hzero _ (offset_lt id), Nat.zero_testBit]
  · simp only [if_neg hge]
    have hi : id >>> 18 < h.pages.length := by rw [hok.1]; omega
    obtain ⟨slot, hslot⟩ : ∃ slot, h.pages[id >>> 18]? = some slot :=
      ⟨_, List.getElem?_eq_getElem hi⟩
    cases slot with
    | none =>
      simp only [hslot]
      unfold word_at page_at
      simp only [hslot, hzero _ (offset_lt id), Nat.zero_testBit]
    | some q =>
      have hq : page_at h.pages (id >>> 18) = q := by unfold page_at; simp only [hslot]
      rw [hq] at hw
      simp only [hslot, hw, and_one_shiftLeft_ne_zero]

/-! ### Growable bitset: the counter -/

theorem ones_below_range_succ (k w : Nat) :
    ones_below (k + 1) w = ones_below k w + (if w.testBit k then 1 else 0) := by
  unfold ones_below
  rw [List.range_succ, List.countP_append]
  simp [List.countP_cons]

theorem ones_below_congr (k w w' : Nat) (hsame : ∀ j, j < k → w'.testBit j = w.testBit j) :
    ones_below k w' = ones_below k w := by
  unfold ones_below
  apply List.countP_congr
  intro x hx
  rw [hsame x (List.mem_range.mp hx)]

/-- Turning one 0 bit below `k` into 1 adds one to the number of 1 bits. -/
theorem ones_below_flip :
    ∀ (k b w w' : Nat), b < k →
      (∀ j, j < k → j ≠ b → w'.testBit j = w.testBit j) →
      w.testBit b = false → w'.testBit b = true →
      ones_below k w' = ones_below k w + 1 := by
  intro k
  induction k with
  | zero => intro b w w' hb; omega
  | succ k ih =>
    intro b w w' hb hsame h0 h1
    rw [ones_below_range_succ, ones_below_range_succ]
    by_cases hbk : b = k
    · subst hbk
      rw [ones_below_congr b w w' (fun j hj => hsame j (by omega) (by omega)), h0, h1]
      simp
    · rw [ih b w w' (by omega) (fun j hj hne => hsame j (by omega) hne) h0 h1,
        hsame k (by omega) (fun hh => hbk hh.symm)]
      omega

theorem word_ones_set_bit (w b : Nat) (hb : b < 64) :
    word_ones (w ||| (1 <<< b)) = word_ones w + (if w.testBit b then 0 else 1) := by
  unfold word_ones
  cases hbit : w.testBit b with
  | true =>
    rw [ones_below_congr 64 w _ (fun j _ => by
      rw [testBit_set_bit]
      by_cases hj : b = j
      · subst hj; simp [hbit]
      · simp [hj])]
    simp
  | false =>
    rw [ones_below_flip 64 b w _ hb (fun j _ hne => by
      rw [testBit_set_bit]; simp [Ne.symm hne]) hbit (by rw [testBit_set_bit]; simp)]
    simp

theorem word_ones_clear_bit (w b : Nat) (hb : b < 64) :
    word_ones (w &&& not64 (1 <<< b)) + (if w.testBit b then 1 else 0) = word_ones w := by
  unfold word_ones
  cases hbit : w.testBit b with
  | true =>
    rw [ones_below_flip 64 b (w &&& not64 (1 <<< b)) w hb (fun j hj hne => by
      rw [testBit_clear_bit w b j hb hj]; simp [Ne.symm hne])
      (by rw [testBit_clear_bit w b b hb hb]; simp) hbit]
    simp
  | false =>
    rw [ones_below_congr 64 w _ (fun j hj => by
      rw [testBit_clear_bit w b j hb hj]
      by_cases hjb : b = j
      · subst hjb; simp [hbit]
      · simp [hjb])]
    simp

theorem sum_set (l : List Nat) : ∀ (i v : Nat), i < l.length →
    (l.set i v).sum + l.getD i 0 = l.sum + v := by
  induction l with
  | nil => intro i v hi; simp at hi
  | cons x xs ih =>
    intro i v hi
    cases i with
    | zero => simp; omega
    | succ i =>
      have := ih i v (by simpa using hi)
      simp only [List.set_cons_succ, List.sum_cons, List.getD_cons_succ]
      omega

theorem getD_map_zero (f : Nat → Nat) (hf : f 0 = 0) (l : List Nat) (i : Nat) :
    (l.map f).getD i 0 = f (l.getD i 0) := by
  simp only [List.getD_eq_getElem?_getD, List.getElem?_map]
  cases l[i]? with
  | none => simp [hf]
  | some a => simp

theorem word_ones_zero : word_ones 0 = 0 := ones_below_zero 64

theorem ones_page_set (q : Page) (o w' : Nat) (ho : o < q.length) :
    ones_page (q.set o w') + word_ones (q.getD o 0) = ones_page q + word_ones w' := by
  unfold ones_page
  rw [List.map_set, ← getD_map_zero word_ones word_ones_zero]
  exact sum_set (q.map word_ones) o (word_ones w') (by simpa using ho)

theorem ones_page_zeros (n : Nat) : ones_page (List.replicate n 0) = 0 := by
  unfold ones_page
  induction n with
  | zero => rfl
  | succ n ih => simp [List.replicate_succ, word_ones_zero] at ih ⊢

theorem ones_slot_eq_page_at (pages : Directory) (i : Nat) :
    (pages.map ones_slot).getD i 0 = ones_page (page_at pages i) := by
  simp only [List.getD_eq_getElem?_getD, List.getElem?_map]
  unfold page_at
  cases hs : pages[i]? with
  | none => simp [ones_page_zeros]
  | some s =>
    cases s with
    | none => simp [ones_slot, ones_page_zeros]
    | some q => simp [ones_slot]

theorem ones_dir_set (pages : Directory) (i : Nat) (p : Page) (hi : i < pages.length) :
    ones_dir (pages.set i (some p)) + ones_page (page_at pages i) = ones_dir pages + ones_page p := by
  unfold ones_dir
  rw [List.map_set, ← ones_slot_eq_page_at]
  exact sum_set (pages.map ones_slot) i (ones_slot (some p)) (by simpa using hi)

/-- Writing word `w` at the place addressed by `id` changes the number of 1
bits of the directory by the change in that word. -/
theorem ones_dir_write (h : abitset_expandable_s) (id w : Nat) (hok : dir_ok h)
    (hlt : id >>> 18 < h.page_count) :
    ones_dir (h.pages.set (id >>> 18) (some ((page_at h.pages (id >>> 18)).set
        ((id >>> 6) &&& (PAGE_ENTRIES - 1)) w))) + word_ones (word_at h id)
      = ones_dir h.pages + word_ones w := by
  have hi : id >>> 18 < h.pages.length := by rw [hok.1]; exact hlt
  have ho : (id >>> 6) &&& (PAGE_ENTRIES - 1) < (page_at h.pages (id >>> 18)).length := by
    rw [page_at_length h hok]; exact offset_lt id
  have h1 := ones_dir_set h.pages (id >>> 18) ((page_at h.pages (id >>> 18)).set
        ((id >>> 6) &&& (PAGE_ENTRIES - 1)) w) hi
  have h2 := ones_page_set (page_at h.pages (id >>> 18)) ((id >>> 6) &&& (PAGE_ENTRIES - 1)) w ho
  unfold word_at
  omega

theorem sum_map_le (α : Type) (f : α → Nat) (B : Nat) (l : List α) (hf : ∀ x ∈ l, f x ≤ B) :
    (l.map f).sum ≤ l.length * B := by
  induction l with
  | nil => simp
  | cons x xs ih =>
    have h1 := hf x (List.mem_cons_self _ _)
    have h2 := ih (fun y hy => hf y (List.mem_cons_of_mem _ hy))
    simp only [List.map_cons, List.sum_cons, List.length_cons]
    rw [Nat.add_mul]
    omega

theorem ones_page_le (q : Page) : ones_page q ≤ q.length * 64 :=
  sum_map_le Nat word_ones 64 q (fun x _ => ones_below_le 64 x)

theorem ones_dir_le (pages : Directory) (hq : ∀ q, some q ∈ pages → q.length = PAGE_ENTRIES) :
    ones_dir pages ≤ pages.length * (PAGE_ENTRIES * 64) := by
  apply sum_map_le
  intro s hs
  cases s with
  | none => exact Nat.zero_le _
  | some q =>
    have := ones_page_le q
    rw [hq q hs] at this
    exact this

/-- In a state with the invariant the counter is far below `2^32`. -/
theorem count_inv_bound (h : abitset_expandable_s) (hinv : count_inv h) :
    h.bit_count ≤ 67108864 := by
  obtain ⟨⟨hlen, hq⟩, hpc, hcnt⟩ := hinv
  have := ones_dir_le h.pages hq
  rw [hlen, hpc] at this
  have hnum : INITIAL_PAGES * (PAGE_ENTRIES * 64) = 67108864 := by decide
  omega

theorem dir_ok_write (h : abitset_expandable_s) (id w mb bc : Nat) (hok : dir_ok h) :
    dir_ok
      { pages := h.pages.set (id >>> 18) (some ((page_at h.pages (id >>> 18)).set
          ((id >>> 6) &&& (PAGE_ENTRIES - 1)) w))
        old_pages := h.old_pages
        page_count := h.page_count
        max_bit := mb
        bit_count := bc } := by
  refine ⟨by simpa using hok.1, ?_⟩
  intro q hq
  rcases List.mem_or_eq_of_mem_set hq with hmem | heq
  · exact hok.2 q hmem
  · have : q = (page_at h.pages (id >>> 18)).set ((id >>> 6) &&& (PAGE_ENTRIES - 1)) w :=
      Option.some.inj heq
    rw [this, List.length_set]
    exact page_at_length h hok _

theorem count_inv_init : count_inv abitset_expandable_init := by
  refine ⟨⟨by simp [abitset_expandable_init], ?_⟩, rfl, ?_⟩
  · intro q hq
    simp only [abitset_expandable_init] at hq
    have := List.eq_of_mem_replicate hq
    exact Option.noConfusion this
  · show 0 = ones_dir (List.replicate INITIAL_PAGES none)
    unfold ones_dir
    generalize INITIAL_PAGES = n
    induction n with
    | zero => rfl
    | succ n ih => simp [List.replicate_succ, ones_slot]

theorem bit_test_eq_zero (w b : Nat) : (w &&& (1 <<< b) = 0) ↔ w.testBit b = false := by
  have := and_one_shiftLeft_ne_zero w b
  cases hb : w.testBit b with
  | true => rw [hb] at this; simpa using this
  | false => rw [hb] at this; simpa using this

/-- `abitset_expandable_set` inside the directory keeps the invariant and adds
one to the counter exactly when the addressed bit was 0. -/
theorem count_inv_set (h : abitset_expandable_s) (id : Nat) (hinv : count_inv h)
    (hlt : id >>> 18 < INITIAL_PAGES) :
    ∃ h1, abitset_expandable_set h id = .ok h1 ∧ count_inv h1 ∧
      h1.bit_count = h.bit_count + (if (word_at h id).testBit (id &&& 63) then 0 else 1) := by
  have hbound := count_inv_bound h hinv
  obtain ⟨hok, hpc, hcnt⟩ := hinv
  have hlt1 : id >>> 18 < h.page_count := by rw [hpc]; exact hlt
  have hb : id &&& 63 < 64 := Nat.and_lt_two_pow _ (by decide : 63 < 2 ^ 6)
  have hones := ones_dir_write h id (word_at h id ||| (1 <<< (id &&& 63))) hok hlt1
  rw [word_ones_set_bit _ _ hb] at hones
  refine ⟨_, set_no_resize h id hok hlt1, ⟨dir_ok_write h id _ _ _ hok, hpc, ?_⟩, ?_⟩
  · dsimp only
    cases hbit : (word_at h id).testBit (id &&& 63) with
    | true =>
      have hnz : ¬ (word_at h id &&& (1 <<< (id &&& 63)) = 0) := by
        rw [bit_test_eq_zero, hbit]; exact Bool.noConfusion
      rw [if_neg hnz]
      rw [hbit] at hones
      simp only [if_true] at hones
      omega
    | false =>
      have hz : word_at h id &&& (1 <<< (id &&& 63)) = 0 := (bit_test_eq_zero _ _).mpr hbit
      rw [if_pos hz]
      rw [hbit] at hones
      simp only [Bool.false_eq_true, if_false] at hones
      unfold U32
      omega
  · dsimp only
    cases hbit : (word_at h id).testBit (id &&& 63) with
    | true =>
      have hnz : ¬ (word_at h id &&& (1 <<< (id &&& 63)) = 0) := by
        rw [bit_test_eq_zero, hbit]; exact Bool.noConfusion
      rw [if_neg hnz]; simp
    | false =>
      have hz : word_at h id &&& (1 <<< (id &&& 63)) = 0 := (bit_test_eq_zero _ _).mpr hbit
      rw [if_pos hz]
      simp only [Bool.false_eq_true, if_false]
      unfold U32
      omega

/-- `abitset_expandable_unset` inside the directory keeps the invariant and
takes one from the counter exactly when the addressed bit was 1. -/
theorem count_inv_unset (h : abitset_expandable_s) (id : Nat) (hinv : count_inv h)
    (hlt : id >>> 18 < INITIAL_PAGES) :
    ∃ h1, abitset_expandable_unset h id = .ok h1 ∧ count_inv h1 ∧
      h1.bit_count + (if (word_at h id).testBit (id &&& 63) then 1 else 0) = h.bit_count := by
  have hbound := count_inv_bound h hinv
  obtain ⟨hok, hpc, hcnt⟩ := hinv
  have hlt1 : id >>> 18 < h.page_count := by rw [hpc]; exact hlt
  have hb : id &&& 63 < 64 := Nat.and_lt_two_pow _ (by decide : 63 < 2 ^ 6)
  have hones := ones_dir_write h id (word_at h id &&& not64 (1 <<< (id &&& 63))) hok hlt1
  have hclear := word_ones_clear_bit (word_at h id) (id &&& 63) hb
  refine ⟨_, unset_no_resize h id hok hlt1, ⟨dir_ok_write h id _ _ _ hok, hpc, ?_⟩, ?_⟩
  · dsimp only
    cases hbit : (word_at h id).testBit (id &&& 63) with
    | true =>
      have hnz : word_at h id &&& (1 <<< (id &&& 63)) ≠ 0 := by
        rw [Ne, bit_test_eq_zero, hbit]; exact Bool.noConfusion
      rw [if_pos hnz]
      rw [hbit] at hclear
      simp only [if_true] at hclear
      unfold U32
      omega
    | false =>
      have hz : ¬ (word_at h id &&& (1 <<< (id &&& 63)) ≠ 0) := by
        rw [Ne, bit_test_eq_zero, hbit]; simp
      rw [if_neg hz]
      rw [hbit] at hclear
      simp only [Bool.false_eq_true, if_false] at hclear
      omega
  · dsimp only
    cases hbit : (word_at h id).testBit (id &&& 63) with
    | true =>
      have hnz : word_at h id &&& (1 <<< (id &&& 63)) ≠ 0 := by
        rw [Ne, bit_test_eq_zero, hbit]; exact Bool.noConfusion
      rw [if_pos hnz]
      rw [hbit] at hclear
      simp only [if_true] at hclear ⊢
      unfold U32
      omega
    | false =>
      have hz : ¬ (word_at h id &&& (1 <<< (id &&& 63)) ≠ 0) := by
        rw [Ne, bit_test_eq_zero, hbit]; simp
      rw [if_neg hz]
      simp

theorem set_resize_error (h : abitset_expandable_s) (id : Nat)
    (hlen : h.pages.length = h.page_count) (hreq : h.page_count ≤ id >>> 18) :
    ∃ e, abitset_expandable_set h id = .error e := by
  obtain ⟨e, he⟩ := expand_resize_error h id hlen hreq
  exact ⟨e, by unfold abitset_expandable_set; rw [he]⟩

theorem unset_resize_error (h : abitset_expandable_s) (id : Nat)
    (hlen : h.pages.length = h.page_count) (hreq : h.page_count ≤ id >>> 18) :
    ∃ e, abitset_expandable_unset h id = .error e := by
  obtain ⟨e, he⟩ := expand_resize_error h id hlen hreq
  exact ⟨e, by unfold abitset_expandable_unset; rw [he]⟩

/-- One successful call keeps the invariant. -/
theorem count_inv_apply (h h1 : abitset_expandable_s) (op : Op) (hinv : count_inv h)
    (hop : apply_op h op = .ok h1) : count_inv h1 := by
  cases op with
  | set id =>
    by_cases hlt : id >>> 18 < INITIAL_PAGES
    · obtain ⟨h2, hset, hinv2, _⟩ := count_inv_set h id hinv hlt
      exact Except.ok.inj (hset.symm.trans hop) ▸ hinv2
    · obtain ⟨e, he⟩ := set_resize_error h id hinv.1.1 (by rw [hinv.2.1]; omega)
      exact Except.noConfusion (he.symm.trans hop)
  | unset id =>
    by_cases hlt : id >>> 18 < INITIAL_PAGES
    · obtain ⟨h2, hset, hinv2, _⟩ := count_inv_unset h id hinv hlt
      exact Except.ok.inj (hset.symm.trans hop) ▸ hinv2
    · obtain ⟨e, he⟩ := unset_resize_error h id hinv.1.1 (by rw [hinv.2.1]; omega)
      exact Except.noConfusion (he.symm.trans hop)

/-- Every state a run reaches from a state with the invariant has it. -/
theorem count_inv_run (ops : List Op) :
    ∀ (h0 h : abitset_expandable_s), count_inv h0 → run h0 ops = .ok h → count_inv h := by
  induction ops with
  | nil =>
    intro h0 h hinv hr
    have : h0 = h := Except.ok.inj hr
    exact this ▸ hinv
  | cons op ops ih =>
    intro h0 h hinv hr
    unfold run at hr
    cases hop : apply_op h0 op with
    | error e => rw [hop] at hr; exact Except.noConfusion hr
    | ok h1 =>
      rw [hop] at hr
      exact ih h1 h (count_inv_apply h0 h1 op hinv hop) hr

/-- C6: in every state `h` reached from `abitset_expandable_init` by a
sequence of set and unset calls, `abitset_expandable_count` is the number of
1 bits across all allocated pages; a set that returns adds exactly 1 when the
target bit was 0 and nothing otherwise; an unset that returns takes exactly 1
when the target bit was 1 and nothing otherwise; and set and unset do return
for every id whose page index is inside the directory. -/
theorem count_exact (ops : List Op) (h : abitset_expandable_s)
    (hr : run abitset_expandable_init ops = .ok h) :
    abitset_expandable_count h = ones_dir h.pages ∧
    (∀ id h1, abitset_expandable_set h id = .ok h1 →
      abitset_expandable_count h1 = abitset_expandable_count h +
        (if abitset_expandable_enabled h id = .ok true then 0 else 1)) ∧
    (∀ id h1, abitset_expandable_unset h id = .ok h1 →
      abitset_expandable_count h1 +
        (if abitset_expandable_enabled h id = .ok true then 1 else 0)
        = abitset_expandable_count h) ∧
    (∀ id, id >>> 18 < INITIAL_PAGES →
      (∃ h1, abitset_expandable_set h id = .ok h1) ∧
      (∃ h1, abitset_expandable_unset h id = .ok h1)) := by
  have hinv : count_inv h := count_inv_run ops _ h count_inv_init hr
  have hcount : ∀ g, count_inv g → abitset_expandable_count g = g.bit_count := by
    intro g hg
    have := count_inv_bound g hg
    unfold abitset_expandable_count U32
    omega
  have hen : ∀ id, (abitset_expandable_enabled h id = .ok true)
      ↔ (word_at h id).testBit (id &&& 63) = true := by
    intro id
    rw [enabled_eq_testBit h id hinv.1]
    constructor
    · intro hh; exact Except.ok.inj hh
    · intro hh; rw [hh]
  refine ⟨by rw [hcount h hinv]; exact hinv.2.2, ?_, ?_, ?_⟩
  · intro id h1 hset
    by_cases hlt : id >>> 18 < INITIAL_PAGES
    · obtain ⟨h2, hset2, hinv2, hcnt⟩ := count_inv_set h id hinv hlt
      have heq : h2 = h1 := Except.ok.inj (hset2.symm.trans hset)
      subst heq
      rw [hcount h2 hinv2, hcount h hinv, hcnt]
      simp only [hen id]
    · obtain ⟨e, he⟩ := set_resize_error h id hinv.1.1 (by rw [hinv.2.1]; omega)
      exact Except.noConfusion (he.symm.trans hset)
  · intro id h1 hunset
    by_cases hlt : id >>> 18 < INITIAL_PAGES
    · obtain ⟨h2, hset2, hinv2, hcnt⟩ := count_inv_unset h id hinv hlt
      have heq : h2 = h1 := Except.ok.inj (hset2.symm.trans hunset)
      subst heq
      rw [hcount h2 hinv2, hcount h hinv, ← hcnt]
      simp only [hen id]
    · obtain ⟨e, he⟩ := unset_resize_error h id hinv.1.1 (by rw [hinv.2.1]; omega)
      exact Except.noConfusion (he.symm.trans hunset)
  · intro id hlt
    obtain ⟨h2, hset2, _, _⟩ := count_inv_set h id hinv hlt
    obtain ⟨h3, hset3, _, _⟩ := count_inv_unset h id hinv hlt
    exact ⟨⟨h2, hset2⟩, ⟨h3, hset3⟩⟩

/-- Witness for C6: the calls of the test program, set 0, 100, 4095, 8192 and
unset 100, reach a state with counter 3. -/
theorem count_exact_witness :
    run abitset_expandable_init test_ops = .ok test_state ∧
    abitset_expandable_count test_state = 3 ∧
    abitset_expandable_count test_state = ones_dir test_state.pages :=
  ⟨by decide!, by decide!, (count_exact test_ops test_state (by decide!)).1⟩

/-- C8: when the page index of `id` is at or beyond the directory capacity
(`page_count`, which is the length of the directory array), the resize branch
of `abitset_expandable_expand` does not publish a larger directory: the call,
and with it `abitset_expandable_set` and `abitset_expandable_unset`, ends in a
fault instead of a state in which the slot of `id` lies inside the directory. -/
theorem resize_is_not_published (h : abitset_expandable_s) (id : Nat)
    (hlen : h.pages.length = h.page_count) (hreq : h.page_count ≤ id >>> 18) :
    (∃ e, abitset_expandable_expand h id = .error e) ∧
    (∃ e, abitset_expandable_set h id = .error e) ∧
    (∃ e, abitset_expandable_unset h id = .error e) :=
  ⟨expand_resize_error h id hlen hreq, set_resize_error h id hlen hreq,
    unset_resize_error h id hlen hreq⟩

/-- Witness for C8: a fresh bitset and id 536870912, whose page index 2048 is
the directory capacity. -/
theorem resize_is_not_published_witness :
    abitset_expandable_expand abitset_expandable_init 536870912 = .error .out_of_bounds ∧
    ((∃ e, abitset_expandable_expand abitset_expandable_init 536870912 = .error e) ∧
    (∃ e, abitset_expandable_set abitset_expandable_init 536870912 = .error e) ∧
    (∃ e, abitset_expandable_unset abitset_expandable_init 536870912 = .error e)) :=
  ⟨by decide!, resize_is_not_published abitset_expandable_init 536870912 (by decide!) (by decide!)⟩

/-! ### Growable bitset: point operations inside the directory -/

/-- The word a read addresses after a write at the place addressed by `id`. -/
theorem word_at_write (h : abitset_expandable_s) (id j w mb bc : Nat) (hok : dir_ok h)
    (hlt : id >>> 18 < h.page_count) :
    word_at
      { pages := h.pages.set (id >>> 18) (some ((page_at h.pages (id >>> 18)).set
          ((id >>> 6) &&& (PAGE_ENTRIES - 1)) w))
        old_pages := h.old_pages
        page_count := h.page_count
        max_bit := mb
        bit_count := bc } j
      = if j >>> 18 = id >>> 18 ∧
          (j >>> 6) &&& (PAGE_ENTRIES - 1) = (id >>> 6) &&& (PAGE_ENTRIES - 1)
        then w else word_at h j := by
  have hi : id >>> 18 < h.pages.length := by rw [hok.1]; exact hlt
  have ho : (id >>> 6) &&& (PAGE_ENTRIES - 1) < (page_at h.pages (id >>> 18)).length := by
    rw [page_at_length h hok]; exact offset_lt id
  unfold word_at
  dsimp only
  by_cases hp : j >>> 18 = id >>> 18
  · have hpage : page_at (h.pages.set (id >>> 18) (some ((page_at h.pages (id >>> 18)).set
          ((id >>> 6) &&& (PAGE_ENTRIES - 1)) w))) (j >>> 18)
        = (page_at h.pages (id >>> 18)).set ((id >>> 6) &&& (PAGE_ENTRIES - 1)) w := by
      rw [hp]
      unfold page_at
      simp only [List.getElem?_set_self hi]
    rw [hpage]
    by_cases hoff : (j >>> 6) &&& (PAGE_ENTRIES - 1) = (id >>> 6) &&& (PAGE_ENTRIES - 1)
    · rw [if_pos ⟨hp, hoff⟩, hoff, List.getD_eq_getElem?_getD, List.getElem?_set_self ho]
      rfl
    · rw [if_neg (fun hh => hoff hh.2), List.getD_eq_getElem?_getD,
        List.getElem?_set_ne (Ne.symm hoff), ← List.getD_eq_getElem?_getD, hp]
  · have hpage : page_at (h.pages.set (id >>> 18) (some ((page_at h.pages (id >>> 18)).set
          ((id >>> 6) &&& (PAGE_ENTRIES - 1)) w))) (j >>> 18) = page_at h.pages (j >>> 18) := by
      unfold page_at
      rw [List.getElem?_set_ne (Ne.symm hp)]
    rw [hpage, if_neg (fun hh => hp hh.1)]

/-- Inside the directory `abitset_expandable_set` returns, and afterwards
`abitset_expandable_enabled` is true for the id and for every id that shares
its page index, word offset and bit, and is unchanged for every other id. -/
theorem set_then_enabled (h : abitset_expandable_s) (id j : Nat) (hok : dir_ok h)
    (hlt : id >>> 18 < h.page_count) :
    ∃ h1, abitset_expandable_set h id = .ok h1 ∧ dir_ok h1 ∧
      abitset_expandable_enabled h1 id = .ok true ∧
      abitset_expandable_enabled h1 j =
        (if j >>> 18 = id >>> 18 ∧
            (j >>> 6) &&& (PAGE_ENTRIES - 1) = (id >>> 6) &&& (PAGE_ENTRIES - 1) ∧
            j &&& 63 = id &&& 63
          then .ok true else abitset_expandable_enabled h j) := by
  have hok1 := dir_ok_write h id (word_at h id ||| (1 <<< (id &&& 63)))
    (if id > h.max_bit then id else h.max_bit)
    (if word_at h id &&& (1 <<< (id &&& 63)) = 0 then (h.bit_count + 1) % U32 else h.bit_count) hok
  have hread : ∀ k, abitset_expandable_enabled _ k = _ := fun k => enabled_eq_testBit _ k hok1
  refine ⟨_, set_no_resize h id hok hlt, hok1, ?_, ?_⟩
  · rw [hread id, word_at_write h id id _ _ _ hok hlt, if_pos ⟨rfl, rfl⟩, testBit_set_bit]
    simp
  · rw [hread j, word_at_write h id j _ _ _ hok hlt, enabled_eq_testBit h j hok]
    by_cases hpo : j >>> 18 = id >>> 18 ∧
        (j >>> 6) &&& (PAGE_ENTRIES - 1) = (id >>> 6) &&& (PAGE_ENTRIES - 1)
    · rw [if_pos hpo, testBit_set_bit]
      have hw : word_at h j = word_at h id := by unfold word_at; rw [hpo.1, hpo.2]
      by_cases hb : j &&& 63 = id &&& 63
      · rw [if_pos ⟨hpo.1, hpo.2, hb⟩, hb]; simp
      · rw [if_neg (fun hh => hb hh.2.2), hw]
        simp [Ne.symm hb]
    · rw [if_neg hpo, if_neg (fun hh => hpo ⟨hh.1, hh.2.1⟩)]

/-- Inside the directory `abitset_expandable_unset` returns, and afterwards
`abitset_expandable_enabled` is false for the id and for every id that shares
its page index, word offset and bit, and is unchanged for every other id. -/
theorem unset_then_disabled (h : abitset_expandable_s) (id j : Nat) (hok : dir_ok h)
    (hlt : id >>> 18 < h.page_count) :
    ∃ h1, abitset_expandable_unset h id = .ok h1 ∧ dir_ok h1 ∧
      abitset_expandable_enabled h1 id = .ok false ∧
      abitset_expandable_enabled h1 j =
        (if j >>> 18 = id >>> 18 ∧
            (j >>> 6) &&& (PAGE_ENTRIES - 1) = (id >>> 6) &&& (PAGE_ENTRIES - 1) ∧
            j &&& 63 = id &&& 63
          then .ok false else abitset_expandable_enabled h j) := by
  have hbj : ∀ k, k &&& 63 < 64 := fun k => Nat.and_lt_two_pow _ (by decide : 63 < 2 ^ 6)
  have hok1 := dir_ok_write h id (word_at h id &&& not64 (1 <<< (id &&& 63)))
    (if id > h.max_bit then id else h.max_bit)
    (if word_at h id &&& (1 <<< (id &&& 63)) ≠ 0 then (h.bit_count + U32 - 1) % U32
      else h.bit_count) hok
  have hread : ∀ k, abitset_expandable_enabled _ k = _ := fun k => enabled_eq_testBit _ k hok1
  refine ⟨_, unset_no_resize h id hok hlt, hok1, ?_, ?_⟩
  · rw [hread id, word_at_write h id id _ _ _ hok hlt, if_pos ⟨rfl, rfl⟩,
      testBit_clear_bit _ _ _ (hbj id) (hbj id)]
    simp
  · rw [hread j, word_at_write h id j _ _ _ hok hlt, enabled_eq_testBit h j hok]
    by_cases hpo : j >>> 18 = id >>> 18 ∧
        (j >>> 6) &&& (PAGE_ENTRIES - 1) = (id >>> 6) &&& (PAGE_ENTRIES - 1)
    · rw [if_pos hpo, testBit_clear_bit _ _ _ (hbj id) (hbj j)]
      have hw : word_at h j = word_at h id := by unfold word_at; rw [hpo.1, hpo.2]
      by_cases hb : j &&& 63 = id &&& 63
      · rw [if_pos ⟨hpo.1, hpo.2, hb⟩, hb]; simp
      · rw [if_neg (fun hh => hb hh.2.2), hw]
        simp [Ne.symm hb]
    · rw [if_neg hpo, if_neg (fun hh => hpo ⟨hh.1, hh.2.1⟩)]

/-! ### Growable bitset: load -/

/-- `abitset_expandable_expand` leaves the counter alone. -/
theorem expand_bit_count (h h1 : abitset_expandable_s) (id : Nat)
    (he : abitset_expandable_expand h id = .ok h1) : h1.bit_count = h.bit_count := by
  obtain ⟨_, _, hb, _⟩ := expand_max_bit_fields h id
  unfold abitset_expandable_expand at he
  generalize (if id > h.max_bit then { h with max_bit := id } else h) = g at he hb
  simp only at he
  split at he
  · exact Except.noConfusion he
  · rename_i h2 hres
    have h2b : h2.bit_count = g.bit_count := by
      split at hres
      · split at hres
        · exact Except.noConfusion hres
        · split at hres
          · exact Except.noConfusion hres
          · rw [← Except.ok.inj hres]
      · rw [← Except.ok.inj hres]
    split at he
    · exact Except.noConfusion he
    · rw [← Except.ok.inj he, h2b, hb]
    · rw [← Except.ok.inj he]; exact h2b.trans hb

/-- The import loop leaves the counter alone. -/
theorem load_loop_bit_count (repr : List Nat) :
    ∀ (n i : Nat) (h h1 : abitset_expandable_s),
      load_loop repr n i h = .ok h1 → h1.bit_count = h.bit_count := by
  intro n
  induction n with
  | zero =>
    intro i h h1 hl
    rw [load_loop] at hl
    rw [← Except.ok.inj hl]
  | succ n ih =>
    intro i h h1 hl
    rw [load_loop] at hl
    split at hl
    · exact Except.noConfusion hl
    · split at hl
      · dsimp only at hl
        split at hl
        · exact Except.noConfusion hl
        · split at hl
          · have h3 := ih _ _ _ hl
            exact h3
          · exact Except.noConfusion hl
      · exact ih _ _ _ hl

/-- C7: whatever words are loaded, the bitset `abitset_expandable_load` returns
has `abitset_expandable_count` 0: the load never touches the counter. -/
theorem load_count_is_zero (repr : List Nat) (size : Nat) (h : abitset_expandable_s)
    (hl : abitset_expandable_load repr size = .ok h) :
    abitset_expandable_count h = 0 := by
  unfold abitset_expandable_load at hl
  cases he : abitset_expandable_expand abitset_expandable_init ((size + U32 - 1) % U32) with
  | error e => rw [he] at hl; exact Except.noConfusion hl
  | ok h1 =>
    rw [he] at hl
    cases hll : load_loop repr (((size + 63) % U32) >>> 6) 0 h1 with
    | error e =>
      have hl2 : (Except.error e : Except Fault abitset_expandable_s) = .ok h := by
        rw [← hl]; simp only [bind, Except.bind, hll]
      exact Except.noConfusion hl2
    | ok h2 =>
      have hl2 : (Except.ok { h2 with max_bit := (size + U32 - 1) % U32 }
          : Except Fault abitset_expandable_s) = .ok h := by
        rw [← hl]; simp only [bind, Except.bind, hll]; rfl
      have hb1 := expand_bit_count _ _ _ he
      have hb2 := load_loop_bit_count repr _ _ _ _ hll
      rw [← Except.ok.inj hl2]
      show h2.bit_count % U32 = 0
      rw [hb2, hb1]
      rfl

/-- Witness for C7: loading the one-word array `[1]` with `size = 1` gives a
bitset in which id 0 is enabled and whose count is 0. -/
theorem load_count_is_zero_witness :
    abitset_expandable_load [1] 1 = .ok loaded_one ∧
    abitset_expandable_enabled loaded_one 0 = .ok true ∧
    abitset_expandable_count loaded_one = 0 :=
  ⟨by decide!, by decide!, load_count_is_zero [1] 1 loaded_one (by decide!)⟩

/-! ### Dense bitset: count_and_zero, assertions, load -/

theorem count_word_zero (fuel c : Nat) : count_word fuel 0 c = c := by
  cases fuel with
  | zero => rfl
  | succ fuel => rw [count_word]; simp

theorem foldl_count_zeros (l : List Nat) (hz : ∀ w ∈ l, w = 0) :
    ∀ c, l.foldl (fun count n => count_word 64 n count) c = c := by
  induction l with
  | nil => intro c; rfl
  | cons w ws ih =>
    intro c
    rw [List.foldl_cons, hz w (List.mem_cons_self _ _), count_word_zero]
    exact ih (fun x hx => hz x (List.mem_cons_of_mem _ hx)) c

/-- C14: `abitset_count_and_zero` returns what `abitset_count` returns on the
same bitset; afterwards `abitset_count` is 0, every word is 0, and the number
of words and the size are as before. -/
theorem count_and_zero_spec (x : abitset_s) :
    (abitset_count_and_zero x).1 = abitset_count x ∧
    abitset_count (abitset_count_and_zero x).2 = 0 ∧
    (∀ w ∈ (abitset_count_and_zero x).2.items, w = 0) ∧
    (abitset_count_and_zero x).2.items.length = x.items.length ∧
    abitset_size (abitset_count_and_zero x).2 = abitset_size x := by
  have hfun : (fun count n => if n ≠ 0 then count_word 64 n count else count)
      = (fun count n => count_word 64 n count) := by
    funext count n
    by_cases hn : n = 0
    · subst hn; rw [count_word_zero]; simp
    · rw [if_pos hn]
  have hzero : ∀ w ∈ (abitset_count_and_zero x).2.items, w = 0 := by
    intro w hw
    simp only [abitset_count_and_zero, List.mem_map] at hw
    obtain ⟨n, _, hn⟩ := hw
    by_cases h0 : n = 0
    · rw [← hn, if_neg (by simpa using h0)]; exact h0
    · rw [← hn, if_pos h0]
  refine ⟨?_, ?_, hzero, ?_, rfl⟩
  · simp only [abitset_count_and_zero, abitset_count, hfun]
  · unfold abitset_count
    exact foldl_count_zeros _ hzero 0
  · simp only [abitset_count_and_zero, List.length_map]

/-- C17: with `assert` compiled in, `abitset_set` and `abitset_unset` end in an
assertion failure exactly when `id >= size`, in which case no bitset results,
and they return a bitset exactly when `id < size`. -/
theorem dense_set_assertion (h : abitset_s) (id : Nat) :
    (abitset_set h id = .error .assertion ↔ h.size ≤ id) ∧
    (abitset_unset h id = .error .assertion ↔ h.size ≤ id) ∧
    ((∃ h1, abitset_set h id = .ok h1) ↔ id < h.size) ∧
    ((∃ h1, abitset_unset h id = .ok h1) ↔ id < h.size) := by
  unfold abitset_set abitset_unset
  by_cases hid : id < h.size
  · have hle : ¬ h.size ≤ id := by omega
    simp only [hid, not_true_eq_false, if_false, hle, iff_false, iff_true]
    refine ⟨?_, ?_, ?_, ?_⟩
    · cases h.items[id >>> 6]? <;> exact fun hh => Except.noConfusion hh
    · cases h.items[id >>> 6]? <;> exact fun hh => Except.noConfusion hh
    · cases h.items[id >>> 6]? <;> exact ⟨_, rfl⟩
    · cases h.items[id >>> 6]? <;> exact ⟨_, rfl⟩
  · have hle : h.size ≤ id := by omega
    simp only [hid, not_false_eq_true, if_true, hle, iff_true, iff_false, not_exists]
    exact ⟨trivial, trivial, fun _ hh => Except.noConfusion hh, fun _ hh => Except.noConfusion hh⟩

theorem shift_and_one_eq_testBit (w b : Nat) : decide ((w >>> b) &&& 1 = 1) = w.testBit b := by
  rw [Nat.testBit_to_div_mod, Nat.and_one_is_mod, Nat.shiftRight_eq_div_pow]

/-- C16: for a word array of `ceil(size / 64)` words and `id < size`,
`abitset_enabled` of the loaded bitset is bit `id mod 64` of word `id div 64`
of the array, for either value of `make_copy`; and loading the words and the
size of a bitset `x` gives a bitset with the size and the words of `x`. -/
theorem dense_load_round_trip (repr : List Nat) (size id : Nat) (make_copy : Bool)
    (x : abitset_s)
    (hlen : repr.length = word_count size) (hid : id < size)
    (hwf : x.items.length = word_count x.size) :
    repr_bit repr (id / 64) (id % 64)
      = some (abitset_enabled (abitset_load repr size make_copy) id) ∧
    abitset_size (abitset_load (abitset_repr x) (abitset_size x) make_copy) = abitset_size x ∧
    (abitset_load (abitset_repr x) (abitset_size x) make_copy).items = x.items := by
  refine ⟨?_, rfl, ?_⟩
  · have hitems : (abitset_load repr size make_copy).items = repr := by
      show repr.take (word_count size) = repr
      rw [← hlen, List.take_length]
    have hb : id / 64 < repr.length :=
      block_lt_of_lt_size { items := repr, last_mask := 0, size := size } id hlen hid
    rw [abitset_enabled_eq, hitems]
    unfold repr_bit
    rw [List.getElem?_eq_getElem hb]
    simp only [shift_and_one_eq_testBit]
  · show x.items.take (word_count x.size) = x.items
    rw [← hwf, List.take_length]

/-- Witness for C16: the one-word array `{5}` with `size = 3`, id 2. -/
theorem dense_load_round_trip_witness :
    repr_bit [5] (2 / 64) (2 % 64) = some (abitset_enabled (abitset_load [5] 3 false) 2) ∧
    abitset_size (abitset_load (abitset_repr test_bitset) (abitset_size test_bitset) true)
      = abitset_size test_bitset ∧
    (abitset_load (abitset_repr test_bitset) (abitset_size test_bitset) true).items
      = test_bitset.items :=
  dense_load_round_trip [5] 3 2 false test_bitset (by decide) (by decide) (by decide)

/-! ### Dense bitset: and, or, and_not -/

/-- Over two arrays of one length the combining loop returns the word-by-word
combination. -/
theorem combine_loop_eq (op : Nat → Nat → Nat) :
    ∀ (l1 l2 : List Nat), l1.length = l2.length →
      combine_loop op l1 l2 = .ok (List.zipWith op l1 l2) := by
  intro l1
  induction l1 with
  | nil => intro l2 _; rfl
  | cons w ws ih =>
    intro l2 hlen
    cases l2 with
    | nil => simp at hlen
    | cons v vs =>
      have hl : ws.length = vs.length := by simpa using hlen
      rw [combine_loop, ih vs hl]
      rfl

theorem testBit_and_not64 (w v b : Nat) (hv : v < 2 ^ 64) (hb : b < 64) :
    (w &&& not64 v).testBit b = (w.testBit b && !v.testBit b) := by
  have hrw : not64 v = 2 ^ 64 - (v + 1) := by
    simp only [not64, UINT64_MAX]
    omega
  rw [Nat.testBit_and, hrw, Nat.testBit_two_pow_sub_succ hv]
  simp [hb]

/-- Reading a bit of a word-by-word combination of two arrays of one length. -/
theorem bit_at_zipWith (op : Nat → Nat → Nat) (f : Bool → Bool → Bool) (l1 l2 : List Nat)
    (id : Nat) (hlen : l1.length = l2.length) (hf : f false false = false)
    (hop : ∀ w v, v ∈ l2 → (op w v).testBit (id % 64) = f (w.testBit (id % 64)) (v.testBit (id % 64))) :
    bit_at (List.zipWith op l1 l2) id = f (bit_at l1 id) (bit_at l2 id) := by
  unfold bit_at
  rw [List.getElem?_zipWith]
  by_cases hi : id / 64 < l1.length
  · have hi2 : id / 64 < l2.length := by omega
    rw [List.getElem?_eq_getElem hi, List.getElem?_eq_getElem hi2]
    exact hop _ _ (List.getElem_mem hi2)
  · have h1 : l1[id / 64]? = none := List.getElem?_eq_none (by omega)
    have h2 : l2[id / 64]? = none := List.getElem?_eq_none (by omega)
    rw [h1, h2]
    exact hf.symm

/-- The combining loop on a memory, when the words of the other handle start
at or after those of `dest` or end before them: every word of `dest` becomes
the combination of what it and the matching word of the other handle held
before the call, and no other word of the memory changes. -/
theorem combine_mem_spec (op : Nat → Nat → Nat) :
    ∀ (n n2 p p2 : Nat) (mem : List Nat), n ≤ n2 → p + n ≤ mem.length →
      p2 + n ≤ mem.length → (p ≤ p2 ∨ p2 + n ≤ p) →
      ∃ m1, combine_mem op n n2 p p2 mem = .ok m1 ∧ m1.length = mem.length ∧
        (∀ j, j < p ∨ p + n ≤ j → m1[j]? = mem[j]?) ∧
        (∀ k w v, k < n → mem[p + k]? = some w → mem[p2 + k]? = some v →
          m1[p + k]? = some (op w v)) := by
  intro n
  induction n with
  | zero =>
    intro n2 p p2 mem _ _ _ _
    exact ⟨mem, rfl, rfl, fun _ _ => rfl, fun k w v hk => absurd hk (Nat.not_lt_zero k)⟩
  | succ n ih =>
    intro n2 p p2 mem hn hp hp2 hsep
    cases n2 with
    | zero => omega
    | succ n2 =>
      have hpl : p < mem.length := by omega
      have hp2l : p2 < mem.length := by omega
      rw [combine_mem, List.getElem?_eq_getElem hpl, List.getElem?_eq_getElem hp2l]
      dsimp only
      obtain ⟨m1, hrun, hlen, hout, hin⟩ := ih n2 (p + 1) (p2 + 1)
        (mem.set p (op mem[p] mem[p2])) (by omega) (by rw [List.length_set]; omega)
        (by rw [List.length_set]; omega) (by omega)
      refine ⟨m1, hrun, by rw [hlen, List.length_set], ?_, ?_⟩
      · intro j hj
        rw [hout j (by omega), List.getElem?_set_ne (by omega)]
      · intro k w v hk hw hv
        cases k with
        | zero =>
          rw [Nat.add_zero] at hw hv ⊢
          rw [List.getElem?_eq_getElem hpl] at hw
          rw [List.getElem?_eq_getElem hp2l] at hv
          rw [hout p (by omega), List.getElem?_set_self hpl, ← Option.some.inj hw,
            ← Option.some.inj hv]
        | succ k =>
          have h1 : (mem.set p (op mem[p] mem[p2]))[p + 1 + k]? = some w := by
            rw [List.getElem?_set_ne (by omega), ← hw]
            congr 1
            omega
          have h2 : (mem.set p (op mem[p] mem[p2]))[p2 + 1 + k]? = some v := by
            rw [List.getElem?_set_ne (by omega), ← hv]
            congr 1
            omega
          have h3 := hin k w v (by omega) h1 h2
          rw [← h3]
          congr 1
          omega

theorem getElem?_deref (mem : List Nat) (r : abitset_ref) (k : Nat) :
    (deref mem r).items[k]? = if k < r.words then mem[r.items + k]? else none := by
  show ((mem.drop r.items).take r.words)[k]? = _
  rw [List.getElem?_take, List.getElem?_drop]

theorem length_deref (mem : List Nat) (r : abitset_ref) (hin : r.items + r.words ≤ mem.length) :
    (deref mem r).items.length = r.words := by
  show ((mem.drop r.items).take r.words).length = _
  rw [List.length_take, List.length_drop]
  omega

/-- The combining loop on two handles of one word count inside the memory, the
words of the second starting at or after those of `dest` or ending before
them: the call returns, the words of `dest` become the word-by-word
combination of the words the two handles had, and the words of the second
handle stay as they were when the two arrays do not overlap. -/
theorem combine_in_items (op : Nat → Nat → Nat) (mem : List Nat) (dest src : abitset_ref)
    (hwords : dest.words = src.words) (hd : dest.items + dest.words ≤ mem.length)
    (hs : src.items + src.words ≤ mem.length)
    (hsep : dest.items ≤ src.items ∨ src.items + src.words ≤ dest.items) :
    ∃ m1, combine_mem op dest.words src.words dest.items src.items mem = .ok m1 ∧
      m1.length = mem.length ∧
      (deref m1 dest).items = List.zipWith op (deref mem dest).items (deref mem src).items ∧
      (dest.items + dest.words ≤ src.items ∨ src.items + src.words ≤ dest.items →
        (deref m1 src).items = (deref mem src).items) := by
  obtain ⟨m1, hrun, hlen, hout, hin⟩ := combine_mem_spec op dest.words src.words dest.items
    src.items mem (by omega) hd (by omega) (by omega)
  refine ⟨m1, hrun, hlen, ?_, ?_⟩
  · apply List.ext_getElem?
    intro k
    rw [getElem?_deref, List.getElem?_zipWith, getElem?_deref, getElem?_deref, ← hwords]
    by_cases hk : k < dest.words
    · have h1 : dest.items + k < mem.length := by omega
      have h2 : src.items + k < mem.length := by omega
      rw [if_pos hk, hin k _ _ hk (List.getElem?_eq_getElem h1) (List.getElem?_eq_getElem h2),
        List.getElem?_eq_getElem h1, List.getElem?_eq_getElem h2]
      simp only [if_pos hk]
    · rw [if_neg hk]
      simp only [if_neg hk]
  · intro hdis
    apply List.ext_getElem?
    intro k
    rw [getElem?_deref, getElem?_deref]
    by_cases hk : k < src.words
    · rw [if_pos hk, if_pos hk, hout (src.items + k) (by omega)]
    · rw [if_neg hk, if_neg hk]

theorem mem_deref (mem : List Nat) (r : abitset_ref) (w : Nat) (hw : w ∈ (deref mem r).items) :
    w ∈ mem :=
  List.mem_of_mem_drop (List.mem_of_mem_take hw)

theorem deref_eq_of_items (m1 mem : List Nat) (r : abitset_ref)
    (hi : (deref m1 r).items = (deref mem r).items) : deref m1 r = deref mem r := by
  have hi2 : (m1.drop r.items).take r.words = (mem.drop r.items).take r.words := hi
  unfold deref
  rw [hi2]

/-- One combining call on two handles of one size into one memory, the words
of the second starting at or after those of `dest` or ending before them: the
call returns, every bit of `dest` becomes the combination of the bits the two
handles had, and the second handle reads as before when the two word arrays do
not overlap. -/
theorem combine_in_bits (op : Nat → Nat → Nat) (f : Bool → Bool → Bool) (mem : List Nat)
    (dest src : abitset_ref) (id : Nat)
    (hwords : dest.words = src.words) (hd : dest.items + dest.words ≤ mem.length)
    (hs : src.items + src.words ≤ mem.length)
    (hsep : dest.items ≤ src.items ∨ src.items + src.words ≤ dest.items)
    (hf : f false false = false)
    (hop : ∀ w v, v ∈ (deref mem src).items →
      (op w v).testBit (id % 64) = f (w.testBit (id % 64)) (v.testBit (id % 64))) :
    ∃ m1, combine_mem op dest.words src.words dest.items src.items mem = .ok m1 ∧
      abitset_size (deref m1 dest) = abitset_size (deref mem dest) ∧
      abitset_enabled (deref m1 dest) id =
        f (abitset_enabled (deref mem dest) id) (abitset_enabled (deref mem src) id) ∧
      (dest.items + dest.words ≤ src.items ∨ src.items + src.words ≤ dest.items →
        deref m1 src = deref mem src) := by
  obtain ⟨m1, hrun, _, hitems, hsrc⟩ := combine_in_items op mem dest src hwords hd hs hsep
  have hlen : (deref mem dest).items.length = (deref mem src).items.length := by
    rw [length_deref mem dest hd, length_deref mem src hs, hwords]
  refine ⟨m1, hrun, rfl, ?_, fun hdis => deref_eq_of_items m1 mem src (hsrc hdis)⟩
  rw [abitset_enabled_eq_bit_at, abitset_enabled_eq_bit_at, abitset_enabled_eq_bit_at, hitems]
  exact bit_at_zipWith op f _ _ id hlen hf hop

/-- On two handles of one word count whose word arrays do not overlap, the
call on the memory and `abitset_and` on the two bitsets the handles designate
give the same two bitsets. -/
theorem abitset_and_in_separate (mem : List Nat) (dest src : abitset_ref)
    (hwords : dest.words = src.words) (hd : dest.items + dest.words ≤ mem.length)
    (hs : src.items + src.words ≤ mem.length)
    (hdis : dest.items + dest.words ≤ src.items ∨ src.items + src.words ≤ dest.items) :
    ∃ m1, abitset_and_in mem dest src = .ok m1 ∧
      abitset_and (deref mem dest) (deref mem src) = .ok (deref m1 dest, deref m1 src) := by
  obtain ⟨m1, hrun, _, hitems, hsrc⟩ := combine_in_items (fun a b => a &&& b) mem dest src
    hwords hd hs (by omega)
  have hlen : (deref mem dest).items.length = (deref mem src).items.length := by
    rw [length_deref mem dest hd, length_deref mem src hs, hwords]
  refine ⟨m1, hrun, ?_⟩
  unfold abitset_and
  rw [combine_loop_eq _ _ _ hlen, ← hitems, deref_eq_of_items m1 mem src (hsrc hdis)]
  rfl

/-- The same for `abitset_or`. -/
theorem abitset_or_in_separate (mem : List Nat) (dest src : abitset_ref)
    (hwords : dest.words = src.words) (hd : dest.items + dest.words ≤ mem.length)
    (hs : src.items + src.words ≤ mem.length)
    (hdis : dest.items + dest.words ≤ src.items ∨ src.items + src.words ≤ dest.items) :
    ∃ m1, abitset_or_in mem dest src = .ok m1 ∧
      abitset_or (deref mem dest) (deref mem src) = .ok (deref m1 dest, deref m1 src) := by
  obtain ⟨m1, hrun, _, hitems, hsrc⟩ := combine_in_items (fun a b => a ||| b) mem dest src
    hwords hd hs (by omega)
  have hlen : (deref mem dest).items.length = (deref mem src).items.length := by
    rw [length_deref mem dest hd, length_deref mem src hs, hwords]
  refine ⟨m1, hrun, ?_⟩
  unfold abitset_or
  rw [combine_loop_eq _ _ _ hlen, ← hitems, deref_eq_of_items m1 mem src (hsrc hdis)]
  rfl

/-- The same for `abitset_and_not`. -/
theorem abitset_and_not_in_separate (mem : List Nat) (dest src : abitset_ref)
    (hwords : dest.words = src.words) (hd : dest.items + dest.words ≤ mem.length)
    (hs : src.items + src.words ≤ mem.length)
    (hdis : dest.items + dest.words ≤ src.items ∨ src.items + src.words ≤ dest.items) :
    ∃ m1, abitset_and_not_in mem dest src = .ok m1 ∧
      abitset_and_not (deref mem dest) (deref mem src) = .ok (deref m1 dest, deref m1 src) := by
  obtain ⟨m1, hrun, _, hitems, hsrc⟩ := combine_in_items (fun a b => a &&& not64 b) mem dest src
    hwords hd hs (by omega)
  have hlen : (deref mem dest).items.length = (deref mem src).items.length := by
    rw [length_deref mem dest hd, length_deref mem src hs, hwords]
  refine ⟨m1, hrun, ?_⟩
  unfold abitset_and_not
  rw [combine_loop_eq _ _ _ hlen, ← hitems, deref_eq_of_items m1 mem src (hsrc hdis)]
  rfl

/-- C12 (counterexample): `abitset_and_not` with the test program's bitset
(ids 0 and 99 set) as both `dest` and `src` returns with both words 0: the
bitset passed as `src` had id 0 enabled before the call and has not
afterwards. -/
theorem and_not_self_changes_src :
    deref [1, 34359738368] test_ref = test_bitset ∧
    abitset_and_not_in [1, 34359738368] test_ref test_ref = .ok [0, 0] ∧
    abitset_enabled (deref [1, 34359738368] test_ref) 0 = true ∧
    abitset_enabled (deref [0, 0] test_ref) 0 = false ∧
    deref [0, 0] test_ref ≠ deref [1, 34359738368] test_ref := by
  decide

/-- C12 (amended): for two dense bitsets of one size, each with the word count
of that size, whose word arrays lie in the memory and either do not overlap or
are one and the same array (as when one bitset is passed twice), and for every
id: `abitset_and`, `abitset_or` and `abitset_and_not` return; afterwards
`abitset_enabled` of `dest` is the AND, the OR, respectively the AND NOT of
what it was and what `abitset_enabled` of `src` was; the size of `dest` is
kept; and when the two arrays do not overlap `src` is as it was. -/
theorem dense_algebra (mem : List Nat) (dest src : abitset_ref) (id : Nat)
    (hd : dest.words = word_count dest.size) (hs : src.words = word_count src.size)
    (hsize : dest.size = src.size)
    (hdin : dest.items + dest.words ≤ mem.length) (hsin : src.items + src.words ≤ mem.length)
    (hw : ∀ w ∈ (deref mem src).items, w < 2 ^ 64)
    (hsep : dest.items + dest.words ≤ src.items ∨ src.items + src.words ≤ dest.items ∨
      dest.items = src.items) :
    (∃ m1, abitset_and_in mem dest src = .ok m1 ∧
      abitset_size (deref m1 dest) = abitset_size (deref mem dest) ∧
      abitset_enabled (deref m1 dest) id =
        (abitset_enabled (deref mem dest) id && abitset_enabled (deref mem src) id) ∧
      (dest.items + dest.words ≤ src.items ∨ src.items + src.words ≤ dest.items →
        deref m1 src = deref mem src)) ∧
    (∃ m1, abitset_or_in mem dest src = .ok m1 ∧
      abitset_size (deref m1 dest) = abitset_size (deref mem dest) ∧
      abitset_enabled (deref m1 dest) id =
        (abitset_enabled (deref mem dest) id || abitset_enabled (deref mem src) id) ∧
      (dest.items + dest.words ≤ src.items ∨ src.items + src.words ≤ dest.items →
        deref m1 src = deref mem src)) ∧
    (∃ m1, abitset_and_not_in mem dest src = .ok m1 ∧
      abitset_size (deref m1 dest) = abitset_size (deref mem dest) ∧
      abitset_enabled (deref m1 dest) id =
        (abitset_enabled (deref mem dest) id && !abitset_enabled (deref mem src) id) ∧
      (dest.items + dest.words ≤ src.items ∨ src.items + src.words ≤ dest.items →
        deref m1 src = deref mem src)) := by
  have hwords : dest.words = src.words := by rw [hd, hs, hsize]
  have hsep2 : dest.items ≤ src.items ∨ src.items + src.words ≤ dest.items := by omega
  have hb : id % 64 < 64 := Nat.mod_lt _ (by decide)
  exact ⟨combine_in_bits _ (fun a b => a && b) mem dest src id hwords hdin hsin hsep2 rfl
      (fun w v _ => Nat.testBit_and w v _),
    combine_in_bits _ (fun a b => a || b) mem dest src id hwords hdin hsin hsep2 rfl
      (fun w v _ => Nat.testBit_or w v _),
    combine_in_bits _ (fun a b => a && !b) mem dest src id hwords hdin hsin hsep2 rfl
      (fun w v hv => testBit_and_not64 w v _ (hw v hv) hb)⟩

/-- Witness for C12 (amended): the test program's bitset with ids 0 and 99 set
and, in the two words after it, a 100-bit bitset in which only id 0 is set. -/
theorem dense_algebra_witness :
    deref [1, 34359738368, 1, 0] test_ref = test_bitset ∧
    deref [1, 34359738368, 1, 0] other_ref = other_bitset ∧
    abitset_and_in [1, 34359738368, 1, 0] test_ref other_ref = .ok [1, 0, 1, 0] ∧
    (∃ m1, abitset_and_in [1, 34359738368, 1, 0] test_ref other_ref = .ok m1 ∧
      abitset_size (deref m1 test_ref) = abitset_size (deref [1, 34359738368, 1, 0] test_ref) ∧
      abitset_enabled (deref m1 test_ref) 99 =
        (abitset_enabled (deref [1, 34359738368, 1, 0] test_ref) 99 &&
          abitset_enabled (deref [1, 34359738368, 1, 0] other_ref) 99) ∧
      (test_ref.items + test_ref.words ≤ other_ref.items ∨
          other_ref.items + other_ref.words ≤ test_ref.items →
        deref m1 other_ref = deref [1, 34359738368, 1, 0] other_ref)) :=
  ⟨by decide, by decide, by decide,
    (dense_algebra [1, 34359738368, 1, 0] test_ref other_ref 99 (by decide) (by decide)
      (by decide) (by decide) (by decide) (by decide) (by decide)).1⟩

/-! ### Dense bitset: true, false, not -/

theorem uint64_max_eq : UINT64_MAX = 2 ^ 64 - 1 := by decide

theorem not64_testBit (x b : Nat) (hx : x < 2 ^ 64) :
    (not64 x).testBit b = (decide (b < 64) && !x.testBit b) := by
  have hrw : not64 x = 2 ^ 64 - (x + 1) := by
    simp only [not64, UINT64_MAX]
    omega
  rw [hrw, Nat.testBit_two_pow_sub_succ hx]

theorem not64_lt (x : Nat) : not64 x < 2 ^ 64 := by
  simp only [not64, UINT64_MAX]
  omega

theorem length_mask_last_word (l : List Nat) (m : Nat) :
    (mask_last_word l m).length = l.length := by
  unfold mask_last_word
  split
  · rfl
  · exact List.length_set _ _ _

theorem getElem?_mask_last_word (l : List Nat) (m k : Nat) :
    (mask_last_word l m)[k]? =
      if k + 1 = l.length then (l[k]?).map (fun w => w &&& m) else l[k]? := by
  unfold mask_last_word
  by_cases hk : k + 1 = l.length
  · have hk1 : l.length - 1 = k := by omega
    have hlt : k < l.length := by omega
    rw [if_pos hk, hk1, List.getElem?_eq_getElem hlt]
    simp only [List.getElem?_set_self hlt, Option.map_some']
  · rw [if_neg hk]
    split
    · rfl
    · rename_i v hv
      have hpos : l.length - 1 < l.length := (List.getElem?_eq_some.mp hv).1
      have hne : l.length - 1 ≠ k := by omega
      rw [List.getElem?_set_ne hne]

theorem tail_mask_testBit (size b : Nat) (hb : b < 64) :
    (tail_mask size).testBit b = decide (size % 64 = 0 ∨ b < size % 64) := by
  unfold tail_mask
  rw [(id_split size).2]
  by_cases hr : size % 64 = 0
  · rw [if_pos hr, uint64_max_eq, Nat.testBit_two_pow_sub_one]
    simp [hb, hr]
  · rw [if_neg hr, Nat.one_shiftLeft, Nat.testBit_two_pow_sub_one]
    simp [hr]

theorem tail_mask_lt (size : Nat) : tail_mask size < 2 ^ 64 := by
  unfold tail_mask
  rw [(id_split size).2]
  split
  · decide
  · rw [Nat.one_shiftLeft]
    have h1 : size % 64 < 64 := Nat.mod_lt _ (by decide)
    have h2 : 2 ^ (size % 64) < 2 ^ 64 := Nat.pow_lt_pow_right (by decide) h1
    exact lt_of_le_of_lt (Nat.sub_le _ _) h2

/-- Where the last word of a bitset of `size` bits lies. -/
theorem word_count_cases (size : Nat) :
    (size % 64 = 0 ∧ 64 * word_count size = size) ∨
    (0 < size % 64 ∧ 64 * (word_count size - 1) + size % 64 = size ∧ 0 < word_count size) := by
  unfold word_count
  rw [(id_split size).1, (id_split size).2]
  by_cases hr : size % 64 = 0
  · left
    rw [if_neg (by omega)]
    omega
  · right
    have hpos : 0 < size % 64 := Nat.pos_of_ne_zero hr
    rw [if_pos hpos]
    omega

/-- After `abitset_true` exactly the ids below `size` read as set. -/
theorem bit_at_true (x : abitset_s) (id : Nat)
    (hwf : x.items.length = word_count x.size) (hmask : x.last_mask = tail_mask x.size) :
    bit_at (abitset_true x).items id = decide (id < x.size) := by
  have hb : id % 64 < 64 := Nat.mod_lt _ (by decide)
  have hall : (UINT64_MAX).testBit (id % 64) = true := by
    rw [uint64_max_eq, Nat.testBit_two_pow_sub_one]; simp [hb]
  unfold bit_at abitset_true
  dsimp only
  rw [getElem?_mask_last_word, List.length_replicate, List.getElem?_replicate, hmask, hwf]
  rcases word_count_cases x.size with ⟨hr, hsz⟩ | ⟨hr, hsz, hpos⟩
  · by_cases hk : id / 64 < word_count x.size
    · have hlt : id < x.size := by omega
      by_cases hlast : id / 64 + 1 = word_count x.size
      · simp only [if_pos hlast, if_pos hk, Option.map_some', Nat.testBit_and, hall,
          tail_mask_testBit _ _ hb, hr, hlt]
        simp
      · simp only [if_neg hlast, if_pos hk, hall, hlt]
        simp
    · have hge : ¬ id < x.size := by omega
      have hlast : ¬ id / 64 + 1 = word_count x.size := by omega
      simp only [if_neg hlast, if_neg hk, hge]
      simp
  · by_cases hk : id / 64 < word_count x.size
    · by_cases hlast : id / 64 + 1 = word_count x.size
      · simp only [if_pos hlast, if_pos hk, Option.map_some', Nat.testBit_and, hall,
          tail_mask_testBit _ _ hb]
        have hiff : (x.size % 64 = 0 ∨ id % 64 < x.size % 64) ↔ id < x.size := by omega
        simp [hiff]
      · have hlt : id < x.size := by omega
        simp only [if_neg hlast, if_pos hk, hall, hlt]
        simp
    · have hge : ¬ id < x.size := by omega
      have hlast : ¬ id / 64 + 1 = word_count x.size := by omega
      simp only [if_neg hlast, if_neg hk, hge]
      simp

theorem and_le_uint64 (w m : Nat) (hm : m < 2 ^ 64) : w &&& m < 2 ^ 64 :=
  lt_of_le_of_lt Nat.and_le_right hm

theorem mask_last_word_lt (l : List Nat) (m : Nat) (hl : ∀ w ∈ l, w < 2 ^ 64) :
    ∀ w ∈ mask_last_word l m, w < 2 ^ 64 := by
  intro w hw
  unfold mask_last_word at hw
  split at hw
  · exact hl w hw
  · rename_i v hv
    rcases List.mem_or_eq_of_mem_set hw with hmem | heq
    · exact hl w hmem
    · rw [heq]
      exact lt_of_le_of_lt Nat.and_le_left (hl v (List.getElem?_mem hv))

/-- C15: for a dense bitset with the word count and the `last_mask` of its
size, after `abitset_true` every id in `[0, size)` is enabled, no id from
`size` on is, and `abitset_count` is `size`; after `abitset_false` no id is
enabled and `abitset_count` is 0; the size is kept by both. -/
theorem dense_true_false (x : abitset_s)
    (hwf : x.items.length = word_count x.size) (hmask : x.last_mask = tail_mask x.size)
    (hsz : x.size < U32) :
    (∀ id, abitset_enabled (abitset_true x) id = decide (id < abitset_size x)) ∧
    abitset_count (abitset_true x) = abitset_size x ∧
    abitset_size (abitset_true x) = abitset_size x ∧
    (∀ id, abitset_enabled (abitset_false x) id = false) ∧
    abitset_count (abitset_false x) = 0 ∧
    abitset_size (abitset_false x) = abitset_size x := by
  have hen : ∀ id, abitset_enabled (abitset_true x) id = decide (id < x.size) := by
    intro id
    rw [abitset_enabled_eq_bit_at]
    exact bit_at_true x id hwf hmask
  have hlen : (abitset_true x).items.length = word_count (abitset_true x).size := by
    show (mask_last_word _ _).length = word_count x.size
    rw [length_mask_last_word, List.length_replicate, hwf]
  have hwords : ∀ w ∈ (abitset_true x).items, w < 2 ^ 64 := by
    apply mask_last_word_lt
    intro w hw
    rw [List.eq_of_mem_replicate hw]
    decide
  have hcount := count_eq_enabled_count (abitset_true x) hlen hwords hsz
    (fun id _ hge => by rw [hen id]; simpa using hge)
  have hfilter : (List.range x.size).filter (abitset_enabled (abitset_true x))
      = List.range x.size := by
    apply List.filter_eq_self.mpr
    intro a ha
    rw [hen a]
    simpa using List.mem_range.mp ha
  refine ⟨hen, ?_, rfl, ?_, ?_, rfl⟩
  · rw [hcount]
    show ((List.range x.size).filter _).length = x.size
    rw [hfilter, List.length_range]
  · intro id
    rw [abitset_enabled_eq_bit_at]
    unfold bit_at abitset_false
    dsimp only
    rw [List.getElem?_replicate]
    by_cases hk : id / 64 < x.items.length
    · simp only [if_pos hk, Nat.zero_testBit]
    · simp only [if_neg hk]
  · unfold abitset_count
    exact foldl_count_zeros _ (fun w hw => List.eq_of_mem_replicate hw) 0

/-- Witness for C15: the 100-bit bitset of the test program. -/
theorem dense_true_false_witness :
    abitset_count (abitset_true test_bitset) = 100 ∧
    ((∀ id, abitset_enabled (abitset_true test_bitset) id = decide (id < abitset_size test_bitset)) ∧
    abitset_count (abitset_true test_bitset) = abitset_size test_bitset ∧
    abitset_size (abitset_true test_bitset) = abitset_size test_bitset ∧
    (∀ id, abitset_enabled (abitset_false test_bitset) id = false) ∧
    abitset_count (abitset_false test_bitset) = 0 ∧
    abitset_size (abitset_false test_bitset) = abitset_size test_bitset) :=
  ⟨by decide!, dense_true_false test_bitset (by decide!) (by decide!) (by decide!)⟩

theorem not64_not64 (w : Nat) (hw : w < 2 ^ 64) : not64 (not64 w) = w := by
  simp only [not64, UINT64_MAX]
  omega

/-- Flipping a masked flipped word and masking again gives the word back when
the word has no bit outside the mask. -/
theorem not_mask_not_mask (w m : Nat) (hw : w < 2 ^ 64) (hm : m < 2 ^ 64)
    (hsub : ∀ b, b < 64 → w.testBit b = true → m.testBit b = true) :
    not64 (not64 w &&& m) &&& m = w := by
  apply Nat.eq_of_testBit_eq
  intro b
  rw [Nat.testBit_and, not64_testBit _ _ (and_le_uint64 _ _ hm), Nat.testBit_and,
    not64_testBit _ _ hw]
  by_cases hb : b < 64
  · have := hsub b hb
    cases hwb : w.testBit b <;> cases hmb : m.testBit b <;> simp_all
  · have h64 : 2 ^ 64 ≤ 2 ^ b := Nat.pow_le_pow_right (by decide) (by omega)
    rw [Nat.testBit_lt_two_pow (lt_of_lt_of_le hw h64),
      Nat.testBit_lt_two_pow (lt_of_lt_of_le hm h64)]
    simp

/-- C11 (counterexample): on the bitset loaded from the one-word array `{3}`
with `size = 1`, two calls of `abitset_not` leave the word 1, not 3, and id 1,
which read as enabled before, reads as not enabled. -/
theorem dense_not_twice_clears_tail :
    (abitset_not (abitset_not (abitset_load [3] 1 true))).items = [1] ∧
    (abitset_load [3] 1 true).items = [3] ∧
    abitset_enabled (abitset_load [3] 1 true) 1 = true ∧
    abitset_enabled (abitset_not (abitset_not (abitset_load [3] 1 true))) 1 = false ∧
    abitset_not (abitset_not (abitset_load [3] 1 true)) ≠ abitset_load [3] 1 true := by
  decide

/-- C11 (amended): for a dense bitset with the word count and the `last_mask`
of its size, 64-bit words and no bit set at a position `>= size` of its last
word, two calls of `abitset_not` give the bitset back: every word, and so every
`abitset_enabled`, is as it was. -/
theorem dense_not_involution (x : abitset_s)
    (hwf : x.items.length = word_count x.size) (hmask : x.last_mask = tail_mask x.size)
    (hw : ∀ w ∈ x.items, w < 2 ^ 64)
    (htail : ∀ id, id < 64 * x.items.length → x.size ≤ id → abitset_enabled x id = false) :
    abitset_not (abitset_not x) = x := by
  have hitems : mask_last_word ((mask_last_word (x.items.map not64) x.last_mask).map not64)
      x.last_mask = x.items := by
    apply List.ext_getElem?
    intro k
    rw [getElem?_mask_last_word, List.length_map, length_mask_last_word, List.length_map,
      List.getElem?_map, getElem?_mask_last_word, List.length_map, List.getElem?_map]
    by_cases hk : k < x.items.length
    · have hwk : x.items[k] < 2 ^ 64 := hw _ (List.getElem_mem hk)
      rw [List.getElem?_eq_getElem hk]
      by_cases hlast : k + 1 = x.items.length
      · simp only [if_pos hlast, Option.map_some']
        congr 1
        apply not_mask_not_mask _ _ hwk (by rw [hmask]; exact tail_mask_lt _)
        intro b hb hbit
        rw [hmask, tail_mask_testBit _ _ hb]
        rcases word_count_cases x.size with ⟨hr, _⟩ | ⟨hr, hsz, hpos⟩
        · simp [hr]
        · by_cases hbr : b < x.size % 64
          · simp [hbr]
          · exfalso
            rw [← hwf] at hsz hpos
            have hid1 : (64 * k + b) / 64 = k := by omega
            have hid2 : (64 * k + b) % 64 = b := by omega
            have hfalse := htail (64 * k + b) (by omega) (by omega)
            rw [abitset_enabled_eq_bit_at] at hfalse
            unfold bit_at at hfalse
            rw [hid1, hid2, List.getElem?_eq_getElem hk] at hfalse
            dsimp only at hfalse
            rw [hbit] at hfalse
            exact Bool.noConfusion hfalse
      · simp only [if_neg hlast, Option.map_some', not64_not64 _ hwk]
    · have hnone : x.items[k]? = none := List.getElem?_eq_none (by omega)
      rw [hnone]
      simp
  unfold abitset_not
  dsimp only
  rw [hitems]

/-- Witness for C11 (amended): the bitset of the test program with ids 0 and
99 set. -/
theorem dense_not_involution_witness :
    (abitset_not test_bitset).items = [18446744073709551614, 34359738367] ∧
    abitset_not (abitset_not test_bitset) = test_bitset :=
  ⟨by decide!, dense_not_involution test_bitset (by decide!) (by decide!) (by decide!)
    (by decide!)⟩

/-! ### Dense bitset: first_enabled -/

/-- On a non-zero 64-bit word the loop of `portable_ctzll` ends, and it ends
with the position of the lowest 1 bit added to the index. -/
theorem ctz_loop_spec :
    ∀ (fuel x idx : Nat), x ≠ 0 → x < 2 ^ fuel → idx + fuel < U32 →
      ∃ t, t < fuel ∧ ctz_loop fuel x idx = some (idx + t) ∧ x.testBit t = true ∧
        ∀ b, b < t → x.testBit b = false := by
  intro fuel
  induction fuel with
  | zero => intro x idx hx hlt _; simp at hlt; omega
  | succ fuel ih =>
    intro x idx hx hlt hidx
    rw [ctz_loop, Nat.and_one_is_mod]
    by_cases hpar : x % 2 = 0
    · have hshift : x >>> 1 = x / 2 := by rw [Nat.shiftRight_eq_div_pow]
      have hmod : (idx + 1) % U32 = idx + 1 := Nat.mod_eq_of_lt (by omega)
      have hx2 : x / 2 ≠ 0 := by omega
      have hlt2 : x / 2 < 2 ^ fuel := by rw [Nat.pow_succ] at hlt; omega
      obtain ⟨t, ht, hres, hbit, hmin⟩ := ih (x / 2) (idx + 1) hx2 hlt2 (by omega)
      refine ⟨t + 1, by omega, ?_, ?_, ?_⟩
      · rw [if_pos hpar, hshift, hmod, hres]
        congr 1
        omega
      · rw [Nat.testBit_succ]; exact hbit
      · intro b hb
        cases b with
        | zero => simp [Nat.testBit_zero, hpar]
        | succ b => rw [Nat.testBit_succ]; exact hmin b (by omega)
    · refine ⟨0, by omega, ?_, ?_, ?_⟩
      · rw [if_neg hpar]; rfl
      · have : x % 2 = 1 := by omega
        simp [Nat.testBit_zero, this]
      · intro b hb; omega

theorem portable_ctzll_spec (x : Nat) (hx : x ≠ 0) (hlt : x < 2 ^ 64) :
    ∃ t, t < 64 ∧ portable_ctzll x = some t ∧ x.testBit t = true ∧
      ∀ b, b < t → x.testBit b = false := by
  obtain ⟨t, ht, hres, hbit, hmin⟩ := ctz_loop_spec 64 x 0 hx hlt (by decide)
  exact ⟨t, ht, by rw [portable_ctzll, hres, Nat.zero_add], hbit, hmin⟩

theorem bit_at_cons (w : Nat) (ws : List Nat) (i : Nat) :
    bit_at (w :: ws) i = if i < 64 then w.testBit i else bit_at ws (i - 64) := by
  unfold bit_at
  by_cases hi : i < 64
  · have h1 : i / 64 = 0 := by omega
    have h2 : i % 64 = i := by omega
    rw [if_pos hi, h1, h2, List.getElem?_cons_zero]
  · have h1 : i / 64 = (i - 64) / 64 + 1 := by omega
    have h2 : i % 64 = (i - 64) % 64 := by omega
    rw [if_neg hi, h1, h2, List.getElem?_cons_succ]

/-- The scan of `abitset_first_enabled` from word `k0` on: -1 when no bit is
set, otherwise the position of the lowest set bit, counted from bit 0 of word
0, as an `int32_t`. -/
theorem first_enabled_loop_spec :
    ∀ (l : List Nat) (k0 : Nat), (∀ w ∈ l, w < 2 ^ 64) →
      ((∀ i, bit_at l i = false) → first_enabled_loop l k0 = .ok (-1)) ∧
      (∀ i, bit_at l i = true → (∀ j, j < i → bit_at l j = false) →
        first_enabled_loop l k0 = .ok (to_int32 (k0 * 64 + i))) := by
  intro l
  induction l with
  | nil =>
    intro k0 _
    refine ⟨fun _ => rfl, fun i hi _ => ?_⟩
    simp [bit_at] at hi
  | cons w ws ih =>
    intro k0 hw
    have hws : ∀ v ∈ ws, v < 2 ^ 64 := fun v hv => hw v (List.mem_cons_of_mem _ hv)
    by_cases hz : w = 0
    · subst hz
      have hstep : first_enabled_loop (0 :: ws) k0 = first_enabled_loop ws (k0 + 1) := by
        rw [first_enabled_loop]; simp
      have htail : ∀ i, bit_at ws i = bit_at (0 :: ws) (i + 64) := by
        intro i
        rw [bit_at_cons, if_neg (by omega), Nat.add_sub_cancel]
      refine ⟨fun hall => ?_, fun i hi hmin => ?_⟩
      · rw [hstep]
        exact (ih (k0 + 1) hws).1 (fun i => by rw [htail]; exact hall _)
      · have hge : ¬ i < 64 := by
          intro hlt
          rw [bit_at_cons, if_pos hlt, Nat.zero_testBit] at hi
          exact Bool.noConfusion hi
        have hi' : bit_at ws (i - 64) = true := by
          rw [htail, Nat.sub_add_cancel (by omega)]; exact hi
        have hmin' : ∀ j, j < i - 64 → bit_at ws j = false := by
          intro j hj
          rw [htail]
          exact hmin _ (by omega)
        rw [hstep, (ih (k0 + 1) hws).2 (i - 64) hi' hmin']
        congr 2
        omega
    · obtain ⟨t, ht, hres, hbit, hlow⟩ := portable_ctzll_spec w hz (hw w (List.mem_cons_self _ _))
      have hbt : bit_at (w :: ws) t = true := by rw [bit_at_cons, if_pos ht]; exact hbit
      have hstep : first_enabled_loop (w :: ws) k0 = .ok (to_int32 (k0 * 64 + t)) := by
        rw [first_enabled_loop, if_pos hz, hres]
      refine ⟨fun hall => ?_, fun i hi hmin => ?_⟩
      · rw [hall t] at hbt
        exact Bool.noConfusion hbt
      · have hle : i ≤ t := by
          by_contra hgt
          have := hmin t (by omega)
          rw [this] at hbt
          exact Bool.noConfusion hbt
        have hit : i = t := by
          by_contra hne
          have hlt : i < t := by omega
          rw [bit_at_cons, if_pos (by omega), hlow i hlt] at hi
          exact Bool.noConfusion hi
        rw [hstep, hit]

theorem to_int32_small (v : Nat) (hv : v < 2147483648) : to_int32 v = (v : Int) := by
  have hmod : v % U32 = v := Nat.mod_eq_of_lt (by unfold U32; omega)
  unfold to_int32
  rw [hmod, if_pos hv]

/-- The scan passes over leading zero words. -/
theorem first_enabled_loop_zeros (l : List Nat) :
    ∀ (n k : Nat), first_enabled_loop (List.replicate n 0 ++ l) k = first_enabled_loop l (k + n) := by
  intro n
  induction n with
  | zero => intro k; rfl
  | succ n ih =>
    intro k
    rw [List.replicate_succ, List.cons_append, first_enabled_loop]
    simp only [ne_eq, not_true_eq_false, if_false]
    rw [ih (k + 1)]
    congr 1
    omega

theorem bit_at_zeros_append_lt (n : Nat) (l : List Nat) (j : Nat) (hj : j / 64 < n) :
    bit_at (List.replicate n 0 ++ l) j = false := by
  unfold bit_at
  rw [List.getElem?_append_left (by rw [List.length_replicate]; exact hj),
    List.getElem?_replicate, if_pos hj]
  exact Nat.zero_testBit _

theorem bit_at_zeros_append_ge (n : Nat) (l : List Nat) (j : Nat) :
    bit_at (List.replicate n 0 ++ l) (64 * n + j) = bit_at l j := by
  have h1 : (64 * n + j) / 64 = n + j / 64 := by omega
  have h2 : (64 * n + j) % 64 = j % 64 := by omega
  unfold bit_at
  rw [h1, h2, List.getElem?_append_right (by rw [List.length_replicate]; omega),
    List.length_replicate, Nat.add_sub_cancel_left]

theorem replicate_succ_set_last (a b : Nat) :
    ∀ n, (List.replicate (n + 1) a).set n b = List.replicate n a ++ [b] := by
  intro n
  induction n with
  | zero => rfl
  | succ n ih => rw [List.replicate_succ, List.set_cons_succ, ih]; rfl

/-- `abitset_init` with `64 n + 1` bits followed by `abitset_set` of the last
id, `64 n`. -/
theorem init_set_last_bit (n : Nat) :
    abitset_set (abitset_init (64 * n + 1)) (64 * n) = .ok
      { items := List.replicate n 0 ++ [1]
        last_mask := 1
        size := 64 * n + 1 } := by
  have e1 : (64 * n + 1) >>> 6 = n := by rw [(id_split _).1]; omega
  have e2 : (64 * n + 1) &&& 63 = 1 := by rw [(id_split _).2]; omega
  have e3 : (64 * n) >>> 6 = n := by rw [(id_split _).1]; omega
  have e4 : (64 * n) &&& 63 = 0 := by rw [(id_split _).2]; omega
  have hinit : abitset_init (64 * n + 1)
      = { items := List.replicate (n + 1) 0, last_mask := 1, size := 64 * n + 1 } := by
    unfold abitset_init
    simp only [e1, e2]
    rfl
  have hget : (List.replicate (n + 1) 0)[n]? = some 0 := by
    rw [List.getElem?_replicate, if_pos (by omega)]
  rw [hinit]
  unfold abitset_set
  simp only [e3, e4, hget]
  rw [if_neg (by omega), replicate_succ_set_last]
  rfl

/-- C13 (counterexample): in the bitset of 2147483649 bits whose only set bit
is the last one, id 2147483648, that id is the smallest id whose bit is set,
and `abitset_first_enabled` returns -2147483648. -/
theorem first_enabled_past_int32 :
    abitset_first_enabled last_bit_2_31 = .ok (-2147483648) ∧
    abitset_enabled last_bit_2_31 2147483648 = true ∧
    (∀ j, j < 2147483648 → abitset_enabled last_bit_2_31 j = false) ∧
    2147483648 < abitset_size last_bit_2_31 ∧
    last_bit_2_31.items.length = word_count last_bit_2_31.size ∧
    abitset_set (abitset_init 2147483649) 2147483648 = .ok last_bit_2_31 := by
  refine ⟨?_, ?_, ?_, by decide, ?_, init_set_last_bit 33554432⟩
  · unfold abitset_first_enabled last_bit_2_31
    dsimp only
    rw [first_enabled_loop_zeros]
    decide
  · rw [abitset_enabled_eq_bit_at]
    show bit_at (List.replicate 33554432 0 ++ [1]) (64 * 33554432 + 0) = true
    rw [bit_at_zeros_append_ge]
    decide
  · intro j hj
    rw [abitset_enabled_eq_bit_at]
    exact bit_at_zeros_append_lt 33554432 [1] j (by omega)
  · unfold last_bit_2_31
    dsimp only
    rw [List.length_append, List.length_replicate]
    decide

/-- C13 (amended): on a dense bitset of 64-bit words `abitset_first_enabled`
returns -1 when no bit is set; when `id` is the smallest id whose bit is set,
every word before word `id div 64` is 0, that word is not 0 and has
`id mod 64` trailing zeros, and the function returns `id` converted to
`int32_t`: `id` itself when `id < 2^31`. -/
theorem dense_first_enabled (x : abitset_s) (id : Nat) (hw : ∀ w ∈ x.items, w < 2 ^ 64) :
    ((∀ j, abitset_enabled x j = false) → abitset_first_enabled x = .ok (-1)) ∧
    (abitset_enabled x id = true → (∀ j, j < id → abitset_enabled x j = false) →
      abitset_first_enabled x = .ok (to_int32 id) ∧
      (id < 2147483648 → abitset_first_enabled x = .ok (id : Int)) ∧
      (∀ k, k < id / 64 → x.items[k]? = some 0) ∧
      ∃ w, x.items[id / 64]? = some w ∧ w ≠ 0 ∧ portable_ctzll w = some (id % 64)) := by
  have hfun : abitset_enabled x = bit_at x.items := funext (abitset_enabled_eq_bit_at x)
  have hspec := first_enabled_loop_spec x.items 0 hw
  rw [hfun]
  refine ⟨fun hall => hspec.1 hall, fun hid hmin => ?_⟩
  have hres : abitset_first_enabled x = .ok (to_int32 id) := by
    have := hspec.2 id hid hmin
    rw [Nat.zero_mul, Nat.zero_add] at this
    exact this
  have hb : id % 64 < 64 := Nat.mod_lt _ (by decide)
  -- the word that holds the bit
  obtain ⟨w, hget, hbit⟩ : ∃ w, x.items[id / 64]? = some w ∧ w.testBit (id % 64) = true := by
    unfold bit_at at hid
    cases hg : x.items[id / 64]? with
    | none => rw [hg] at hid; exact Bool.noConfusion hid
    | some w => rw [hg] at hid; exact ⟨w, rfl, hid⟩
  have hwlt : w < 2 ^ 64 := hw w (List.getElem?_mem hget)
  have hwne : w ≠ 0 := by
    intro h0
    rw [h0, Nat.zero_testBit] at hbit
    exact Bool.noConfusion hbit
  refine ⟨hres, fun hsmall => by rw [hres, to_int32_small id hsmall], ?_, w, hget, hwne, ?_⟩
  · intro k hk
    have hklt : k < x.items.length := by
      have := (List.getElem?_eq_some.mp hget).1
      omega
    have hzero : x.items[k] = 0 := by
      apply Nat.eq_of_testBit_eq
      intro b
      rw [Nat.zero_testBit]
      by_cases hb64 : b < 64
      · have h1 : (64 * k + b) / 64 = k := by omega
        have h2 : (64 * k + b) % 64 = b := by omega
        have := hmin (64 * k + b) (by omega)
        unfold bit_at at this
        rw [h1, h2, List.getElem?_eq_getElem hklt] at this
        exact this
      · have h64 : 2 ^ 64 ≤ 2 ^ b := Nat.pow_le_pow_right (by decide) (by omega)
        exact Nat.testBit_lt_two_pow (lt_of_lt_of_le (hw _ (List.getElem_mem hklt)) h64)
    rw [List.getElem?_eq_getElem hklt, hzero]
  · obtain ⟨t, ht, hctz, htbit, hlow⟩ := portable_ctzll_spec w hwne hwlt
    have hle : t ≤ id % 64 := by
      by_contra hgt
      have := hlow (id % 64) (by omega)
      rw [this] at hbit
      exact Bool.noConfusion hbit
    have hge : id % 64 ≤ t := by
      by_contra hlt
      have h1 : (64 * (id / 64) + t) / 64 = id / 64 := by omega
      have h2 : (64 * (id / 64) + t) % 64 = t := by omega
      have := hmin (64 * (id / 64) + t) (by omega)
      unfold bit_at at this
      rw [h1, h2, hget] at this
      dsimp only at this
      rw [this] at htbit
      exact Bool.noConfusion htbit
    have heq : t = id % 64 := by omega
    rw [hctz, heq]

/-- Witness for C13 (amended): a three-word bitset in which only id 131 is
set. -/
theorem dense_first_enabled_witness :
    abitset_first_enabled bit_131 = .ok 131 ∧
    (∀ k, k < 131 / 64 → bit_131.items[k]? = some 0) ∧
    ∃ w, bit_131.items[131 / 64]? = some w ∧ w ≠ 0 ∧ portable_ctzll w = some (131 % 64) :=
  have h := (dense_first_enabled bit_131 131 (by decide)).2 (by decide) (by decide)
  ⟨h.2.1 (by decide), h.2.2⟩

/-! ### Growable bitset: extent -/

/-- A returning `abitset_expandable_set` has its page index inside the
directory and raises `max_bit` to the id if the id is greater. -/
theorem set_ok_max_bit (h h1 : abitset_expandable_s) (id : Nat) (hok : dir_ok h)
    (hset : abitset_expandable_set h id = .ok h1) :
    h1.max_bit = max h.max_bit id ∧ id >>> 18 < h.page_count := by
  by_cases hlt : id >>> 18 < h.page_count
  · have heq := Except.ok.inj ((set_no_resize h id hok hlt).symm.trans hset)
    refine ⟨?_, hlt⟩
    rw [← heq]
    show (if id > h.max_bit then id else h.max_bit) = max h.max_bit id
    split <;> omega
  · obtain ⟨e, he⟩ := set_resize_error h id hok.1 (by omega)
    exact Except.noConfusion (he.symm.trans hset)

/-- A returning `abitset_expandable_unset` has its page index inside the
directory and raises `max_bit` to the id if the id is greater. -/
theorem unset_ok_max_bit (h h1 : abitset_expandable_s) (id : Nat) (hok : dir_ok h)
    (hunset : abitset_expandable_unset h id = .ok h1) :
    h1.max_bit = max h.max_bit id ∧ id >>> 18 < h.page_count := by
  by_cases hlt : id >>> 18 < h.page_count
  · have heq := Except.ok.inj ((unset_no_resize h id hok hlt).symm.trans hunset)
    refine ⟨?_, hlt⟩
    rw [← heq]
    show (if id > h.max_bit then id else h.max_bit) = max h.max_bit id
    split <;> omega
  · obtain ⟨e, he⟩ := unset_resize_error h id hok.1 (by omega)
    exact Except.noConfusion (he.symm.trans hunset)

theorem page_index_bound (id : Nat) (hlt : id >>> 18 < INITIAL_PAGES) : id < 536870912 := by
  have hi : INITIAL_PAGES = 2048 := by decide
  rw [Nat.shiftRight_eq_div_pow, hi] at hlt
  have h18 : (2 : Nat) ^ 18 = 262144 := by decide
  rw [h18] at hlt
  omega

/-- In every state a run reaches from a state with the invariant and
`max_bit < 2^29`, `max_bit` is below `2^29`. -/
theorem max_bit_run (ops : List Op) :
    ∀ (h0 h : abitset_expandable_s), count_inv h0 → h0.max_bit < 536870912 →
      run h0 ops = .ok h → h.max_bit < 536870912 := by
  induction ops with
  | nil =>
    intro h0 h _ hmax hr
    have : h0 = h := Except.ok.inj hr
    exact this ▸ hmax
  | cons op ops ih =>
    intro h0 h hinv hmax hr
    unfold run at hr
    cases hop : apply_op h0 op with
    | error e => rw [hop] at hr; exact Except.noConfusion hr
    | ok h1 =>
      rw [hop] at hr
      have hinv1 := count_inv_apply h0 h1 op hinv hop
      have hmax1 : h1.max_bit < 536870912 := by
        cases op with
        | set id =>
          obtain ⟨hm, hp⟩ := set_ok_max_bit h0 h1 id hinv.1 hop
          have := page_index_bound id (by rw [← hinv.2.1]; exact hp)
          rw [hm]; omega
        | unset id =>
          obtain ⟨hm, hp⟩ := unset_ok_max_bit h0 h1 id hinv.1 hop
          have := page_index_bound id (by rw [← hinv.2.1]; exact hp)
          rw [hm]; omega
      exact ih h1 h hinv1 hmax1 hr

/-- C18: `max_bit` is 0 on a fresh bitset; in every state `h` reached from it
by set and unset calls, `abitset_expandable_size` is `max_bit + 1`, a set or
unset of `id` that returns leaves `max_bit` at the maximum of its previous
value and `id`, so never lower, and set and unset return for every id whose
page index is inside the directory. -/
theorem growable_extent (ops : List Op) (h : abitset_expandable_s)
    (hr : run abitset_expandable_init ops = .ok h) :
    abitset_expandable_init.max_bit = 0 ∧
    abitset_expandable_size h = h.max_bit + 1 ∧
    (∀ id h1, abitset_expandable_set h id = .ok h1 →
      h1.max_bit = max h.max_bit id ∧ h.max_bit ≤ h1.max_bit ∧
      abitset_expandable_size h1 = max h.max_bit id + 1) ∧
    (∀ id h1, abitset_expandable_unset h id = .ok h1 →
      h1.max_bit = max h.max_bit id ∧ h.max_bit ≤ h1.max_bit ∧
      abitset_expandable_size h1 = max h.max_bit id + 1) ∧
    (∀ id, id >>> 18 < INITIAL_PAGES →
      (∃ h1, abitset_expandable_set h id = .ok h1) ∧
      (∃ h1, abitset_expandable_unset h id = .ok h1)) := by
  have hinv : count_inv h := count_inv_run ops _ h count_inv_init hr
  have hmax : h.max_bit < 536870912 :=
    max_bit_run ops _ h count_inv_init (by show (0 : Nat) < 536870912; omega) hr
  have hsize : ∀ m, m < 536870912 → (m + 1) % U32 = m + 1 := by
    intro m hm
    unfold U32
    omega
  refine ⟨rfl, hsize _ hmax, ?_, ?_, ?_⟩
  · intro id h1 hset
    obtain ⟨hm, hp⟩ := set_ok_max_bit h h1 id hinv.1 hset
    have hid := page_index_bound id (by rw [← hinv.2.1]; exact hp)
    refine ⟨hm, by rw [hm]; omega, ?_⟩
    show (h1.max_bit + 1) % U32 = _
    rw [hm, hsize _ (by omega)]
  · intro id h1 hunset
    obtain ⟨hm, hp⟩ := unset_ok_max_bit h h1 id hinv.1 hunset
    have hid := page_index_bound id (by rw [← hinv.2.1]; exact hp)
    refine ⟨hm, by rw [hm]; omega, ?_⟩
    show (h1.max_bit + 1) % U32 = _
    rw [hm, hsize _ (by omega)]
  · intro id hlt
    obtain ⟨h2, hset2, _, _⟩ := count_inv_set h id hinv hlt
    obtain ⟨h3, hset3, _, _⟩ := count_inv_unset h id hinv hlt
    exact ⟨⟨h2, hset2⟩, ⟨h3, hset3⟩⟩

/-- Witness for C18: the calls of the test program, set 0, 100, 4095, 8192 and
unset 100, reach a state with `max_bit` 8192 and size 8193. -/
theorem growable_extent_witness :
    run abitset_expandable_init test_ops = .ok test_state ∧
    test_state.max_bit = 8192 ∧
    abitset_expandable_size test_state = test_state.max_bit + 1 :=
  ⟨by decide!, by decide!, (growable_extent test_ops test_state (by decide!)).2.1⟩

/-! ### Growable bitset: extent after load -/

/-- A load that returns leaves `max_bit` at `size - 1` (modulo `2^32`), so
`abitset_expandable_size` gives `size` back, whatever the loaded words are. -/
theorem load_ok_size (repr : List Nat) (size : Nat) (h : abitset_expandable_s)
    (hsz : size < U32) (hl : abitset_expandable_load repr size = .ok h) :
    h.max_bit = (size + U32 - 1) % U32 ∧ abitset_expandable_size h = size := by
  have hmax : h.max_bit = (size + U32 - 1) % U32 := by
    unfold abitset_expandable_load at hl
    cases he : abitset_expandable_expand abitset_expandable_init ((size + U32 - 1) % U32) with
    | error e => rw [he] at hl; exact Except.noConfusion hl
    | ok h1 =>
      rw [he] at hl
      cases hll : load_loop repr (((size + 63) % U32) >>> 6) 0 h1 with
      | error e =>
        have hl2 : (Except.error e : Except Fault abitset_expandable_s) = .ok h := by
          rw [← hl]; simp only [bind, Except.bind, hll]
        exact Except.noConfusion hl2
      | ok h2 =>
        have hl2 : (Except.ok { h2 with max_bit := (size + U32 - 1) % U32 }
            : Except Fault abitset_expandable_s) = .ok h := by
          rw [← hl]; simp only [bind, Except.bind, hll]; rfl
        rw [← Except.ok.inj hl2]
  refine ⟨hmax, ?_⟩
  unfold abitset_expandable_size
  rw [hmax]
  unfold U32 at hsz ⊢
  omega

/-- C19: `abitset_expandable_load` with `size = 536870913` (`2^29 + 1`) reads
the directory out of bounds, whatever the word array is, so no bitset results
whose `abitset_expandable_size` could be `size`. -/
theorem load_size_past_directory_faults (repr : List Nat) :
    abitset_expandable_load repr 536870913 = .error .out_of_bounds :=
  load_of_expand_error repr 536870913 .out_of_bounds (by decide!)

/-! ### Dense bitset: the bits past `size` -/

theorem bit_at_replicate_zero (n id : Nat) : bit_at (List.replicate n 0) id = false := by
  unfold bit_at
  rw [List.getElem?_replicate]
  split
  · rename_i hnone; rfl
  · rename_i w hw
    by_cases hk : id / 64 < n
    · rw [if_pos hk] at hw
      rw [← Option.some.inj hw, Nat.zero_testBit]
    · rw [if_neg hk] at hw
      exact Option.noConfusion hw

theorem tail_clear_init (size : Nat) : tail_clear (abitset_init size) := by
  refine ⟨?_, rfl, ?_, ?_⟩
  · show (List.replicate _ 0).length = word_count size
    rw [List.length_replicate]
    rfl
  · intro w hw
    have hw0 : w = 0 := List.eq_of_mem_replicate hw
    rw [hw0]
    decide
  · intro id _
    exact bit_at_replicate_zero _ id

/-- What a returning `abitset_set` did. -/
theorem set_ok_cases (h h1 : abitset_s) (id : Nat) (hs : abitset_set h id = .ok h1) :
    id < h.size ∧ (h1 = h ∨ ∃ w, h.items[id / 64]? = some w ∧
      h1 = { h with items := h.items.set (id / 64) (w ||| (1 <<< (id % 64))) }) := by
  unfold abitset_set at hs
  by_cases hid : id < h.size
  · rw [if_neg (by simpa using hid)] at hs
    simp only [(id_split id).1, (id_split id).2] at hs
    refine ⟨hid, ?_⟩
    cases hg : h.items[id / 64]? with
    | none =>
      rw [hg] at hs
      exact Or.inl (Except.ok.inj hs).symm
    | some w =>
      rw [hg] at hs
      exact Or.inr ⟨w, rfl, (Except.ok.inj hs).symm⟩
  · rw [if_pos (by simpa using hid)] at hs
    exact Except.noConfusion hs

/-- What a returning `abitset_unset` did. -/
theorem unset_ok_cases (h h1 : abitset_s) (id : Nat) (hs : abitset_unset h id = .ok h1) :
    id < h.size ∧ (h1 = h ∨ ∃ w, h.items[id / 64]? = some w ∧
      h1 = { h with items := h.items.set (id / 64) (w &&& not64 (1 <<< (id % 64))) }) := by
  unfold abitset_unset at hs
  by_cases hid : id < h.size
  · rw [if_neg (by simpa using hid)] at hs
    simp only [(id_split id).1, (id_split id).2] at hs
    refine ⟨hid, ?_⟩
    cases hg : h.items[id / 64]? with
    | none =>
      rw [hg] at hs
      exact Or.inl (Except.ok.inj hs).symm
    | some w =>
      rw [hg] at hs
      exact Or.inr ⟨w, rfl, (Except.ok.inj hs).symm⟩
  · rw [if_pos (by simpa using hid)] at hs
    exact Except.noConfusion hs

/-- Reading a bit after one word of the array was replaced. -/
theorem bit_at_set (l : List Nat) (k w v id : Nat) (hk : l[k]? = some w) :
    bit_at (l.set k v) id = if id / 64 = k then v.testBit (id % 64) else bit_at l id := by
  have hlt : k < l.length := (List.getElem?_eq_some.mp hk).1
  unfold bit_at
  by_cases he : id / 64 = k
  · rw [if_pos he, he, List.getElem?_set_self hlt]
  · rw [if_neg he, List.getElem?_set_ne (Ne.symm he)]

theorem mem_set_lt (l : List Nat) (k v : Nat) (hl : ∀ w ∈ l, w < 2 ^ 64) (hv : v < 2 ^ 64) :
    ∀ w ∈ l.set k v, w < 2 ^ 64 := by
  intro w hw
  rcases List.mem_or_eq_of_mem_set hw with hmem | heq
  · exact hl w hmem
  · rw [heq]; exact hv

theorem tail_clear_set (h h1 : abitset_s) (id : Nat) (hc : tail_clear h)
    (hs : abitset_set h id = .ok h1) : tail_clear h1 := by
  obtain ⟨hid, hcase⟩ := set_ok_cases h h1 id hs
  rcases hcase with heq | ⟨w, hw, heq⟩
  · rw [heq]; exact hc
  · obtain ⟨hwf, hmask, hwords, htail⟩ := hc
    have hb : id % 64 < 64 := Nat.mod_lt _ (by decide)
    have hwlt : w < 2 ^ 64 := hwords w (List.getElem?_mem hw)
    have hbit : 1 <<< (id % 64) < 2 ^ 64 := by
      rw [Nat.one_shiftLeft]
      exact Nat.pow_lt_pow_right (by decide) hb
    rw [heq]
    refine ⟨?_, hmask, ?_, ?_⟩
    · show (h.items.set _ _).length = word_count h.size
      rw [List.length_set]; exact hwf
    · exact mem_set_lt _ _ _ hwords (Nat.or_lt_two_pow hwlt hbit)
    · intro j hj0
      have hj : h.size ≤ j := hj0
      show bit_at (h.items.set _ _) j = false
      rw [bit_at_set _ _ w _ _ hw]
      by_cases he : j / 64 = id / 64
      · rw [if_pos he, testBit_set_bit]
        have hold := htail j hj
        unfold bit_at at hold
        rw [he, hw] at hold
        dsimp only at hold
        rw [hold]
        have hne : ¬ (id % 64 = j % 64) := by omega
        simp [hne]
      · rw [if_neg he]; exact htail j hj

theorem tail_clear_unset (h h1 : abitset_s) (id : Nat) (hc : tail_clear h)
    (hs : abitset_unset h id = .ok h1) : tail_clear h1 := by
  obtain ⟨hid, hcase⟩ := unset_ok_cases h h1 id hs
  rcases hcase with heq | ⟨w, hw, heq⟩
  · rw [heq]; exact hc
  · obtain ⟨hwf, hmask, hwords, htail⟩ := hc
    have hb : id % 64 < 64 := Nat.mod_lt _ (by decide)
    have hwlt : w < 2 ^ 64 := hwords w (List.getElem?_mem hw)
    rw [heq]
    refine ⟨?_, hmask, ?_, ?_⟩
    · show (h.items.set _ _).length = word_count h.size
      rw [List.length_set]; exact hwf
    · exact mem_set_lt _ _ _ hwords (lt_of_le_of_lt Nat.and_le_left hwlt)
    · intro j hj0
      have hj : h.size ≤ j := hj0
      show bit_at (h.items.set _ _) j = false
      rw [bit_at_set _ _ w _ _ hw]
      by_cases he : j / 64 = id / 64
      · rw [if_pos he, testBit_clear_bit _ _ _ hb (Nat.mod_lt _ (by decide))]
        have hold := htail j hj
        unfold bit_at at hold
        rw [he, hw] at hold
        dsimp only at hold
        rw [hold]
        rfl
      · rw [if_neg he]; exact htail j hj

theorem bit_at_all_zero (l : List Nat) (hz : ∀ w ∈ l, w = 0) (id : Nat) :
    bit_at l id = false := by
  unfold bit_at
  cases hg : l[id / 64]? with
  | none => rfl
  | some w =>
    dsimp only
    rw [hz w (List.getElem?_mem hg), Nat.zero_testBit]

/-- After the last word is masked with the `last_mask` of `size`, no bit at a
position `>= size` is 1, whatever the words were. -/
theorem bit_at_mask_last_word_tail (l : List Nat) (size id : Nat)
    (hlen : l.length = word_count size) (hid : size ≤ id) :
    bit_at (mask_last_word l (tail_mask size)) id = false := by
  have hb : id % 64 < 64 := Nat.mod_lt _ (by decide)
  unfold bit_at
  rw [getElem?_mask_last_word]
  by_cases hk : id / 64 < l.length
  · rw [List.getElem?_eq_getElem hk]
    rw [hlen] at hk
    rcases word_count_cases size with ⟨hr, hsz⟩ | ⟨hr, hsz, hpos⟩
    · omega
    · have hlast : id / 64 + 1 = l.length := by omega
      rw [if_pos hlast]
      dsimp only [Option.map_some']
      rw [Nat.testBit_and, tail_mask_testBit _ _ hb]
      have hno : ¬ (size % 64 = 0 ∨ id % 64 < size % 64) := by omega
      simp [hno]
  · have hnone : l[id / 64]? = none := List.getElem?_eq_none (by omega)
    have hlast : ¬ id / 64 + 1 = l.length := by omega
    rw [hnone, if_neg hlast]

theorem tail_clear_true (h : abitset_s) (hc : tail_clear h) : tail_clear (abitset_true h) := by
  obtain ⟨hwf, hmask, _, _⟩ := hc
  refine ⟨?_, hmask, ?_, ?_⟩
  · show (mask_last_word _ _).length = word_count h.size
    rw [length_mask_last_word, List.length_replicate, hwf]
  · apply mask_last_word_lt
    intro w hw
    rw [List.eq_of_mem_replicate hw]
    decide
  · intro id hid0
    have hid : h.size ≤ id := hid0
    show bit_at (mask_last_word _ h.last_mask) id = false
    rw [hmask]
    exact bit_at_mask_last_word_tail _ _ _ (by rw [List.length_replicate, hwf]) hid

theorem tail_clear_false (h : abitset_s) (hc : tail_clear h) : tail_clear (abitset_false h) := by
  obtain ⟨hwf, hmask, _, _⟩ := hc
  refine ⟨?_, hmask, ?_, ?_⟩
  · show (List.replicate _ 0).length = word_count h.size
    rw [List.length_replicate, hwf]
  · intro w hw
    have hw0 : w = 0 := List.eq_of_mem_replicate hw
    rw [hw0]
    decide
  · intro id _
    exact bit_at_replicate_zero _ id

theorem tail_clear_not (h : abitset_s) (hc : tail_clear h) : tail_clear (abitset_not h) := by
  obtain ⟨hwf, hmask, _, _⟩ := hc
  refine ⟨?_, hmask, ?_, ?_⟩
  · show (mask_last_word _ _).length = word_count h.size
    rw [length_mask_last_word, List.length_map, hwf]
  · apply mask_last_word_lt
    intro w hw
    obtain ⟨v, _, hv⟩ := List.mem_map.mp hw
    rw [← hv]
    exact not64_lt v
  · intro id hid0
    have hid : h.size ≤ id := hid0
    show bit_at (mask_last_word _ h.last_mask) id = false
    rw [hmask]
    exact bit_at_mask_last_word_tail _ _ _ (by rw [List.length_map, hwf]) hid

theorem tail_clear_count_and_zero (h : abitset_s) (hc : tail_clear h) :
    tail_clear (abitset_count_and_zero h).2 := by
  obtain ⟨hwf, hmask, _, _⟩ := hc
  have hz : ∀ w ∈ h.items.map (fun n => if n ≠ 0 then 0 else n), w = 0 := by
    intro w hw
    obtain ⟨v, _, hv⟩ := List.mem_map.mp hw
    rw [← hv]
    by_cases h0 : v = 0
    · simp [h0]
    · simp [h0]
  refine ⟨?_, hmask, ?_, ?_⟩
  · show (h.items.map _).length = word_count h.size
    rw [List.length_map, hwf]
  · intro w hw
    rw [hz w hw]
    decide
  · intro id _
    exact bit_at_all_zero _ hz id

theorem zipWith_lt (op : Nat → Nat → Nat)
    (hlt : ∀ w v, w < 2 ^ 64 → v < 2 ^ 64 → op w v < 2 ^ 64) :
    ∀ (l1 l2 : List Nat), (∀ w ∈ l1, w < 2 ^ 64) → (∀ v ∈ l2, v < 2 ^ 64) →
      ∀ x ∈ List.zipWith op l1 l2, x < 2 ^ 64 := by
  intro l1
  induction l1 with
  | nil => intro l2 _ _ x hx; simp at hx
  | cons w ws ih =>
    intro l2 h1 h2 x hx
    cases l2 with
    | nil => simp at hx
    | cons v vs =>
      rw [List.zipWith_cons_cons, List.mem_cons] at hx
      rcases hx with heq | hmem
      · rw [heq]
        exact hlt w v (h1 w (List.mem_cons_self _ _)) (h2 v (List.mem_cons_self _ _))
      · exact ih vs (fun a ha => h1 a (List.mem_cons_of_mem _ ha))
          (fun a ha => h2 a (List.mem_cons_of_mem _ ha)) x hmem

/-- The word-by-word combination of two bitsets of one size keeps the
condition of the last word when the operation gives 0 on two 0 bits and a
64-bit word on 64-bit words. -/
theorem tail_clear_zipWith (op : Nat → Nat → Nat) (f : Bool → Bool → Bool) (dest src : abitset_s)
    (hd : tail_clear dest) (hs : tail_clear src) (hsize : dest.size = src.size)
    (hf : f false false = false)
    (hop : ∀ w v b, v < 2 ^ 64 → b < 64 → (op w v).testBit b = f (w.testBit b) (v.testBit b))
    (hlt : ∀ w v, w < 2 ^ 64 → v < 2 ^ 64 → op w v < 2 ^ 64) :
    tail_clear { dest with items := List.zipWith op dest.items src.items } := by
  obtain ⟨hwf, hmask, hwords, htail⟩ := hd
  obtain ⟨hwf2, _, hwords2, htail2⟩ := hs
  have hlen : dest.items.length = src.items.length := by rw [hwf, hwf2, hsize]
  refine ⟨?_, hmask, ?_, ?_⟩
  · show (List.zipWith op dest.items src.items).length = word_count dest.size
    rw [List.length_zipWith, ← hlen, Nat.min_self, hwf]
  · exact zipWith_lt op hlt _ _ hwords hwords2
  · intro id hid0
    have hid : dest.size ≤ id := hid0
    show bit_at (List.zipWith op dest.items src.items) id = false
    rw [bit_at_zipWith op f _ _ id hlen hf
      (fun w v hv => hop w v _ (hwords2 v hv) (Nat.mod_lt _ (by decide))),
      htail id hid, htail2 id (by omega), hf]

theorem tail_clear_and (dest src dest1 src1 : abitset_s) (hd : tail_clear dest)
    (hs : tail_clear src) (hsize : dest.size = src.size)
    (hr : abitset_and dest src = .ok (dest1, src1)) : tail_clear dest1 := by
  have hlen : dest.items.length = src.items.length := by rw [hd.1, hs.1, hsize]
  unfold abitset_and at hr
  rw [combine_loop_eq _ _ _ hlen] at hr
  rw [← (Prod.mk.inj (Except.ok.inj hr)).1]
  exact tail_clear_zipWith _ (fun a b => a && b) dest src hd hs hsize rfl
    (fun w v b _ _ => Nat.testBit_and w v b)
    (fun w v hw _ => lt_of_le_of_lt Nat.and_le_left hw)

theorem tail_clear_or (dest src dest1 src1 : abitset_s) (hd : tail_clear dest)
    (hs : tail_clear src) (hsize : dest.size = src.size)
    (hr : abitset_or dest src = .ok (dest1, src1)) : tail_clear dest1 := by
  have hlen : dest.items.length = src.items.length := by rw [hd.1, hs.1, hsize]
  unfold abitset_or at hr
  rw [combine_loop_eq _ _ _ hlen] at hr
  rw [← (Prod.mk.inj (Except.ok.inj hr)).1]
  exact tail_clear_zipWith _ (fun a b => a || b) dest src hd hs hsize rfl
    (fun w v b _ _ => Nat.testBit_or w v b)
    (fun w v hw hv => Nat.or_lt_two_pow hw hv)

theorem tail_clear_and_not (dest src dest1 src1 : abitset_s) (hd : tail_clear dest)
    (hs : tail_clear src) (hsize : dest.size = src.size)
    (hr : abitset_and_not dest src = .ok (dest1, src1)) : tail_clear dest1 := by
  have hlen : dest.items.length = src.items.length := by rw [hd.1, hs.1, hsize]
  unfold abitset_and_not at hr
  rw [combine_loop_eq _ _ _ hlen] at hr
  rw [← (Prod.mk.inj (Except.ok.inj hr)).1]
  exact tail_clear_zipWith _ (fun a b => a && !b) dest src hd hs hsize rfl
    (fun w v b hv hb => testBit_and_not64 w v b hv hb)
    (fun w v hw _ => lt_of_le_of_lt Nat.and_le_left hw)

/-- Every bitset the library builds has the condition of the last word. -/
theorem tail_clear_built (h : abitset_s) (hb : dense_built h) : tail_clear h := by
  induction hb with
  | of_init size => exact tail_clear_init size
  | of_set h h1 id _ hs ih => exact tail_clear_set h h1 id ih hs
  | of_unset h h1 id _ hs ih => exact tail_clear_unset h h1 id ih hs
  | of_boolean h h1 id v _ hs ih =>
    cases v with
    | true => exact tail_clear_set h h1 id ih hs
    | false => exact tail_clear_unset h h1 id ih hs
  | of_true h _ ih => exact tail_clear_true h ih
  | of_false h _ ih => exact tail_clear_false h ih
  | of_not h _ ih => exact tail_clear_not h ih
  | of_count_and_zero h _ ih => exact tail_clear_count_and_zero h ih
  | of_and dest src dest1 src1 _ _ hsize hr ihd ihs =>
    exact tail_clear_and dest src dest1 src1 ihd ihs hsize hr
  | of_or dest src dest1 src1 _ _ hsize hr ihd ihs =>
    exact tail_clear_or dest src dest1 src1 ihd ihs hsize hr
  | of_and_not dest src dest1 src1 _ _ hsize hr ihd ihs =>
    exact tail_clear_and_not dest src dest1 src1 ihd ihs hsize hr

/-- C21: every dense bitset made by `abitset_init` and then changed by any
sequence of returning `abitset_set`, `abitset_unset`, `abitset_boolean` calls,
of `abitset_true`, `abitset_false`, `abitset_not`, `abitset_count_and_zero`,
and of `abitset_and`, `abitset_or`, `abitset_and_not` with a bitset of the
same size made the same way, has the word count of its size, has every bit at
a position `>= size` of its last word 0, and has `abitset_enabled` false for
every id `>= size`. On such a bitset set and unset return for every id below
`size`, and the three combining calls return for every such second bitset. -/
theorem dense_tail_invariant (h : abitset_s) (hb : dense_built h) :
    h.items.length = word_count h.size ∧
    (∀ w b, h.items[h.items.length - 1]? = some w →
      h.size ≤ 64 * (h.items.length - 1) + b → w.testBit b = false) ∧
    (∀ id, h.size ≤ id → abitset_enabled h id = false) ∧
    (∀ id, id < h.size →
      (∃ h1, abitset_set h id = .ok h1) ∧ (∃ h1, abitset_unset h id = .ok h1)) ∧
    (∀ src, dense_built src → src.size = h.size →
      (∃ d, abitset_and h src = .ok (d, src)) ∧ (∃ d, abitset_or h src = .ok (d, src)) ∧
      (∃ d, abitset_and_not h src = .ok (d, src))) := by
  obtain ⟨hwf, _, hwords, htail⟩ := tail_clear_built h hb
  refine ⟨hwf, ?_, ?_, ?_, ?_⟩
  · intro w b hw hge
    by_cases hb64 : b < 64
    · have hbit := htail (64 * (h.items.length - 1) + b) hge
      unfold bit_at at hbit
      rw [show (64 * (h.items.length - 1) + b) / 64 = h.items.length - 1 by omega,
        show (64 * (h.items.length - 1) + b) % 64 = b by omega, hw] at hbit
      exact hbit
    · have hwlt : w < 2 ^ 64 := hwords w (List.getElem?_mem hw)
      have h64 : 2 ^ 64 ≤ 2 ^ b := Nat.pow_le_pow_right (by decide) (by omega)
      exact Nat.testBit_lt_two_pow (lt_of_lt_of_le hwlt h64)
  · intro id hid
    rw [abitset_enabled_eq_bit_at]
    exact htail id hid
  · intro id hid
    constructor
    · unfold abitset_set
      rw [if_neg (by simpa using hid)]
      dsimp only
      cases h.items[id >>> 6]? with
      | none => exact ⟨_, rfl⟩
      | some w => exact ⟨_, rfl⟩
    · unfold abitset_unset
      rw [if_neg (by simpa using hid)]
      dsimp only
      cases h.items[id >>> 6]? with
      | none => exact ⟨_, rfl⟩
      | some w => exact ⟨_, rfl⟩
  · intro src hsrc hsize
    have hlen : h.items.length = src.items.length := by
      rw [hwf, (tail_clear_built src hsrc).1, hsize]
    refine ⟨⟨{ h with items := List.zipWith (fun a b => a &&& b) h.items src.items }, ?_⟩,
      ⟨{ h with items := List.zipWith (fun a b => a ||| b) h.items src.items }, ?_⟩,
      ⟨{ h with items := List.zipWith (fun a b => a &&& not64 b) h.items src.items }, ?_⟩⟩
    · unfold abitset_and
      rw [combine_loop_eq _ _ _ hlen]
    · unfold abitset_or
      rw [combine_loop_eq _ _ _ hlen]
    · unfold abitset_and_not
      rw [combine_loop_eq _ _ _ hlen]

/-- Witness for C21: the 100-bit bitset of the test program, made by
`abitset_init`, `abitset_set` of ids 0 and 99, and then `abitset_not`: its last
word is `2^35 - 1`, with bits 36 to 63 (ids 100 to 127) 0. -/
theorem dense_tail_invariant_witness :
    dense_built (abitset_not test_bitset) ∧
    (abitset_not test_bitset).items = [18446744073709551614, 34359738367] ∧
    (∀ id, (abitset_not test_bitset).size ≤ id →
      abitset_enabled (abitset_not test_bitset) id = false) :=
  have hb : dense_built (abitset_not test_bitset) :=
    .of_not _ (.of_set other_bitset test_bitset 99
      (.of_set (abitset_init 100) other_bitset 0 (.of_init 100) (by decide)) (by decide))
  ⟨hb, by decide!, (dense_tail_invariant (abitset_not test_bitset) hb).2.2.1⟩

/-! ### Growable bitset: the directory slots of load -/

/-- The import loop reads the directory out of bounds at the first non-zero
word whose slot `j >> 9` is not below the length of the directory array, if it
gets that far; every fault of the loop is an out-of-bounds access. -/
theorem load_loop_slot_fault (repr : List Nat) (j v : Nat) (hv : repr[j]? = some v)
    (hnz : v ≠ 0) :
    ∀ (n i : Nat) (h : abitset_expandable_s), i ≤ j → j < i + n →
      h.pages.length ≤ j >>> 9 → load_loop repr n i h = .error .out_of_bounds := by
  intro n
  induction n with
  | zero => intro i h h1 h2 _; omega
  | succ n ih =>
    intro i h hij hjn hlen
    rw [load_loop]
    cases hr : repr[i]? with
    | none => rfl
    | some value =>
      dsimp only
      by_cases hz : value ≠ 0
      · rw [if_pos hz]
        cases hp : h.pages[i >>> 9]? with
        | none => rfl
        | some slot =>
          have hne : i ≠ j := by
            intro he
            rw [he, List.getElem?_eq_none hlen] at hp
            exact Option.noConfusion hp
          dsimp only
          split
          · exact ih (i + 1) _ (by omega) (by omega) (by
              show (h.pages.set _ _).length ≤ j >>> 9
              rw [List.length_set]; exact hlen)
          · rfl
      · rw [if_neg hz]
        have hne : i ≠ j := by
          intro he
          rw [he, hv] at hr
          have hv0 : v = value := Option.some.inj hr
          rw [hv0] at hnz
          exact hz hnz
        exact ih (i + 1) h (by omega) (by omega) hlen

/-- When the import loop faults after the initial
`abitset_expandable_expand` returned, so does the load. -/
theorem load_of_loop_error (repr : List Nat) (size : Nat) (h1 : abitset_expandable_s) (e : Fault)
    (hx : abitset_expandable_expand abitset_expandable_init ((size + U32 - 1) % U32) = .ok h1)
    (hl : load_loop repr (((size + 63) % U32) >>> 6) 0 h1 = .error e) :
    abitset_expandable_load repr size = .error e := by
  unfold abitset_expandable_load
  rw [hx]
  simp only [bind, Except.bind, hl]

/-- The state after the initial `abitset_expandable_expand` of a load whose
last id `size - 1` has its page index inside the directory. -/
theorem load_expand_ok (size : Nat) (hlt : ((size + U32 - 1) % U32) >>> 18 < INITIAL_PAGES) :
    abitset_expandable_expand abitset_expandable_init ((size + U32 - 1) % U32) = .ok
      { pages := abitset_expandable_init.pages.set (((size + U32 - 1) % U32) >>> 18)
          (some (page_at abitset_expandable_init.pages (((size + U32 - 1) % U32) >>> 18)))
        old_pages := abitset_expandable_init.old_pages
        page_count := abitset_expandable_init.page_count
        max_bit := if (size + U32 - 1) % U32 > abitset_expandable_init.max_bit
          then (size + U32 - 1) % U32 else abitset_expandable_init.max_bit
        bit_count := abitset_expandable_init.bit_count } :=
  expand_no_resize abitset_expandable_init _ count_inv_init.1.1 hlt

theorem page_index_lt (id : Nat) (hid : id < 536870912) : id >>> 18 < INITIAL_PAGES := by
  have hi : INITIAL_PAGES = 2048 := by decide
  have h18 : (2 : Nat) ^ 18 = 262144 := by decide
  rw [Nat.shiftRight_eq_div_pow, hi, h18]
  omega

/-- C22: for a size in `1 .. 2^29` the initial `abitset_expandable_expand` of
`abitset_expandable_load` returns with the directory array at its
`INITIAL_PAGES` slots, and when a word `i` below `ceil(size / 64)` is non-zero
and its slot `i >> 9` is not below `INITIAL_PAGES`, the load reads the
directory out of bounds. -/
theorem load_word_past_directory (repr : List Nat) (size i v : Nat)
    (hpos : 0 < size) (hsz : size ≤ 536870912)
    (hi : i < ((size + 63) % U32) >>> 6) (hv : repr[i]? = some v) (hnz : v ≠ 0)
    (hslot : INITIAL_PAGES ≤ i >>> 9) :
    (∃ h1, abitset_expandable_expand abitset_expandable_init ((size + U32 - 1) % U32) = .ok h1 ∧
      h1.pages.length = INITIAL_PAGES) ∧
    abitset_expandable_load repr size = .error .out_of_bounds := by
  have hid : (size + U32 - 1) % U32 < 536870912 := by
    unfold U32
    omega
  have hx := load_expand_ok size (page_index_lt _ hid)
  have hlen : (abitset_expandable_init.pages.set (((size + U32 - 1) % U32) >>> 18)
      (some (page_at abitset_expandable_init.pages (((size + U32 - 1) % U32) >>> 18)))).length
      = INITIAL_PAGES := by
    rw [List.length_set]
    exact count_inv_init.1.1.trans count_inv_init.2.1
  refine ⟨⟨_, hx, hlen⟩, ?_⟩
  apply load_of_loop_error repr size _ .out_of_bounds hx
  have hn : ((size + 63) % U32) >>> 6 = 0 + (((size + 63) % U32) >>> 6) := by omega
  exact load_loop_slot_fault repr i v hv hnz _ 0 _ (Nat.zero_le i) (by omega)
    (by show (List.set _ _ _).length ≤ i >>> 9; rw [hlen]; exact hslot)

/-- Witness for C22: 1048577 words of which only the last, word 1048576, is
non-zero, loaded with `size = 67108865` (`2^26 + 1`): the slot of that word is
`1048576 >> 9 = 2048`, the length of the directory array. -/
theorem load_word_past_directory_witness :
    (List.replicate 1048576 0 ++ [1])[1048576]? = some 1 ∧
    1048576 >>> 9 = INITIAL_PAGES ∧
    abitset_expandable_load (List.replicate 1048576 0 ++ [1]) 67108865 = .error .out_of_bounds :=
  have hv : (List.replicate 1048576 0 ++ [1])[1048576]? = some 1 := by
    rw [List.getElem?_append_right (by rw [List.length_replicate]), List.length_replicate]
    rfl
  ⟨hv, by decide,
    (load_word_past_directory (List.replicate 1048576 0 ++ [1]) 67108865 1048576 1
      (by decide) (by decide) (by decide) hv (by decide) (by decide)).2⟩

/-! ### Growable bitset: the ranges of the export -/

/-- One round of the export loop, with the range it copies named. -/
theorem repr_loop_step (h : abitset_expandable_s) (size n i : Nat) (repr : List Nat) :
    repr_loop h size (n + 1) i repr =
      match h.pages[i]? with
      | none => .error .out_of_bounds
      | some none => repr_loop h size n (i + 1) repr
      | some (some page) =>
        match copy_words repr (repr_start_idx i) page (repr_copy_words size i) with
        | .error e => .error e
        | .ok repr1 => repr_loop h size n (i + 1) repr1 := by
  rw [repr_loop]
  rfl

theorem repr_start_idx_eq (i : Nat) (hi : i < 2048) : repr_start_idx i = i * 512 := by
  unfold repr_start_idx
  rw [Nat.shiftLeft_eq, show (2 : Nat) ^ 9 = 512 by decide]
  unfold U32
  omega

/-- The range of slot `i` in plain arithmetic, when the slot is one of the
2048 and its first bit `i * 32768` is below `size <= 2^29`. -/
theorem repr_copy_words_eq (size i : Nat) (hi : i < 2048) (hlo : i * 32768 < size)
    (hsz : size ≤ 536870912) :
    repr_copy_words size i = min 512 ((size - i * 32768 + 63) / 64) := by
  have hs : (i <<< 9) % U32 = i * 512 := repr_start_idx_eq i hi
  have hs6 : ((i * 512) <<< 6) % U32 = i * 32768 := by
    rw [Nat.shiftLeft_eq, show (2 : Nat) ^ 6 = 64 by decide]
    unfold U32
    omega
  have hbr : (size + U32 - i * 32768) % U32 = size - i * 32768 := by
    unfold U32
    omega
  have hpe : PAGE_ENTRIES <<< 6 = 32768 := by decide
  have hps : PAGE_SIZE >>> 3 = 512 := by decide
  unfold repr_copy_words
  dsimp only
  rw [hs, hs6, hbr, hpe]
  by_cases hfull : size - i * 32768 ≥ 32768
  · rw [if_pos hfull, hps]
    omega
  · rw [if_neg hfull]
    have h1 : (size - i * 32768 + 63) % U32 = size - i * 32768 + 63 := by
      unfold U32
      omega
    rw [h1, Nat.shiftRight_eq_div_pow, Nat.shiftLeft_eq, Nat.shiftRight_eq_div_pow,
      show (2 : Nat) ^ 6 = 64 by decide, show (2 : Nat) ^ 3 = 8 by decide]
    unfold U32
    omega

theorem copy_words_ok (dst src : List Nat) (start words : Nat)
    (hd : start + words ≤ dst.length) (hs : words ≤ src.length) :
    ∃ r, copy_words dst start src words = .ok r ∧ r.length = dst.length := by
  unfold copy_words
  by_cases h0 : words = 0
  · rw [if_pos h0]
    exact ⟨dst, rfl, rfl⟩
  · rw [if_neg h0, if_neg (by omega), if_neg (by omega)]
    refine ⟨_, rfl, ?_⟩
    rw [List.length_append, List.length_append, List.length_take, List.length_take,
      List.length_drop]
    omega

/-- The export loop returns, with a buffer of the length it started with,
when the slots it visits are inside the directory array and the range of
every installed page lies inside the buffer and the page. -/
theorem repr_loop_total (h : abitset_expandable_s) (size entries : Nat)
    (hrange : ∀ j page, h.pages[j]? = some (some page) →
      repr_start_idx j + repr_copy_words size j ≤ entries ∧
      repr_copy_words size j ≤ page.length) :
    ∀ (n i : Nat) (repr : List Nat), repr.length = entries → i + n ≤ h.pages.length →
      ∃ r, repr_loop h size n i repr = .ok r ∧ r.length = entries := by
  intro n
  induction n with
  | zero => intro i repr hlen _; exact ⟨repr, rfl, hlen⟩
  | succ n ih =>
    intro i repr hlen hin
    rw [repr_loop_step]
    have hi : i < h.pages.length := by omega
    cases hp : h.pages[i]? with
    | none =>
      rw [List.getElem?_eq_getElem hi] at hp
      exact Option.noConfusion hp
    | some slot =>
      cases slot with
      | none => exact ih (i + 1) repr hlen (by omega)
      | some page =>
        obtain ⟨h1, h2⟩ := hrange i page hp
        obtain ⟨r1, hc, hl1⟩ := copy_words_ok repr page (repr_start_idx i)
          (repr_copy_words size i) (by rw [hlen]; exact h1) h2
        dsimp only
        rw [hc]
        exact ih (i + 1) r1 (hl1.trans hlen) (by omega)

theorem pages_below_set (pages : Directory) (k m m1 : Nat) (p : Page)
    (hb : pages_below pages m) (hm : m ≤ m1) (hk : k * 32768 ≤ m1) :
    pages_below (pages.set k (some p)) m1 := by
  intro i page hi
  by_cases he : k = i
  · rw [← he]; exact hk
  · rw [List.getElem?_set_ne he] at hi
    exact Nat.le_trans (hb i page hi) hm

theorem slot_start_le (id : Nat) : (id >>> 18) * 32768 ≤ id := by
  rw [Nat.shiftRight_eq_div_pow, show (2 : Nat) ^ 18 = 262144 by decide]
  omega

theorem repr_inv_init : repr_inv abitset_expandable_init := by
  refine ⟨count_inv_init.1, count_inv_init.2.1, by show (0 : Nat) < 536870912; omega, ?_⟩
  intro i page hi
  have hmem : some page ∈ List.replicate INITIAL_PAGES (none : Option Page) :=
    List.getElem?_mem hi
  exact Option.noConfusion (List.eq_of_mem_replicate hmem)

/-- A write at the place addressed by `id`, with `max_bit` raised to `id` if
it was lower, keeps the invariant when the page index is inside the directory. -/
theorem repr_inv_write (h : abitset_expandable_s) (id w bc : Nat) (hinv : repr_inv h)
    (hlt : id >>> 18 < h.page_count) :
    repr_inv
      { pages := h.pages.set (id >>> 18) (some ((page_at h.pages (id >>> 18)).set
          ((id >>> 6) &&& (PAGE_ENTRIES - 1)) w))
        old_pages := h.old_pages
        page_count := h.page_count
        max_bit := if id > h.max_bit then id else h.max_bit
        bit_count := bc } := by
  obtain ⟨hok, hpc, hmax, hbelow⟩ := hinv
  have hid := page_index_bound id (by rw [← hpc]; exact hlt)
  have hstart := slot_start_le id
  refine ⟨dir_ok_write h id _ _ _ hok, hpc, ?_, ?_⟩
  · show (if id > h.max_bit then id else h.max_bit) < 536870912
    split <;> omega
  · show pages_below (h.pages.set _ _) (if id > h.max_bit then id else h.max_bit)
    apply pages_below_set _ _ h.max_bit _ _ hbelow
    · split <;> omega
    · split <;> omega

/-- One successful call keeps the invariant. -/
theorem repr_inv_apply (h h1 : abitset_expandable_s) (op : Op) (hinv : repr_inv h)
    (hop : apply_op h op = .ok h1) : repr_inv h1 := by
  cases op with
  | set id =>
    by_cases hlt : id >>> 18 < h.page_count
    · rw [← Except.ok.inj ((set_no_resize h id hinv.1 hlt).symm.trans hop)]
      exact repr_inv_write h id _ _ hinv hlt
    · obtain ⟨e, he⟩ := set_resize_error h id hinv.1.1 (by omega)
      exact Except.noConfusion (he.symm.trans hop)
  | unset id =>
    by_cases hlt : id >>> 18 < h.page_count
    · rw [← Except.ok.inj ((unset_no_resize h id hinv.1 hlt).symm.trans hop)]
      exact repr_inv_write h id _ _ hinv hlt
    · obtain ⟨e, he⟩ := unset_resize_error h id hinv.1.1 (by omega)
      exact Except.noConfusion (he.symm.trans hop)

/-- Every state a run reaches from a state with the invariant has it. -/
theorem repr_inv_run (ops : List Op) :
    ∀ (h0 h : abitset_expandable_s), repr_inv h0 → run h0 ops = .ok h → repr_inv h := by
  induction ops with
  | nil =>
    intro h0 h hinv hr
    have : h0 = h := Except.ok.inj hr
    exact this ▸ hinv
  | cons op ops ih =>
    intro h0 h hinv hr
    unfold run at hr
    cases hop : apply_op h0 op with
    | error e => rw [hop] at hr; exact Except.noConfusion hr
    | ok h1 =>
      rw [hop] at hr
      exact ih h1 h (repr_inv_apply h0 h1 op hinv hop) hr

theorem dir_ok_install (h g : abitset_expandable_s) (k : Nat) (p : Page) (hok : dir_ok h)
    (hp : p.length = PAGE_ENTRIES) (hpages : g.pages = h.pages.set k (some p))
    (hpc : g.page_count = h.page_count) : dir_ok g := by
  refine ⟨by rw [hpages, hpc, List.length_set]; exact hok.1, ?_⟩
  intro q hq
  rw [hpages] at hq
  rcases List.mem_or_eq_of_mem_set hq with hmem | heq
  · exact hok.2 q hmem
  · rw [Option.some.inj heq]
    exact hp

/-- The import loop keeps the shape of the directory, and installs pages only
at slots that start at or below bit `m` when the words it visits end at or
below that bit. -/
theorem load_loop_pages (repr : List Nat) (m : Nat) :
    ∀ (n i : Nat) (h h1 : abitset_expandable_s), load_loop repr n i h = .ok h1 →
      dir_ok h → pages_below h.pages m → (i + n) * 64 ≤ m + 64 →
      dir_ok h1 ∧ h1.page_count = h.page_count ∧ pages_below h1.pages m := by
  intro n
  induction n with
  | zero =>
    intro i h h1 hl hok hb _
    rw [load_loop] at hl
    rw [← Except.ok.inj hl]
    exact ⟨hok, rfl, hb⟩
  | succ n ih =>
    intro i h h1 hl hok hb hin
    rw [load_loop] at hl
    cases hr : repr[i]? with
    | none => rw [hr] at hl; exact Except.noConfusion hl
    | some value =>
      rw [hr] at hl
      dsimp only at hl
      by_cases hz : value ≠ 0
      · rw [if_pos hz] at hl
        cases hp : h.pages[i >>> 9]? with
        | none => rw [hp] at hl; exact Except.noConfusion hl
        | some slot =>
          rw [hp] at hl
          dsimp only at hl
          have hslot : (i >>> 9) * 32768 ≤ m := by
            rw [Nat.shiftRight_eq_div_pow, show (2 : Nat) ^ 9 = 512 by decide]
            omega
          have hplen : (match slot with
              | none => List.replicate PAGE_ENTRIES 0
              | some q => q).length = PAGE_ENTRIES := by
            cases slot with
            | none => exact List.length_replicate _ _
            | some q => exact hok.2 q (List.getElem?_mem hp)
          split at hl
          · have hih := ih (i + 1) _ h1 hl
            refine hih ?_ ?_ (by omega)
            · exact dir_ok_install h _ (i >>> 9) _ hok
                ((List.length_set _ _ _).trans hplen) rfl rfl
            · exact pages_below_set _ _ m m _ hb (Nat.le_refl m) hslot
          · exact Except.noConfusion hl
      · rw [if_neg hz] at hl
        exact ih (i + 1) h h1 hl hok hb (by omega)

/-- Every bitset `abitset_expandable_load` returns has the invariant. -/
theorem repr_inv_load (repr : List Nat) (size : Nat) (h : abitset_expandable_s)
    (hl : abitset_expandable_load repr size = .ok h) : repr_inv h := by
  unfold abitset_expandable_load at hl
  cases he : abitset_expandable_expand abitset_expandable_init ((size + U32 - 1) % U32) with
  | error e => rw [he] at hl; exact Except.noConfusion hl
  | ok h1 =>
    rw [he] at hl
    have hlt : ((size + U32 - 1) % U32) >>> 18 < INITIAL_PAGES := by
      by_cases hlt : ((size + U32 - 1) % U32) >>> 18 < INITIAL_PAGES
      · exact hlt
      · obtain ⟨e, hx⟩ := expand_resize_error abitset_expandable_init ((size + U32 - 1) % U32)
          count_inv_init.1.1 (by rw [count_inv_init.2.1]; omega)
        exact Except.noConfusion (hx.symm.trans he)
    have hid := page_index_bound _ hlt
    have h1eq := Except.ok.inj ((load_expand_ok size hlt).symm.trans he)
    have hok1 : dir_ok h1 := by
      rw [← h1eq]
      exact dir_ok_install abitset_expandable_init _ _ _ count_inv_init.1
        (page_at_length abitset_expandable_init count_inv_init.1 _) rfl rfl
    have hpc1 : h1.page_count = INITIAL_PAGES := by
      rw [← h1eq]
      exact count_inv_init.2.1
    have hb1 : pages_below h1.pages ((size + U32 - 1) % U32) := by
      rw [← h1eq]
      exact pages_below_set _ _ 0 _ _ repr_inv_init.2.2.2 (Nat.zero_le _) (slot_start_le _)
    have hwords : (0 + ((size + 63) % U32) >>> 6) * 64 ≤ (size + U32 - 1) % U32 + 64 := by
      rw [Nat.shiftRight_eq_div_pow, show (2 : Nat) ^ 6 = 64 by decide]
      unfold U32 at hid ⊢
      omega
    cases hll : load_loop repr (((size + 63) % U32) >>> 6) 0 h1 with
    | error e =>
      have hl2 : (Except.error e : Except Fault abitset_expandable_s) = .ok h := by
        rw [← hl]; simp only [bind, Except.bind, hll]
      exact Except.noConfusion hl2
    | ok h2 =>
      have hl2 : (Except.ok { h2 with max_bit := (size + U32 - 1) % U32 }
          : Except Fault abitset_expandable_s) = .ok h := by
        rw [← hl]; simp only [bind, Except.bind, hll]; rfl
      obtain ⟨hok2, hpc2, hb2⟩ := load_loop_pages repr _ _ 0 h1 h2 hll hok1 hb1 hwords
      rw [← Except.ok.inj hl2]
      exact ⟨⟨hok2.1, hok2.2⟩, hpc2.trans hpc1, hid, hb2⟩

/-- The ranges of the export in a state with the invariant. -/
theorem repr_ranges (h : abitset_expandable_s) (hinv : repr_inv h) :
    abitset_expandable_size h = h.max_bit + 1 ∧
    (∀ i page, h.pages[i]? = some (some page) →
      i < h.page_count ∧ i * 32768 < h.max_bit + 1 ∧
      repr_start_idx i = i * 512 ∧
      repr_copy_words (h.max_bit + 1) i = min 512 ((h.max_bit + 1 - i * 32768 + 63) / 64) ∧
      repr_start_idx i + repr_copy_words (h.max_bit + 1) i ≤ (h.max_bit + 1 + 63) / 64 ∧
      repr_copy_words (h.max_bit + 1) i ≤ page.length) ∧
    (∃ r, abitset_expandable_repr h = .ok r ∧ r.length = (h.max_bit + 1 + 63) / 64) := by
  obtain ⟨hok, hpc, hmax, hbelow⟩ := hinv
  have hip : INITIAL_PAGES = 2048 := by decide
  have hsize : (h.max_bit + 1) % U32 = h.max_bit + 1 := by
    unfold U32
    omega
  have hentries : ((h.max_bit + 1 + 63) % U32) >>> 6 = (h.max_bit + 1 + 63) / 64 := by
    rw [Nat.shiftRight_eq_div_pow, show (2 : Nat) ^ 6 = 64 by decide]
    unfold U32
    omega
  have hrange : ∀ i page, h.pages[i]? = some (some page) →
      i < h.page_count ∧ i * 32768 < h.max_bit + 1 ∧
      repr_start_idx i = i * 512 ∧
      repr_copy_words (h.max_bit + 1) i = min 512 ((h.max_bit + 1 - i * 32768 + 63) / 64) ∧
      repr_start_idx i + repr_copy_words (h.max_bit + 1) i ≤ (h.max_bit + 1 + 63) / 64 ∧
      repr_copy_words (h.max_bit + 1) i ≤ page.length := by
    intro i page hp
    have hi : i < h.pages.length := (List.getElem?_eq_some.mp hp).1
    have hi2 : i < 2048 := by rw [hok.1, hpc, hip] at hi; exact hi
    have hlo : i * 32768 ≤ h.max_bit := hbelow i page hp
    have hplen : page.length = 512 := by
      rw [hok.2 page (List.getElem?_mem hp)]
      exact page_entries_eq
    have hstart := repr_start_idx_eq i hi2
    have hwords := repr_copy_words_eq (h.max_bit + 1) i hi2 (by omega) (by omega)
    refine ⟨by rw [← hok.1]; exact hi, by omega, hstart, hwords, ?_, ?_⟩
    · rw [hstart, hwords]
      omega
    · rw [hwords, hplen]
      omega
  refine ⟨hsize, hrange, ?_⟩
  rw [repr_unfold h (h.max_bit + 1) h.page_count ((h.max_bit + 1 + 63) / 64) hsize rfl hentries]
  exact repr_loop_total h (h.max_bit + 1) ((h.max_bit + 1 + 63) / 64)
    (fun j page hp => ⟨(hrange j page hp).2.2.2.2.1, (hrange j page hp).2.2.2.2.2⟩)
    h.page_count 0 _ (List.length_replicate _ _) (by rw [hok.1]; omega)

/-- C23: in every state `h` reached from `abitset_expandable_init` or from a
returning `abitset_expandable_load` by set and unset calls, with
`size = max_bit + 1`: `abitset_expandable_repr` returns a buffer of
`ceil(size / 64)` words; for every installed page `i` the slot is one of the
`page_count` the loop visits, its first bit `i * 32768` is below `size`, the
range copied starts at word `i * 512` and has
`min(512, ceil((size - i * 32768) / 64))` words, it ends inside the buffer and
takes no more words than the page has; and the range of a page ends at or
before the start of the range of every later page. -/
theorem repr_in_buffer (h0 h : abitset_expandable_s) (ops : List Op)
    (hstart : h0 = abitset_expandable_init ∨
      ∃ repr size, abitset_expandable_load repr size = .ok h0)
    (hr : run h0 ops = .ok h) :
    abitset_expandable_size h = h.max_bit + 1 ∧
    (∃ r, abitset_expandable_repr h = .ok r ∧
      r.length = (abitset_expandable_size h + 63) / 64) ∧
    (∀ i page, h.pages[i]? = some (some page) →
      i < h.page_count ∧ i * 32768 < abitset_expandable_size h ∧
      repr_start_idx i = i * 512 ∧
      repr_copy_words (abitset_expandable_size h) i
        = min 512 ((abitset_expandable_size h - i * 32768 + 63) / 64) ∧
      repr_start_idx i + repr_copy_words (abitset_expandable_size h) i
        ≤ (abitset_expandable_size h + 63) / 64 ∧
      repr_copy_words (abitset_expandable_size h) i ≤ page.length) ∧
    (∀ i j pi pj, i < j → h.pages[i]? = some (some pi) → h.pages[j]? = some (some pj) →
      repr_start_idx i + repr_copy_words (abitset_expandable_size h) i
        ≤ repr_start_idx j) := by
  have hinv0 : repr_inv h0 := by
    rcases hstart with heq | ⟨repr, size, hl⟩
    · rw [heq]; exact repr_inv_init
    · exact repr_inv_load repr size h0 hl
  have hinv : repr_inv h := repr_inv_run ops h0 h hinv0 hr
  obtain ⟨hsize, hrange, hret⟩ := repr_ranges h hinv
  rw [hsize]
  refine ⟨rfl, hret, hrange, ?_⟩
  intro i j pi pj hij hi hj
  obtain ⟨_, _, hsi, hwi, _, _⟩ := hrange i pi hi
  obtain ⟨_, _, hsj, _, _, _⟩ := hrange j pj hj
  rw [hsi, hwi, hsj]
  omega

/-- Witness for C23: the state the test program reaches by set 0, 100, 4095,
8192 and unset 100, of size 8193: the buffer has 129 words and the page of
slot 0 is copied to words 0 to 128. -/
theorem repr_in_buffer_witness :
    run abitset_expandable_init test_ops = .ok test_state ∧
    abitset_expandable_size test_state = 8193 ∧
    (∃ r, abitset_expandable_repr test_state = .ok r ∧ r.length = 129) ∧
    repr_start_idx 0 = 0 ∧ repr_copy_words 8193 0 = 129 :=
  have hrun : run abitset_expandable_init test_ops = .ok test_state := by decide!
  ⟨hrun, by decide!,
    (repr_in_buffer abitset_expandable_init test_state test_ops (Or.inl rfl) hrun).2.1,
    by decide, by decide⟩

end ABitset
